import Mathlib

/-!
# IniParser: a shallow embedding of `ini::IniParser` and its specification

The development embeds `src/include/ini_config.hpp`, `src/include/ini_exceptions.hpp`
and `src/src/ini_parser.cpp`.

* `std::string` is a list of characters (`Str`); one `Char` stands for one `char`,
  compared by its code as `unsigned char` is.
* `std::map<std::string, V>` is an association list kept in ascending key
  order (`mapInsert` puts a fresh key at its ordered position), with
  `operator<` of `std::string` embedded as `strLt`.
* `std::ifstream` + `std::getline` is the function `getlines` on the text of
  the file; opening the file (and `FileError`) is outside the embedding.
* an exception is a value of `Failure`: the `ParseError` together with the
  member `_data` as the throwing call leaves it.
* `int currentLineNumber` is an `Int` kept in the range of a 32-bit `int`:
  `nextLineNumber` is `++currentLineNumber`, which wraps from `2^31 - 1` to `-2^31`
  as the compiled program does (the C++ standard leaves this overflow undefined).
-/

namespace ini

/-- The embedding of `std::string`. -/
abbrev Str := List Char

/-! ## ini_config.hpp -/

/-- Policy for duplicate keys in one section. -/
inductive DuplicateKeyPolicy where
  | Throw_Error
  | Overwrite
  | Merge
  | Ignore
  deriving DecidableEq, Repr

/-- Policy for duplicate sections. -/
inductive DuplicateSectionPolicy where
  | Throw_Error
  | Overwrite
  | Merge
  | Ignore
  deriving DecidableEq, Repr

/-- Policy for whitespace around keys and values. -/
inductive WhitespacePolicy where
  | Trim
  | Preserve
  deriving DecidableEq, Repr

/-- The enum `LoadFlags` is a bit set over `int`; `operator|` is `|||` and
`operator&` is `&&&`. -/
abbrev LoadFlags := Nat

namespace LoadFlags

def None : LoadFlags := 0
def CaseSensitive : LoadFlags := 1 <<< 0
def AllowNoSection : LoadFlags := 1 <<< 1
def AllowNoKey : LoadFlags := 1 <<< 2
def AllowNoValue : LoadFlags := 1 <<< 3

end LoadFlags

/-- The struct `IniParserConfig` with its default member initialisers. -/
structure IniParserConfig where
  _sectionPolicy : DuplicateSectionPolicy := DuplicateSectionPolicy.Throw_Error
  _keyPolicy : DuplicateKeyPolicy := DuplicateKeyPolicy.Throw_Error
  _loadFlags : LoadFlags := LoadFlags.CaseSensitive
  _whitespacePolicy : WhitespacePolicy := WhitespacePolicy.Trim
  deriving DecidableEq, Repr

/-! ## ini_exceptions.hpp -/

/-- The class `ParseError`: the `message` constructor argument and `_lineNumber`
(`what()` is `"Parse Error: " + message + " on line: " + to_string(_lineNumber)`). -/
structure ParseError where
  message : Str
  _lineNumber : Int
  deriving DecidableEq, Repr

/-! ## std::string and std::map primitives -/

/-- The comparison `operator<` of `std::string`: lexicographic on the character
codes, a proper prefix being smaller. -/
def strLt : Str → Str → Bool
  | [], [] => false
  | [], _ :: _ => true
  | _ :: _, [] => false
  | a :: as, b :: bs =>
    if a.toNat < b.toNat then true
    else if b.toNat < a.toNat then false
    else strLt as bs

/-- The call `str.substr(pos, n)` for `pos ≤ str.size()`. -/
def substr (str : Str) (pos n : Nat) : Str := (str.drop pos).take n

/-- The call `str.substr(pos)` for `pos ≤ str.size()`. -/
def substrFrom (str : Str) (pos : Nat) : Str := str.drop pos

/-- The call `str.find(c)`; `npos` is `none`. -/
def find (str : Str) (c : Char) : Option Nat :=
  match str with
  | [] => none
  | d :: ds => if d = c then some 0 else (find ds c).map (· + 1)

/-- The call `str.find_first_not_of(set)`; `npos` is `none`. -/
def find_first_not_of (str set : Str) : Option Nat :=
  match str with
  | [] => none
  | d :: ds => if d ∈ set then (find_first_not_of ds set).map (· + 1) else some 0

/-- The call `str.find_last_not_of(set)`; `npos` is `none`. -/
def find_last_not_of (str set : Str) : Option Nat :=
  (find_first_not_of str.reverse set).map (fun i => str.length - 1 - i)

/-- A `std::map<std::string, V>`: its entries in iteration order. -/
abbrev StrMap (β : Type) := List (Str × β)

/-- The call `m.find(k)`; `m.end()` is `none`. -/
def mapFind {β : Type} (m : StrMap β) (k : Str) : Option β :=
  match m with
  | [] => none
  | (k', v) :: rest => if k' = k then some v else mapFind rest k

/-- The assignment `m[k] = v`: replaces the entry of `k` or inserts a new
entry at its position in the key order. -/
def mapInsert {β : Type} (m : StrMap β) (k : Str) (v : β) : StrMap β :=
  match m with
  | [] => [(k, v)]
  | (k', v') :: rest =>
    if k' = k then (k, v) :: rest
    else if strLt k k' then (k, v) :: (k', v') :: rest
    else (k', v') :: mapInsert rest k v

/-- The map after evaluating `m[k]`: an absent key gets a value-initialised entry. -/
def mapTouch {β : Type} (m : StrMap β) (k : Str) (dflt : β) : StrMap β :=
  match mapFind m k with
  | some _ => m
  | none => mapInsert m k dflt

/-- The value of `m[k]`. -/
def mapAt {β : Type} (m : StrMap β) (k : Str) (dflt : β) : β :=
  (mapFind m k).getD dflt

/-- The type of one section, `std::map<std::string, std::string>`. -/
abbrev Section := StrMap Str

/-- The type of the member `_data`. -/
abbrev Data := StrMap Section

/-! ## ini_parser.cpp -/

/-- The local constant `whitespace` of `trim`: `" \t\n\r\f\v"`. -/
def whitespace : Str := [' ', '\t', '\n', '\r', '\x0c', '\x0b']

/-- The function `IniParser::trim`. -/
def trim (str : Str) : Str :=
  match find_first_not_of str whitespace, find_last_not_of str whitespace with
  | some start, some «end» => substr str start («end» - start + 1)
  | _, _ => []

/-- The function `IniParser::to_lower`: a lowered copy of its argument. -/
def to_lower (str : Str) : Str := str.map Char.toLower

/-- An exception leaving `load`: the error and the member `_data` at the throw. -/
structure Failure where
  error : ParseError
  _data : Data
  deriving DecidableEq, Repr

/-- The increment `++currentLineNumber` of the 32-bit `int` counter: one more, and
from `2147483647` the two's complement wrap to `-2147483648`. -/
def nextLineNumber (n : Int) : Int := (n + 1 + 2147483648) % 4294967296 - 2147483648

/-- The variables of the loop of `load`. -/
structure LoadState where
  _data : Data
  currentSection : Str
  currentLineNumber : Int
  deriving DecidableEq, Repr

/-- Repeated `std::getline(file, line)` until it fails: the text is cut at each
`'\n'`, and reaching the end of the text with nothing extracted ends the loop. -/
def getlines : Str → List Str
  | [] => []
  | c :: cs =>
    if c = '\n' then [] :: getlines cs
    else
      match getlines cs with
      | [] => [[c]]
      | l :: ls => (c :: l) :: ls

/-- One iteration of the `while` loop of `IniParser::load` on the line just read. -/
def loadLine (config : IniParserConfig) (st : LoadState) (rawLine : Str) :
    Except Failure LoadState :=
  let _data := st._data
  let currentLineNumber := st.currentLineNumber
  let line := trim rawLine
  if line.isEmpty || line.head? == some ';' || line.head? == some '#' then
    .ok { st with currentLineNumber := nextLineNumber currentLineNumber }
  else if line.head? == some '[' && line.getLast? == some ']' then
    let currentSection := substr line 1 (line.length - 2)
    -- `to_lower(currentSection);` the lowered copy is discarded
    let _lowered := if (config._loadFlags &&& LoadFlags.CaseSensitive) == 0
      then to_lower currentSection else currentSection
    match mapFind _data currentSection with
    | some _ =>
      match config._sectionPolicy with
      | DuplicateSectionPolicy.Ignore =>
        .ok { _data := _data, currentSection := currentSection,
              currentLineNumber := nextLineNumber currentLineNumber }
      | DuplicateSectionPolicy.Overwrite =>
        .ok { _data := mapInsert _data currentSection [], currentSection := currentSection,
              currentLineNumber := nextLineNumber currentLineNumber }
      | DuplicateSectionPolicy.Merge =>
        .ok { _data := _data, currentSection := currentSection,
              currentLineNumber := nextLineNumber currentLineNumber }
      | DuplicateSectionPolicy.Throw_Error =>
        .error { error := { message := "Duplicate section: ".toList ++ currentSection,
                            _lineNumber := currentLineNumber },
                 _data := _data }
    | none =>
      .ok { _data := mapInsert _data currentSection [], currentSection := currentSection,
            currentLineNumber := nextLineNumber currentLineNumber }
  else
    let currentSection := st.currentSection
    match find line '=' with
    | none =>
      .error { error := { message := "Invalid line (no '=' found): ".toList ++ line,
                          _lineNumber := currentLineNumber },
               _data := _data }
    | some delimiterPos =>
      let key := substr line 0 delimiterPos
      let value := substrFrom line (delimiterPos + 1)
      let key := if config._whitespacePolicy = WhitespacePolicy.Trim then trim key else key
      if key.isEmpty && (config._loadFlags &&& LoadFlags.AllowNoKey) == 0 then
        .error { error := { message := "Empty key in line: ".toList ++ line,
                            _lineNumber := currentLineNumber },
                 _data := _data }
      else
      let value := if config._whitespacePolicy = WhitespacePolicy.Trim then trim value else value
      if value.isEmpty && (config._loadFlags &&& LoadFlags.AllowNoValue) == 0 then
        .error { error := { message := "Empty value for key: ".toList ++ key
                              ++ " in line: ".toList ++ line,
                            _lineNumber := currentLineNumber },
                 _data := _data }
      else
      -- `to_lower(value);` the lowered copy is discarded
      let _lowered := if (config._loadFlags &&& LoadFlags.CaseSensitive) == 0
        then to_lower value else value
      if currentSection.isEmpty && (config._loadFlags &&& LoadFlags.AllowNoSection) == 0 then
        .error { error := { message :=
                              "Key-value pair found outside of a section: ".toList ++ line,
                            _lineNumber := currentLineNumber },
                 _data := _data }
      else
      -- `_data[currentSection]` creates the section when it is absent
      let _data := mapTouch _data currentSection []
      match mapFind (mapAt _data currentSection []) key with
      | none =>
        .ok { _data := mapInsert _data currentSection
                (mapInsert (mapAt _data currentSection []) key value),
              currentSection := currentSection,
              currentLineNumber := nextLineNumber currentLineNumber }
      | some old =>
        match config._keyPolicy with
        | DuplicateKeyPolicy.Throw_Error =>
          .error { error := { message := "Duplicated key: ".toList ++ key,
                              _lineNumber := currentLineNumber },
                   _data := _data }
        | DuplicateKeyPolicy.Merge =>
          .ok { _data := mapInsert _data currentSection
                  (mapInsert (mapAt _data currentSection []) key (old ++ value)),
                currentSection := currentSection,
                currentLineNumber := nextLineNumber currentLineNumber }
        | DuplicateKeyPolicy.Overwrite =>
          .ok { _data := mapInsert _data currentSection
                  (mapInsert (mapAt _data currentSection []) key value),
                currentSection := currentSection,
                currentLineNumber := nextLineNumber currentLineNumber }
        | DuplicateKeyPolicy.Ignore =>
          .ok { _data := _data, currentSection := currentSection,
                currentLineNumber := nextLineNumber currentLineNumber }

/-- The `while` loop of `IniParser::load` over the lines still to be read. -/
def loadLines (config : IniParserConfig) : LoadState → List Str → Except Failure LoadState
  | st, [] => .ok st
  | st, rawLine :: rest =>
    match loadLine config st rawLine with
    | .error f => .error f
    | .ok st' => loadLines config st' rest

/-- The function `IniParser::load` on a parser whose member is `_data`, reading
a file whose content is `text`: the final `_data`, or the exception thrown. -/
def load (config : IniParserConfig) (_data : Data) (text : Str) : Except Failure Data :=
  match loadLines config
      { _data := _data, currentSection := [], currentLineNumber := 1 } (getlines text) with
  | .error f => .error f
  | .ok st => .ok st._data

/-- The function `IniParser::get`. -/
def get (_data : Data) («section» key defaultValue : Str) : Str :=
  if «section».isEmpty || key.isEmpty then defaultValue
  else
    match mapFind _data «section» with
    | none => defaultValue
    | some sectionMap =>
      match mapFind sectionMap key with
      | none => defaultValue
      | some value => value

/-- The function `IniParser::to_string`. -/
def to_string (_data : Data) : Str :=
  _data.foldl (fun oss sk =>
    sk.2.foldl (fun oss kv => oss ++ kv.1 ++ " = ".toList ++ kv.2 ++ ['\n'])
      (oss ++ ['['] ++ sk.1 ++ "]\n".toList)) []

/-! ## Vocabulary for the statements -/

/-- What `load` takes a line for (lines 34-42 and 80-113 of `ini_parser.cpp`):
skipped (blank or comment), a section header, a line without `'='`, a pair
rejected for its empty key or empty value, or an accepted key-value pair, with
the key and the value as the whitespace policy leaves them. -/
inductive LineKind where
  | skip
  | header (name : Str)
  | noDelimiter
  | emptyKey
  | emptyValue (key : Str)
  | pair (key value : Str)
  deriving DecidableEq, Repr

/-- The classification of a line read by `load`, and its parts. -/
def lineKind (config : IniParserConfig) (rawLine : Str) : LineKind :=
  let line := trim rawLine
  if line.isEmpty || line.head? == some ';' || line.head? == some '#' then LineKind.skip
  else if line.head? == some '[' && line.getLast? == some ']' then
    LineKind.header (substr line 1 (line.length - 2))
  else
    match find line '=' with
    | none => LineKind.noDelimiter
    | some delimiterPos =>
      let key := substr line 0 delimiterPos
      let value := substrFrom line (delimiterPos + 1)
      let key := if config._whitespacePolicy = WhitespacePolicy.Trim then trim key else key
      if key.isEmpty && (config._loadFlags &&& LoadFlags.AllowNoKey) == 0 then LineKind.emptyKey
      else
      let value := if config._whitespacePolicy = WhitespacePolicy.Trim then trim value else value
      if value.isEmpty && (config._loadFlags &&& LoadFlags.AllowNoValue) == 0 then
        LineKind.emptyValue key
      else LineKind.pair key value

/-- The value stored for `key` in section `section`, if any. -/
def lookup (_data : Data) («section» key : Str) : Option Str :=
  (mapFind _data «section»).bind (fun sectionMap => mapFind sectionMap key)

/-- The state of `load` before its first line. -/
def initialState (_data : Data) : LoadState :=
  { _data := _data, currentSection := [], currentLineNumber := 1 }

/-- The section-header branch of `load` (lines 46-76) for the extracted name, on its
own; `loadLine_eq` shows that `loadLine` runs it. -/
def enterSection (config : IniParserConfig) (st : LoadState) (name : Str) : Except Failure LoadState :=
  match mapFind st._data name with
  | some _ =>
    match config._sectionPolicy with
    | DuplicateSectionPolicy.Ignore =>
      .ok { _data := st._data, currentSection := name, currentLineNumber := nextLineNumber st.currentLineNumber }
    | DuplicateSectionPolicy.Overwrite =>
      .ok { _data := mapInsert st._data name [], currentSection := name,
            currentLineNumber := nextLineNumber st.currentLineNumber }
    | DuplicateSectionPolicy.Merge =>
      .ok { _data := st._data, currentSection := name, currentLineNumber := nextLineNumber st.currentLineNumber }
    | DuplicateSectionPolicy.Throw_Error =>
      .error { error := { message := "Duplicate section: ".toList ++ name,
                          _lineNumber := st.currentLineNumber },
               _data := st._data }
  | none =>
    .ok { _data := mapInsert st._data name [], currentSection := name,
          currentLineNumber := nextLineNumber st.currentLineNumber }

/-- The storing part of `load` (lines 119-147) for an accepted pair of the line
`line`, on its own; `loadLine_eq` shows that `loadLine` runs it. -/
def storePair (config : IniParserConfig) (st : LoadState) (line key value : Str) :
    Except Failure LoadState :=
  if st.currentSection.isEmpty && (config._loadFlags &&& LoadFlags.AllowNoSection) == 0 then
    .error { error := { message := "Key-value pair found outside of a section: ".toList ++ line,
                        _lineNumber := st.currentLineNumber },
             _data := st._data }
  else
    let _data := mapTouch st._data st.currentSection []
    match mapFind (mapAt _data st.currentSection []) key with
    | none =>
      .ok { _data := mapInsert _data st.currentSection
              (mapInsert (mapAt _data st.currentSection []) key value),
            currentSection := st.currentSection,
            currentLineNumber := nextLineNumber st.currentLineNumber }
    | some old =>
      match config._keyPolicy with
      | DuplicateKeyPolicy.Throw_Error =>
        .error { error := { message := "Duplicated key: ".toList ++ key,
                            _lineNumber := st.currentLineNumber },
                 _data := _data }
      | DuplicateKeyPolicy.Merge =>
        .ok { _data := mapInsert _data st.currentSection
                (mapInsert (mapAt _data st.currentSection []) key (old ++ value)),
              currentSection := st.currentSection,
              currentLineNumber := nextLineNumber st.currentLineNumber }
      | DuplicateKeyPolicy.Overwrite =>
        .ok { _data := mapInsert _data st.currentSection
                (mapInsert (mapAt _data st.currentSection []) key value),
              currentSection := st.currentSection,
              currentLineNumber := nextLineNumber st.currentLineNumber }
      | DuplicateKeyPolicy.Ignore =>
        .ok { _data := _data, currentSection := st.currentSection,
              currentLineNumber := nextLineNumber st.currentLineNumber }

/-- What `load` does with a line of each kind; `loadLine_eq` shows that `loadLine` is
this function of the kind of the line. -/
def dispatch (config : IniParserConfig) (st : LoadState) (raw : Str) :
    LineKind → Except Failure LoadState
  | .skip => .ok { st with currentLineNumber := nextLineNumber st.currentLineNumber }
  | .header name => enterSection config st name
  | .noDelimiter =>
    .error { error := { message := "Invalid line (no '=' found): ".toList ++ trim raw,
                        _lineNumber := st.currentLineNumber },
             _data := st._data }
  | .emptyKey =>
    .error { error := { message := "Empty key in line: ".toList ++ trim raw,
                        _lineNumber := st.currentLineNumber },
             _data := st._data }
  | .emptyValue key =>
    .error { error := { message := "Empty value for key: ".toList ++ key
                          ++ " in line: ".toList ++ trim raw,
                        _lineNumber := st.currentLineNumber },
             _data := st._data }
  | .pair key value => storePair config st (trim raw) key value

/-- The member `_data` after `_data[section][key] = value`. -/
def storeAt (_data : Data) («section» key value : Str) : Data :=
  mapInsert (mapTouch _data «section» []) «section»
    (mapInsert (mapAt (mapTouch _data «section» []) «section» []) key value)

/-- The value a key holds after an accepted pair with value `value` met the
entry `old` of that key, under the key policy (lines 125-145). -/
def resolveDuplicate (policy : DuplicateKeyPolicy) (old : Option Str) (value : Str) : Str :=
  match old with
  | none => value
  | some o =>
    match policy with
    | DuplicateKeyPolicy.Throw_Error => o
    | DuplicateKeyPolicy.Overwrite => value
    | DuplicateKeyPolicy.Merge => o ++ value
    | DuplicateKeyPolicy.Ignore => o

/-- Whether a line is a section header. -/
def LineKind.isHeader : LineKind → Bool
  | LineKind.header _ => true
  | _ => false

deriving instance DecidableEq for Except

/-- The key of an accepted pair line. -/
def LineKind.key? : LineKind → Option Str
  | LineKind.pair key _ => some key
  | _ => none

/-- Whether a line is skipped or an accepted pair. -/
def LineKind.isSkipOrPair : LineKind → Bool
  | LineKind.skip => true
  | LineKind.pair _ _ => true
  | _ => false

/-- What a text asks `load` to record: a section header, or an accepted key-value
pair together with the section that is current where the pair stands. -/
inductive Event where
  | header (name : Str)
  | pair («section» key value : Str)
  deriving DecidableEq, Repr

/-- The headers and accepted pairs of the lines, in the order of the text; `current`
is the section current before the first of the lines. A header makes its name the
current section whatever the section policy. -/
def events (config : IniParserConfig) : Str → List Str → List Event
  | _, [] => []
  | current, rawLine :: rest =>
    match lineKind config rawLine with
    | LineKind.header name => Event.header name :: events config name rest
    | LineKind.pair key value => Event.pair current key value :: events config current rest
    | _ => events config current rest

/-- A non-empty string that neither starts nor ends with a whitespace character. -/
def noOuterSpace (s : Str) : Bool :=
  match s.head?, s.getLast? with
  | some c, some d => decide (c ∉ whitespace) && decide (d ∉ whitespace)
  | _, _ => false

/-- A key that `to_string` followed by `load` gives back: non-empty, no whitespace at
its ends, no line break, no `'='`, and not starting a comment. -/
def plainKey (key : Str) : Bool :=
  noOuterSpace key && !key.contains '\n' && !key.contains '='
    && key.head? != some ';' && key.head? != some '#'

/-- A value that `to_string` followed by `load` gives back: non-empty, no whitespace
at its ends, no line break. -/
def plainValue (value : Str) : Bool :=
  noOuterSpace value && !value.contains '\n'

/-- An entry whose line `key = value` is read back as this key and value, and not as
a section header. -/
def plainEntry (kv : Str × Str) : Bool :=
  plainKey kv.1 && plainValue kv.2 && !(kv.1.head? == some '[' && kv.2.getLast? == some ']')

/-- A section whose header and entries are read back as they are: the name has no
line break and is non-empty when the section has entries. -/
def plainSection (sk : Str × Section) : Bool :=
  !sk.1.contains '\n' && (sk.2.isEmpty || !sk.1.isEmpty) && sk.2.all plainEntry

/-- The invariant of `std::map`: the keys are strictly ascending. -/
def sortedKeys {β : Type} (m : StrMap β) : Prop :=
  m.Pairwise (fun a b => strLt a.1 b.1 = true)

/-- The invariant of the member `_data`: a map of maps. -/
def wellFormed (_data : Data) : Prop :=
  sortedKeys _data ∧ ∀ sk ∈ _data, sortedKeys sk.2

instance sortedKeys.decidable {β : Type} (m : StrMap β) : Decidable (sortedKeys m) := by
  unfold sortedKeys; infer_instance

instance wellFormed.decidable (_data : Data) : Decidable (wellFormed _data) := by
  unfold wellFormed; infer_instance

/-- The line `to_string` writes for a section header. -/
def headerLine (name : Str) : Str := ['['] ++ name ++ [']']

/-- The line `to_string` writes for an entry. -/
def entryLine (kv : Str × Str) : Str := kv.1 ++ " = ".toList ++ kv.2

/-- The lines `to_string` writes for a document. -/
def documentLines (_data : Data) : List Str :=
  _data.flatMap (fun sk => headerLine sk.1 :: sk.2.map entryLine)

/-- The text before and the text after the first `'='` of a line that `load` takes
for a key-value line (not skipped, not a header, with a `'='`), cut from the line as
`trim` leaves it and before the whitespace policy is applied (lines 80-87). -/
def rawPair (rawLine : Str) : Option (Str × Str) :=
  let line := trim rawLine
  if line.isEmpty || line.head? == some ';' || line.head? == some '#' then none
  else if line.head? == some '[' && line.getLast? == some ']' then none
  else
    match find line '=' with
    | none => none
    | some delimiterPos => some (substr line 0 delimiterPos, substrFrom line (delimiterPos + 1))

/-! ## The loop body by kind of line -/

theorem loadLine_eq (config : IniParserConfig) (st : LoadState) (raw : Str) :
    loadLine config st raw = dispatch config st raw (lineKind config raw) := by
  unfold loadLine lineKind
  simp only
  repeat' (first | rfl | split)

/-! ## Facts about the map primitives -/

theorem mapFind_mapInsert_self {β : Type} (m : StrMap β) (k : Str) (v : β) :
    mapFind (mapInsert m k v) k = some v := by
  induction m with
  | nil => simp [mapInsert, mapFind]
  | cons p rest ih =>
    obtain ⟨k', v'⟩ := p
    unfold mapInsert
    split_ifs with h1 h2
    · simp [mapFind]
    · simp [mapFind]
    · simp [mapFind, h1, ih]

theorem mapFind_mapInsert_ne {β : Type} (m : StrMap β) (k k2 : Str) (v : β) (h : k2 ≠ k) :
    mapFind (mapInsert m k v) k2 = mapFind m k2 := by
  induction m with
  | nil => simp [mapInsert, mapFind, Ne.symm h]
  | cons p rest ih =>
    obtain ⟨k', v'⟩ := p
    unfold mapInsert
    split_ifs with h1 h2
    · subst h1; simp [mapFind, Ne.symm h]
    · simp [mapFind, Ne.symm h]
    · simp [mapFind, ih]

theorem mapFind_mapTouch_ne {β : Type} (m : StrMap β) (k k2 : Str) (d : β) (h : k2 ≠ k) :
    mapFind (mapTouch m k d) k2 = mapFind m k2 := by
  unfold mapTouch
  split
  · rfl
  · exact mapFind_mapInsert_ne m k k2 d h

theorem mapFind_mapTouch_self {β : Type} (m : StrMap β) (k : Str) (d : β) :
    mapFind (mapTouch m k d) k = some (mapAt m k d) := by
  unfold mapTouch mapAt
  split
  · rename_i v hv; simp [hv]
  · rename_i hv; simp [hv, mapFind_mapInsert_self]

theorem mapAt_mapTouch {β : Type} (m : StrMap β) (k : Str) (d : β) :
    mapAt (mapTouch m k d) k d = mapAt m k d := by
  simp [mapAt, mapFind_mapTouch_self]

theorem mapTouch_of_find {β : Type} (m : StrMap β) (k : Str) (d v : β)
    (h : mapFind m k = some v) : mapTouch m k d = m := by
  simp [mapTouch, h]

theorem mapFind_mapAt (_data : Data) (s k : Str) :
    mapFind (mapAt _data s []) k = lookup _data s k := by
  unfold mapAt lookup
  cases mapFind _data s <;> simp [mapFind]

theorem lookup_storeAt_self (_data : Data) (s k v : Str) :
    lookup (storeAt _data s k v) s k = some v := by
  simp [lookup, storeAt, mapFind_mapInsert_self]

theorem lookup_storeAt_ne (_data : Data) (s k v s2 k2 : Str) (h : s2 ≠ s ∨ k2 ≠ k) :
    lookup (storeAt _data s k v) s2 k2 = lookup _data s2 k2 := by
  by_cases hs : s2 = s
  · subst hs
    have hk : k2 ≠ k := by
      rcases h with h | h
      · exact absurd rfl h
      · exact h
    simp [lookup, storeAt, mapFind_mapInsert_self, mapFind_mapInsert_ne _ _ _ _ hk, mapAt_mapTouch]
    exact mapFind_mapAt _data s2 k2
  · simp [lookup, storeAt, mapFind_mapInsert_ne _ _ _ _ hs, mapFind_mapTouch_ne _ _ _ _ hs]

theorem lookup_mapTouch (_data : Data) (s s2 k2 : Str) :
    lookup (mapTouch _data s []) s2 k2 = lookup _data s2 k2 := by
  by_cases hs : s2 = s
  · subst hs
    simp [lookup, mapFind_mapTouch_self]
    exact mapFind_mapAt _data s2 k2
  · simp [lookup, mapFind_mapTouch_ne _ _ _ _ hs]

theorem lookup_clear_self (_data : Data) (s k : Str) :
    lookup (mapInsert _data s []) s k = none := by
  simp [lookup, mapFind_mapInsert_self, mapFind]

theorem lookup_clear_ne (_data : Data) (s s2 k : Str) (h : s2 ≠ s) :
    lookup (mapInsert _data s []) s2 k = lookup _data s2 k := by
  simp [lookup, mapFind_mapInsert_ne _ _ _ _ h]

theorem lookup_of_find_none (_data : Data) (s k : Str) (h : mapFind _data s = none) :
    lookup _data s k = none := by
  simp [lookup, h]

/-! ## Facts about the loop -/

theorem mapTouch_of_lookup (_data : Data) (s k old : Str) (h : lookup _data s k = some old) :
    mapTouch _data s [] = _data := by
  unfold lookup at h
  cases hs : mapFind _data s with
  | none => simp [hs] at h
  | some sec => exact mapTouch_of_find _data s [] sec hs

theorem storePair_outside (config : IniParserConfig) (st : LoadState) (line k v : Str)
    (hcur : st.currentSection = [])
    (hflag : config._loadFlags &&& LoadFlags.AllowNoSection = 0) :
    storePair config st line k v =
      .error { error := { message := "Key-value pair found outside of a section: ".toList ++ line,
                          _lineNumber := st.currentLineNumber },
               _data := st._data } := by
  simp [storePair, hcur, hflag]

theorem storePair_new (config : IniParserConfig) (st : LoadState) (line k v : Str)
    (hguard : st.currentSection ≠ [] ∨ config._loadFlags &&& LoadFlags.AllowNoSection ≠ 0)
    (hnew : lookup st._data st.currentSection k = none) :
    storePair config st line k v =
      .ok { _data := storeAt st._data st.currentSection k v,
            currentSection := st.currentSection,
            currentLineNumber := nextLineNumber st.currentLineNumber } := by
  have hg : ¬ ((st.currentSection.isEmpty
      && (config._loadFlags &&& LoadFlags.AllowNoSection) == 0) = true) := by
    rcases hguard with h | h <;> simp [h]
  unfold storePair
  rw [if_neg hg]
  simp only [storeAt, mapAt_mapTouch, mapFind_mapAt, hnew]

theorem storePair_dup (config : IniParserConfig) (st : LoadState) (line k v old : Str)
    (hguard : st.currentSection ≠ [] ∨ config._loadFlags &&& LoadFlags.AllowNoSection ≠ 0)
    (hold : lookup st._data st.currentSection k = some old) :
    storePair config st line k v =
      match config._keyPolicy with
      | DuplicateKeyPolicy.Throw_Error =>
        .error { error := { message := "Duplicated key: ".toList ++ k,
                            _lineNumber := st.currentLineNumber },
                 _data := st._data }
      | DuplicateKeyPolicy.Merge =>
        .ok { _data := storeAt st._data st.currentSection k (old ++ v),
              currentSection := st.currentSection,
              currentLineNumber := nextLineNumber st.currentLineNumber }
      | DuplicateKeyPolicy.Overwrite =>
        .ok { _data := storeAt st._data st.currentSection k v,
              currentSection := st.currentSection,
              currentLineNumber := nextLineNumber st.currentLineNumber }
      | DuplicateKeyPolicy.Ignore =>
        .ok { _data := st._data, currentSection := st.currentSection,
              currentLineNumber := nextLineNumber st.currentLineNumber } := by
  have hg : ¬ ((st.currentSection.isEmpty
      && (config._loadFlags &&& LoadFlags.AllowNoSection) == 0) = true) := by
    rcases hguard with h | h <;> simp [h]
  have ht := mapTouch_of_lookup st._data st.currentSection k old hold
  unfold storePair
  rw [if_neg hg]
  cases config._keyPolicy <;>
    simp only [storeAt, mapAt_mapTouch, mapFind_mapAt, hold, ht]

theorem loadLine_lineNumber (config : IniParserConfig) (st st' : LoadState) (raw : Str)
    (h : loadLine config st raw = .ok st') :
    st'.currentLineNumber = nextLineNumber st.currentLineNumber := by
  rw [loadLine_eq] at h
  cases hk : lineKind config raw with
  | skip => rw [hk] at h; simp [dispatch] at h; subst h; rfl
  | header name =>
    rw [hk] at h
    simp only [dispatch, enterSection] at h
    split at h
    · split at h <;> simp at h <;> subst h <;> rfl
    · simp at h; subst h; rfl
  | noDelimiter => rw [hk] at h; simp [dispatch] at h
  | emptyKey => rw [hk] at h; simp [dispatch] at h
  | emptyValue key => rw [hk] at h; simp [dispatch] at h
  | pair key value =>
    rw [hk] at h
    simp only [dispatch, storePair] at h
    split at h
    · simp at h
    · split at h
      · simp at h; subst h; rfl
      · split at h <;> simp at h <;> subst h <;> rfl

theorem loadLine_error (config : IniParserConfig) (st : LoadState) (raw : Str) (f : Failure)
    (h : loadLine config st raw = .error f) :
    f.error._lineNumber = st.currentLineNumber ∧ f._data = st._data := by
  rw [loadLine_eq] at h
  cases hk : lineKind config raw with
  | skip => rw [hk] at h; simp [dispatch] at h
  | header name =>
    rw [hk] at h
    simp only [dispatch, enterSection] at h
    split at h
    · split at h <;> simp at h
      subst h; exact ⟨rfl, rfl⟩
    · simp at h
  | noDelimiter => rw [hk] at h; simp [dispatch] at h; subst h; exact ⟨rfl, rfl⟩
  | emptyKey => rw [hk] at h; simp [dispatch] at h; subst h; exact ⟨rfl, rfl⟩
  | emptyValue key => rw [hk] at h; simp [dispatch] at h; subst h; exact ⟨rfl, rfl⟩
  | pair key value =>
    rw [hk] at h
    simp only [dispatch] at h
    by_cases hg : st.currentSection ≠ [] ∨ config._loadFlags &&& LoadFlags.AllowNoSection ≠ 0
    · cases hl : lookup st._data st.currentSection key with
      | none => rw [storePair_new config st _ key value hg hl] at h; simp at h
      | some old =>
        rw [storePair_dup config st _ key value old hg hl] at h
        split at h <;> simp at h
        subst h; exact ⟨rfl, rfl⟩
    · simp only [not_or, not_not] at hg
      rw [storePair_outside config st _ key value hg.1 hg.2] at h
      simp at h; subst h; exact ⟨rfl, rfl⟩

theorem loadLines_append (config : IniParserConfig) (st : LoadState) (pre rest : List Str) :
    loadLines config st (pre ++ rest) =
      match loadLines config st pre with
      | .error f => .error f
      | .ok st' => loadLines config st' rest := by
  induction pre generalizing st with
  | nil => rfl
  | cons raw pre ih =>
    simp only [List.cons_append, loadLines]
    cases loadLine config st raw with
    | error f => rfl
    | ok st1 => exact ih st1

/-- Below `2^31` the increment of the counter is the successor. -/
theorem nextLineNumber_of_lt (m : Nat) (h : m + 1 < 2 ^ 31) :
    nextLineNumber (m : Int) = ((m + 1 : Nat) : Int) := by
  unfold nextLineNumber
  omega

/-- While the count stays below `2^31`, the counter after the lines is the counter
before them plus their number. -/
theorem loadLines_lineNumber (config : IniParserConfig) (st st' : LoadState) (pre : List Str)
    (m : Nat) (hm : st.currentLineNumber = (m : Int)) (hb : m + pre.length < 2 ^ 31)
    (h : loadLines config st pre = .ok st') :
    st'.currentLineNumber = ((m + pre.length : Nat) : Int) := by
  induction pre generalizing st m with
  | nil => simp [loadLines] at h; subst h; simpa using hm
  | cons raw pre ih =>
    simp only [loadLines] at h
    cases h1 : loadLine config st raw with
    | error f => rw [h1] at h; simp at h
    | ok st1 =>
      rw [h1] at h
      simp only [List.length_cons] at hb ⊢
      have h2 := loadLine_lineNumber config st st1 raw h1
      rw [hm, nextLineNumber_of_lt m (by omega)] at h2
      have := ih st1 (m + 1) h2 (by omega) h
      rw [this]
      congr 1
      omega

theorem loadLine_skip (config : IniParserConfig) (st : LoadState) (raw : Str)
    (hk : lineKind config raw = LineKind.skip) :
    loadLine config st raw = .ok { st with currentLineNumber := nextLineNumber st.currentLineNumber } := by
  rw [loadLine_eq, hk]; rfl

theorem loadLine_header (config : IniParserConfig) (st : LoadState) (raw name : Str)
    (hk : lineKind config raw = LineKind.header name) :
    loadLine config st raw = enterSection config st name := by
  rw [loadLine_eq, hk]; rfl

theorem loadLine_pair (config : IniParserConfig) (st : LoadState) (raw k v : Str)
    (hk : lineKind config raw = LineKind.pair k v) :
    loadLine config st raw = storePair config st (trim raw) k v := by
  rw [loadLine_eq, hk]; rfl

/-- A successful pair line keeps the current section, touches no other
(section, key) and leaves the key with the value the key policy resolves. -/
theorem storePair_ok (config : IniParserConfig) (st st' : LoadState) (line k v : Str)
    (h : storePair config st line k v = .ok st') :
    st'.currentSection = st.currentSection
    ∧ (∀ s k2, s ≠ st.currentSection ∨ k2 ≠ k → lookup st'._data s k2 = lookup st._data s k2)
    ∧ lookup st'._data st.currentSection k
        = some (resolveDuplicate config._keyPolicy (lookup st._data st.currentSection k) v) := by
  by_cases hg : st.currentSection ≠ [] ∨ config._loadFlags &&& LoadFlags.AllowNoSection ≠ 0
  · cases hl : lookup st._data st.currentSection k with
    | none =>
      rw [storePair_new config st line k v hg hl] at h
      simp only [Except.ok.injEq] at h
      subst h
      exact ⟨rfl, fun s k2 hne => lookup_storeAt_ne _ _ _ _ _ _ hne,
        by simp [lookup_storeAt_self, resolveDuplicate]⟩
    | some old =>
      rw [storePair_dup config st line k v old hg hl] at h
      cases hp : config._keyPolicy <;> rw [hp] at h <;> simp only [Except.ok.injEq] at h
      · cases h
      · subst h
        exact ⟨rfl, fun s k2 hne => lookup_storeAt_ne _ _ _ _ _ _ hne,
          by simp [lookup_storeAt_self, resolveDuplicate]⟩
      · subst h
        exact ⟨rfl, fun s k2 hne => lookup_storeAt_ne _ _ _ _ _ _ hne,
          by simp [lookup_storeAt_self, resolveDuplicate]⟩
      · subst h
        exact ⟨rfl, fun s k2 _ => rfl, by simp [hl, resolveDuplicate]⟩
  · simp only [not_or, not_not] at hg
    rw [storePair_outside config st line k v hg.1 hg.2] at h
    cases h

/-- A successful header line makes the named section current; the sections of
other names keep their entries. -/
theorem enterSection_ok (config : IniParserConfig) (st st' : LoadState) (name : Str)
    (h : enterSection config st name = .ok st') :
    st'.currentSection = name
    ∧ (∀ s k, s ≠ name → lookup st'._data s k = lookup st._data s k)
    ∧ (config._sectionPolicy ≠ DuplicateSectionPolicy.Overwrite →
        ∀ k, lookup st'._data name k = lookup st._data name k)
    ∧ (config._sectionPolicy = DuplicateSectionPolicy.Overwrite →
        ∀ k, lookup st'._data name k = none) := by
  unfold enterSection at h
  split at h
  · rename_i sec hsec
    cases hp : config._sectionPolicy <;> rw [hp] at h <;> simp only [Except.ok.injEq] at h
    · cases h
    · subst h
      exact ⟨rfl, fun s k hne => lookup_clear_ne _ _ _ _ hne, fun hc => absurd rfl hc,
        fun _ k => lookup_clear_self _ _ _⟩
    · subst h
      exact ⟨rfl, fun s k _ => rfl, fun _ k => rfl, fun hc => by cases hc⟩
    · subst h
      exact ⟨rfl, fun s k _ => rfl, fun _ k => rfl, fun hc => by cases hc⟩
  · rename_i hsec
    simp only [Except.ok.injEq] at h
    subst h
    refine ⟨rfl, fun s k hne => lookup_clear_ne _ _ _ _ hne, fun _ k => ?_,
      fun _ k => lookup_clear_self _ _ _⟩
    rw [lookup_clear_self, lookup_of_find_none _ _ _ hsec]

/-! ## Lines between two headers -/

theorem loadLine_kind_of_ok (config : IniParserConfig) (st st' : LoadState) (raw : Str)
    (h : loadLine config st raw = .ok st') :
    lineKind config raw = LineKind.skip ∨ (∃ n, lineKind config raw = LineKind.header n)
      ∨ ∃ k v, lineKind config raw = LineKind.pair k v := by
  rw [loadLine_eq] at h
  cases hk : lineKind config raw with
  | skip => exact Or.inl rfl
  | header name => exact Or.inr (Or.inl ⟨name, rfl⟩)
  | noDelimiter => rw [hk] at h; simp [dispatch] at h
  | emptyKey => rw [hk] at h; simp [dispatch] at h
  | emptyValue key => rw [hk] at h; simp [dispatch] at h
  | pair key value => exact Or.inr (Or.inr ⟨key, value, rfl⟩)

theorem loadLine_nonheader_ok (config : IniParserConfig) (st st' : LoadState) (raw : Str)
    (hno : (lineKind config raw).isHeader = false)
    (h : loadLine config st raw = .ok st') :
    st'.currentSection = st.currentSection
    ∧ (∀ s k, s ≠ st.currentSection → lookup st'._data s k = lookup st._data s k)
    ∧ (∀ k, (lookup st._data st.currentSection k).isSome →
        (lookup st'._data st.currentSection k).isSome)
    ∧ (∀ k v, lineKind config raw = LineKind.pair k v →
        (lookup st'._data st.currentSection k).isSome) := by
  rcases loadLine_kind_of_ok config st st' raw h with hk | ⟨n, hk⟩ | ⟨k, v, hk⟩
  · rw [loadLine_skip config st raw hk] at h
    simp only [Except.ok.injEq] at h
    subst h
    refine ⟨rfl, fun s k _ => rfl, fun k hs => hs, fun k v hk2 => ?_⟩
    rw [hk] at hk2; cases hk2
  · rw [hk] at hno; cases hno
  · rw [loadLine_pair config st raw k v hk] at h
    obtain ⟨h1, h2, h3⟩ := storePair_ok config st st' _ k v h
    refine ⟨h1, fun s k2 hne => h2 s k2 (Or.inl hne), fun k2 hs => ?_, fun k2 v2 hk2 => ?_⟩
    · by_cases hkk : k2 = k
      · subst hkk; rw [h3]; rfl
      · rw [h2 _ k2 (Or.inr hkk)]; exact hs
    · rw [hk] at hk2
      cases hk2
      rw [h3]; rfl

theorem block_ok (config : IniParserConfig) (lines : List Str) (st st' : LoadState)
    (hno : ∀ l ∈ lines, (lineKind config l).isHeader = false)
    (h : loadLines config st lines = .ok st') :
    st'.currentSection = st.currentSection
    ∧ (∀ s k, s ≠ st.currentSection → lookup st'._data s k = lookup st._data s k)
    ∧ (∀ k, (lookup st._data st.currentSection k).isSome →
        (lookup st'._data st.currentSection k).isSome)
    ∧ (∀ l ∈ lines, ∀ k v, lineKind config l = LineKind.pair k v →
        (lookup st'._data st.currentSection k).isSome) := by
  induction lines generalizing st with
  | nil =>
    simp only [loadLines, Except.ok.injEq] at h
    subst h
    exact ⟨rfl, fun s k _ => rfl, fun k hs => hs, fun l hl => absurd hl (List.not_mem_nil l)⟩
  | cons raw rest ih =>
    simp only [loadLines] at h
    cases h1 : loadLine config st raw with
    | error f => rw [h1] at h; cases h
    | ok st1 =>
      rw [h1] at h
      obtain ⟨a1, a2, a3, a4⟩ := loadLine_nonheader_ok config st st1 raw
        (hno raw (List.mem_cons_self _ _)) h1
      obtain ⟨b1, b2, b3, b4⟩ := ih st1 (fun l hl => hno l (List.mem_cons_of_mem _ hl)) h
      rw [a1] at b1 b2 b3 b4
      refine ⟨b1, fun s k hne => (b2 s k hne).trans (a2 s k hne), fun k hs => b3 k (a3 k hs),
        fun l hl k v hk => ?_⟩
      rcases List.mem_cons.1 hl with hl | hl
      · subst hl; exact b3 k (a4 k v hk)
      · exact b4 l hl k v hk

theorem get_empty_section (_data : Data) (key defaultValue : Str) :
    get _data [] key defaultValue = defaultValue := by
  simp [get]

/-- Pair lines with fresh, pairwise distinct keys met while the current section is
the empty name and `AllowNoSection` is set are all stored under the empty name. -/
theorem noSection_block (config : IniParserConfig) (lines : List Str) (st : LoadState)
    (hflag : config._loadFlags &&& LoadFlags.AllowNoSection ≠ 0)
    (hcur : st.currentSection = [])
    (hkinds : ∀ l ∈ lines, (lineKind config l).isSkipOrPair = true)
    (hdistinct : lines.Pairwise (fun a b => ∀ k, (lineKind config a).key? = some k →
        (lineKind config b).key? ≠ some k))
    (hfresh : ∀ l ∈ lines, ∀ k, (lineKind config l).key? = some k → lookup st._data [] k = none) :
    ∃ st', loadLines config st lines = .ok st'
      ∧ st'.currentSection = []
      ∧ (∀ l ∈ lines, ∀ k v, lineKind config l = LineKind.pair k v →
          lookup st'._data [] k = some v)
      ∧ (∀ k, (∀ l ∈ lines, (lineKind config l).key? ≠ some k) →
          lookup st'._data [] k = lookup st._data [] k) := by
  induction lines generalizing st with
  | nil =>
    exact ⟨st, rfl, hcur, fun l hl => absurd hl (List.not_mem_nil l), fun k _ => rfl⟩
  | cons raw rest ih =>
    have hkraw := hkinds raw (List.mem_cons_self _ _)
    obtain ⟨hd1, hd2⟩ := List.pairwise_cons.1 hdistinct
    cases hk : lineKind config raw with
    | skip =>
      have hstep := loadLine_skip config st raw hk
      obtain ⟨st', r1, r2, r3, r4⟩ := ih { st with currentLineNumber := nextLineNumber st.currentLineNumber }
        hcur (fun l hl => hkinds l (List.mem_cons_of_mem _ hl)) hd2
        (fun l hl k hkk => hfresh l (List.mem_cons_of_mem _ hl) k hkk)
      refine ⟨st', by simp only [loadLines, hstep]; exact r1, r2, fun l hl k v hkv => ?_,
        fun k hk2 => r4 k (fun l hl => hk2 l (List.mem_cons_of_mem _ hl))⟩
      rcases List.mem_cons.1 hl with hl | hl
      · subst hl; rw [hk] at hkv; cases hkv
      · exact r3 l hl k v hkv
    | pair k v =>
      have hnew : lookup st._data st.currentSection k = none := by
        rw [hcur]; exact hfresh raw (List.mem_cons_self _ _) k (by rw [hk]; rfl)
      have hstep : loadLine config st raw = .ok
          { _data := storeAt st._data st.currentSection k v,
            currentSection := st.currentSection,
            currentLineNumber := nextLineNumber st.currentLineNumber } := by
        rw [loadLine_pair config st raw k v hk]
        exact storePair_new config st _ k v (Or.inr hflag) hnew
      have hrest : ∀ l ∈ rest, (lineKind config l).key? ≠ some k :=
        fun l hl => hd1 l hl k (by rw [hk]; rfl)
      obtain ⟨st', r1, r2, r3, r4⟩ := ih
        { _data := storeAt st._data st.currentSection k v,
          currentSection := st.currentSection,
          currentLineNumber := nextLineNumber st.currentLineNumber }
        hcur (fun l hl => hkinds l (List.mem_cons_of_mem _ hl)) hd2
        (fun l hl k2 hkk => by
          have hne : k2 ≠ k := fun e => hrest l hl (e ▸ hkk)
          show lookup (storeAt st._data st.currentSection k v) [] k2 = none
          rw [lookup_storeAt_ne _ _ _ _ _ _ (Or.inr hne)]
          exact hfresh l (List.mem_cons_of_mem _ hl) k2 hkk)
      refine ⟨st', by simp only [loadLines, hstep]; exact r1, r2, fun l hl k2 v2 hkv => ?_,
        fun k2 hk2 => ?_⟩
      · rcases List.mem_cons.1 hl with hl | hl
        · subst hl
          rw [hk] at hkv
          cases hkv
          rw [r4 k hrest]
          show lookup (storeAt st._data st.currentSection k v) [] k = some v
          rw [hcur]
          exact lookup_storeAt_self _ _ _ _
        · exact r3 l hl k2 v2 hkv
      · rw [r4 k2 (fun l hl => hk2 l (List.mem_cons_of_mem _ hl))]
        have hne : k2 ≠ k := fun e => hk2 raw (List.mem_cons_self _ _) (by rw [hk, e]; rfl)
        exact lookup_storeAt_ne _ _ _ _ _ _ (Or.inr hne)
    | header name => rw [hk] at hkraw; cases hkraw
    | noDelimiter => rw [hk] at hkraw; cases hkraw
    | emptyKey => rw [hk] at hkraw; cases hkraw
    | emptyValue key => rw [hk] at hkraw; cases hkraw

/-- What an accepted pair says of its line. -/
theorem lineKind_pair_parts (config : IniParserConfig) (raw k v : Str)
    (hk : lineKind config raw = LineKind.pair k v) :
    ¬ ((trim raw).isEmpty || (trim raw).head? == some ';' || (trim raw).head? == some '#') = true
    ∧ ¬ ((trim raw).head? == some '[' && (trim raw).getLast? == some ']') = true
    ∧ ∃ pos, find (trim raw) '=' = some pos
      ∧ k = (if config._whitespacePolicy = WhitespacePolicy.Trim
              then trim (substr (trim raw) 0 pos) else substr (trim raw) 0 pos)
      ∧ v = (if config._whitespacePolicy = WhitespacePolicy.Trim
              then trim (substrFrom (trim raw) (pos + 1)) else substrFrom (trim raw) (pos + 1))
      ∧ ¬ (k.isEmpty && (config._loadFlags &&& LoadFlags.AllowNoKey) == 0) = true
      ∧ ¬ (v.isEmpty && (config._loadFlags &&& LoadFlags.AllowNoValue) == 0) = true := by
  unfold lineKind at hk
  simp only at hk
  by_cases c1 : ((trim raw).isEmpty || (trim raw).head? == some ';'
      || (trim raw).head? == some '#') = true
  · rw [if_pos c1] at hk; cases hk
  rw [if_neg c1] at hk
  by_cases c2 : ((trim raw).head? == some '[' && (trim raw).getLast? == some ']') = true
  · rw [if_pos c2] at hk; cases hk
  rw [if_neg c2] at hk
  refine ⟨c1, c2, ?_⟩
  cases hf : find (trim raw) '=' with
  | none => rw [hf] at hk; cases hk
  | some pos =>
    rw [hf] at hk
    simp only at hk
    refine ⟨pos, rfl, ?_⟩
    by_cases c3 : ((if config._whitespacePolicy = WhitespacePolicy.Trim
        then trim (substr (trim raw) 0 pos) else substr (trim raw) 0 pos).isEmpty
        && (config._loadFlags &&& LoadFlags.AllowNoKey) == 0) = true
    · rw [if_pos c3] at hk; cases hk
    rw [if_neg c3] at hk
    by_cases c4 : ((if config._whitespacePolicy = WhitespacePolicy.Trim
        then trim (substrFrom (trim raw) (pos + 1))
        else substrFrom (trim raw) (pos + 1)).isEmpty
        && (config._loadFlags &&& LoadFlags.AllowNoValue) == 0) = true
    · rw [if_pos c4] at hk; cases hk
    rw [if_neg c4] at hk
    simp only [LineKind.pair.injEq] at hk
    obtain ⟨e1, e2⟩ := hk
    subst e1 e2
    exact ⟨rfl, rfl, c3, c4⟩

theorem lineKind_pair_preserve (config : IniParserConfig) (raw k v : Str)
    (hws : config._whitespacePolicy = WhitespacePolicy.Preserve)
    (hk : lineKind config raw = LineKind.pair k v) :
    ∃ pos, find (trim raw) '=' = some pos
      ∧ k = (trim raw).take pos ∧ v = (trim raw).drop (pos + 1) := by
  obtain ⟨_, _, pos, h1, h2, h3, _, _⟩ := lineKind_pair_parts config raw k v hk
  refine ⟨pos, h1, ?_, ?_⟩
  · rw [h2, hws]; simp [substr]
  · rw [h3, hws]; simp [substrFrom]

/-- The call `load` seen at one of its lines: the preceding lines gave `st`, whose
line number is the 1-based index of the line as long as that index is below `2^31`. -/
theorem load_at_line (config : IniParserConfig) (_data : Data) (text : Str)
    (pre rest : List Str) (raw : Str) (st : LoadState)
    (hsplit : getlines text = pre ++ raw :: rest)
    (hpre : loadLines config (initialState _data) pre = .ok st) :
    (pre.length + 1 < 2 ^ 31 → st.currentLineNumber = ((pre.length + 1 : Nat) : Int))
    ∧ load config _data text = (match loadLine config st raw with
      | Except.error f => Except.error f
      | Except.ok st' => match loadLines config st' rest with
        | Except.error f => Except.error f
        | Except.ok st2 => Except.ok st2._data) := by
  constructor
  · intro hb
    rw [loadLines_lineNumber config (initialState _data) st pre 1 rfl (by omega) hpre]
    congr 1
    omega
  · unfold load
    rw [hsplit, loadLines_append]
    change (match (match loadLines config (initialState _data) pre with
      | Except.error f => Except.error f
      | Except.ok st' => loadLines config st' (raw :: rest)) with
      | Except.error f => Except.error f
      | Except.ok st => Except.ok st._data) = _
    rw [hpre]
    simp only [loadLines]
    cases loadLine config st raw <;> rfl

/-! ## Occurrences of a key -/

theorem events_skip (config : IniParserConfig) (cur raw : Str) (rest : List Str)
    (hk : lineKind config raw = LineKind.skip) :
    events config cur (raw :: rest) = events config cur rest := by
  simp only [events, hk]

theorem events_header (config : IniParserConfig) (cur raw name : Str) (rest : List Str)
    (hk : lineKind config raw = LineKind.header name) :
    events config cur (raw :: rest) = Event.header name :: events config name rest := by
  simp only [events, hk]

theorem events_pair (config : IniParserConfig) (cur raw k v : Str) (rest : List Str)
    (hk : lineKind config raw = LineKind.pair k v) :
    events config cur (raw :: rest) = Event.pair cur k v :: events config cur rest := by
  simp only [events, hk]

theorem loadLine_skip_ok (config : IniParserConfig) (st st' : LoadState) (raw : Str)
    (hk : lineKind config raw = LineKind.skip) (h : loadLine config st raw = .ok st') :
    st'._data = st._data ∧ st'.currentSection = st.currentSection := by
  rw [loadLine_skip config st raw hk] at h
  simp only [Except.ok.injEq] at h
  subst h
  exact ⟨rfl, rfl⟩

/-- Lines without an occurrence of a key do not give the key a new value. -/
theorem lookup_of_no_occurrence (config : IniParserConfig) (lines : List Str)
    (st st' : LoadState) (s k w : Str)
    (h : loadLines config st lines = .ok st')
    (hno : ∀ v, Event.pair s k v ∉ events config st.currentSection lines)
    (hw : lookup st'._data s k = some w) :
    lookup st._data s k = some w := by
  induction lines generalizing st with
  | nil =>
    simp only [loadLines, Except.ok.injEq] at h
    subst h; exact hw
  | cons raw rest ih =>
    simp only [loadLines] at h
    cases h1 : loadLine config st raw with
    | error f => rw [h1] at h; cases h
    | ok st1 =>
      rw [h1] at h
      dsimp only at h
      rcases loadLine_kind_of_ok config st st1 raw h1 with hk | ⟨n, hk⟩ | ⟨k', v', hk⟩
      · obtain ⟨d1, c1⟩ := loadLine_skip_ok config st st1 raw hk h1
        rw [events_skip config _ raw rest hk] at hno
        rw [← d1]
        exact ih st1 h (c1 ▸ hno)
      · rw [loadLine_header config st raw n hk] at h1
        obtain ⟨e1, e2, e3, e4⟩ := enterSection_ok config st st1 n h1
        rw [events_header config _ raw n rest hk] at hno
        have hw1 := ih st1 h (fun v hv => hno v (List.mem_cons_of_mem _ (e1 ▸ hv)))
        by_cases hs : s = n
        · subst hs
          by_cases hc : config._sectionPolicy = DuplicateSectionPolicy.Overwrite
          · rw [e4 hc k] at hw1; cases hw1
          · rw [← e3 hc k]; exact hw1
        · rw [← e2 s k hs]; exact hw1
      · rw [loadLine_pair config st raw k' v' hk] at h1
        obtain ⟨e1, e2, _⟩ := storePair_ok config st st1 _ k' v' h1
        rw [events_pair config _ raw k' v' rest hk] at hno
        have hw1 := ih st1 h (fun v hv => hno v (List.mem_cons_of_mem _ (e1 ▸ hv)))
        have hne : s ≠ st.currentSection ∨ k ≠ k' := by
          by_contra hcon
          simp only [not_or, not_not] at hcon
          exact hno v' (by rw [hcon.1, hcon.2]; exact List.mem_cons_self _ _)
        rw [← e2 s k hne]; exact hw1

/-- Under key policy Overwrite a key that is still present after the lines holds the
value of its last occurrence. -/
theorem overwrite_last_occurrence (config : IniParserConfig) (lines : List Str)
    (st st' : LoadState) (A B : List Event) (s k v w : Str)
    (hpol : config._keyPolicy = DuplicateKeyPolicy.Overwrite)
    (h : loadLines config st lines = .ok st')
    (hev : events config st.currentSection lines = A ++ Event.pair s k v :: B)
    (hlast : ∀ v2, Event.pair s k v2 ∉ B)
    (hw : lookup st'._data s k = some w) :
    w = v := by
  induction lines generalizing st A with
  | nil => simp [events] at hev
  | cons raw rest ih =>
    simp only [loadLines] at h
    cases h1 : loadLine config st raw with
    | error f => rw [h1] at h; cases h
    | ok st1 =>
      rw [h1] at h
      dsimp only at h
      rcases loadLine_kind_of_ok config st st1 raw h1 with hk | ⟨n, hk⟩ | ⟨k', v', hk⟩
      · obtain ⟨_, c1⟩ := loadLine_skip_ok config st st1 raw hk h1
        rw [events_skip config _ raw rest hk] at hev
        exact ih st1 A h (c1 ▸ hev)
      · rw [loadLine_header config st raw n hk] at h1
        obtain ⟨e1, _, _, _⟩ := enterSection_ok config st st1 n h1
        rw [events_header config _ raw n rest hk] at hev
        cases A with
        | nil => simp at hev
        | cons a A' =>
          simp only [List.cons_append, List.cons.injEq] at hev
          exact ih st1 A' h (e1 ▸ hev.2)
      · rw [loadLine_pair config st raw k' v' hk] at h1
        obtain ⟨e1, _, e3⟩ := storePair_ok config st st1 _ k' v' h1
        rw [events_pair config _ raw k' v' rest hk] at hev
        cases A with
        | nil =>
          simp only [List.nil_append, List.cons.injEq, Event.pair.injEq] at hev
          obtain ⟨⟨hs, hk2, hv⟩, hB⟩ := hev
          subst hk2 hv
          have hw1 := lookup_of_no_occurrence config rest st1 st' s k' w h
            (by rw [e1, hB]; exact hlast) hw
          rw [← hs, e3, hpol] at hw1
          have hr : resolveDuplicate DuplicateKeyPolicy.Overwrite
              (lookup st._data st.currentSection k') v' = v' := by
            cases lookup st._data st.currentSection k' <;> rfl
          rw [hr] at hw1
          exact (Option.some.inj hw1).symm
        | cons a A' =>
          simp only [List.cons_append, List.cons.injEq] at hev
          exact ih st1 A' h (e1 ▸ hev.2)

/-- Under key policy Ignore a key present after the lines either kept the value it
had before them, or holds the value of an occurrence that no occurrence of the key
precedes, the occurrences cut off by a clearing header apart. -/
theorem ignore_first_occurrence (config : IniParserConfig) (lines : List Str)
    (st st' : LoadState) (s k w : Str)
    (hpol : config._keyPolicy = DuplicateKeyPolicy.Ignore)
    (h : loadLines config st lines = .ok st')
    (hw : lookup st'._data s k = some w) :
    (lookup st._data s k = some w
      ∧ (config._sectionPolicy = DuplicateSectionPolicy.Overwrite →
          Event.header s ∉ events config st.currentSection lines))
    ∨ ∃ A B, events config st.currentSection lines = A ++ Event.pair s k w :: B
        ∧ (config._sectionPolicy = DuplicateSectionPolicy.Overwrite → Event.header s ∉ B)
        ∧ (∀ A1 A2 v2, A = A1 ++ Event.pair s k v2 :: A2 →
            config._sectionPolicy = DuplicateSectionPolicy.Overwrite ∧ Event.header s ∈ A2)
        ∧ (lookup st._data s k ≠ none →
            config._sectionPolicy = DuplicateSectionPolicy.Overwrite ∧ Event.header s ∈ A) := by
  induction lines generalizing st with
  | nil =>
    simp only [loadLines, Except.ok.injEq] at h
    subst h
    exact Or.inl ⟨hw, fun _ hm => absurd hm (List.not_mem_nil _)⟩
  | cons raw rest ih =>
    simp only [loadLines] at h
    cases h1 : loadLine config st raw with
    | error f => rw [h1] at h; cases h
    | ok st1 =>
      rw [h1] at h
      dsimp only at h
      have IH := ih st1 h
      rcases loadLine_kind_of_ok config st st1 raw h1 with hk | ⟨n, hk⟩ | ⟨k', v', hk⟩
      · obtain ⟨d1, c1⟩ := loadLine_skip_ok config st st1 raw hk h1
        rw [events_skip config _ raw rest hk, ← d1, ← c1]
        exact IH
      · rw [loadLine_header config st raw n hk] at h1
        obtain ⟨e1, e2, e3, e4⟩ := enterSection_ok config st st1 n h1
        rw [events_header config _ raw n rest hk]
        rw [e1] at IH
        have hsame : (s ≠ n ∨ config._sectionPolicy ≠ DuplicateSectionPolicy.Overwrite) →
            lookup st1._data s k = lookup st._data s k := by
          intro hc
          by_cases hs : s = n
          · subst hs
            rcases hc with hc | hc
            · exact absurd rfl hc
            · exact e3 hc k
          · exact e2 s k hs
        rcases IH with ⟨a1, a2⟩ | ⟨A, B, b1, b2, b3, b4⟩
        · by_cases hs : s = n
          · subst hs
            by_cases hc : config._sectionPolicy = DuplicateSectionPolicy.Overwrite
            · rw [e4 hc k] at a1; cases a1
            · exact Or.inl ⟨(hsame (Or.inr hc)) ▸ a1, fun hc2 => absurd hc2 hc⟩
          · refine Or.inl ⟨(hsame (Or.inl hs)) ▸ a1, fun hc hm => ?_⟩
            rcases List.mem_cons.1 hm with hm | hm
            · simp only [Event.header.injEq] at hm; exact hs hm
            · exact a2 hc hm
        · refine Or.inr ⟨Event.header n :: A, B, by rw [b1]; rfl, b2, ?_, ?_⟩
          · intro A1 A2 v2 hA
            cases A1 with
            | nil => simp at hA
            | cons a A1' =>
              simp only [List.cons_append, List.cons.injEq] at hA
              exact b3 A1' A2 v2 hA.2
          · intro hne
            by_cases hc : s ≠ n ∨ config._sectionPolicy ≠ DuplicateSectionPolicy.Overwrite
            · obtain ⟨c1, c2⟩ := b4 (by rw [hsame hc]; exact hne)
              exact ⟨c1, List.mem_cons_of_mem _ c2⟩
            · simp only [not_or, not_not] at hc
              exact ⟨hc.2, by rw [hc.1]; exact List.mem_cons_self _ _⟩
      · rw [loadLine_pair config st raw k' v' hk] at h1
        obtain ⟨e1, e2, e3⟩ := storePair_ok config st st1 _ k' v' h1
        rw [events_pair config _ raw k' v' rest hk]
        rw [e1] at IH
        by_cases hsk : s = st.currentSection ∧ k = k'
        · obtain ⟨hs, hkk⟩ := hsk
          subst hkk
          rw [← hs] at e3
          rcases IH with ⟨a1, a2⟩ | ⟨A, B, b1, b2, b3, b4⟩
          · cases hold : lookup st._data s k with
            | none =>
              rw [hold, hpol] at e3
              have hwv : w = v' := by
                rw [a1] at e3
                exact Option.some.inj e3
              subst hwv
              refine Or.inr ⟨[], events config st.currentSection rest, by rw [hs]; rfl,
                a2, ?_, fun hne => absurd rfl hne⟩
              intro A1 A2 v2 hA
              cases A1 <;> simp at hA
            | some old =>
              rw [hold, hpol] at e3
              have hwv : w = old := by
                rw [a1] at e3
                exact Option.some.inj e3
              subst hwv
              refine Or.inl ⟨rfl, fun hc hm => ?_⟩
              rcases List.mem_cons.1 hm with hm | hm
              · cases hm
              · exact a2 hc hm
          · have hsome : lookup st1._data s k ≠ none := by rw [e3]; exact fun e => by cases e
            obtain ⟨c1, c2⟩ := b4 hsome
            refine Or.inr ⟨Event.pair st.currentSection k v' :: A, B, by rw [b1]; rfl, b2, ?_,
              fun _ => ⟨c1, List.mem_cons_of_mem _ c2⟩⟩
            intro A1 A2 v2 hA
            cases A1 with
            | nil =>
              simp only [List.nil_append, List.cons.injEq] at hA
              exact ⟨c1, hA.2 ▸ c2⟩
            | cons a A1' =>
              simp only [List.cons_append, List.cons.injEq] at hA
              exact b3 A1' A2 v2 hA.2
        · have hne : s ≠ st.currentSection ∨ k ≠ k' := by
            by_contra hcon
            simp only [not_or, not_not] at hcon
            exact hsk hcon
          have hsame := e2 s k hne
          rcases IH with ⟨a1, a2⟩ | ⟨A, B, b1, b2, b3, b4⟩
          · refine Or.inl ⟨hsame ▸ a1, fun hc hm => ?_⟩
            rcases List.mem_cons.1 hm with hm | hm
            · cases hm
            · exact a2 hc hm
          · refine Or.inr ⟨Event.pair st.currentSection k' v' :: A, B, by rw [b1]; rfl, b2, ?_,
              fun hn => ?_⟩
            · intro A1 A2 v2 hA
              cases A1 with
              | nil =>
                simp only [List.nil_append, List.cons.injEq, Event.pair.injEq] at hA
                exact absurd ⟨hA.1.1.symm, hA.1.2.1.symm⟩ hsk
              | cons a A1' =>
                simp only [List.cons_append, List.cons.injEq] at hA
                exact b3 A1' A2 v2 hA.2
            · obtain ⟨c1, c2⟩ := b4 (by rw [hsame]; exact hn)
              exact ⟨c1, List.mem_cons_of_mem _ c2⟩

/-! ## Facts about the string primitives -/

theorem strLt_irrefl (a : Str) : strLt a a = false := by
  induction a with
  | nil => rfl
  | cons c cs ih => simp [strLt, ih]

theorem strLt_asymm (a b : Str) (h : strLt a b = true) : strLt b a = false := by
  induction a generalizing b with
  | nil => cases b <;> simp [strLt] at h ⊢
  | cons c cs ih =>
    cases b with
    | nil => simp [strLt] at h
    | cons d ds =>
      simp only [strLt] at h ⊢
      by_cases h1 : c.toNat < d.toNat
      · have h2 : ¬ d.toNat < c.toNat := by omega
        simp [h1, h2]
      · by_cases h2 : d.toNat < c.toNat
        · simp [h1, h2] at h
        · simp only [h1, h2, if_false] at h ⊢
          exact ih ds h

theorem strLt_ne (a b : Str) (h : strLt a b = true) : a ≠ b := by
  intro e
  subst e
  rw [strLt_irrefl] at h
  cases h

theorem find_append_of_not_mem (a t : Str) (c : Char) (h : c ∉ a) :
    find (a ++ t) c = (find t c).map (· + a.length) := by
  induction a with
  | nil =>
    simp only [List.nil_append, List.length_nil, Nat.add_zero]
    cases find t c <;> rfl
  | cons d ds ih =>
    have hd : d ≠ c := fun e => h (e ▸ List.mem_cons_self _ _)
    have hds : c ∉ ds := fun m => h (List.mem_cons_of_mem _ m)
    have e : find (d :: (ds ++ t)) c = (find (ds ++ t) c).map (· + 1) := by
      simp only [find, if_neg hd]
    rw [List.cons_append, e, ih hds]
    cases find t c <;> simp [Nat.add_assoc]

theorem find_first_not_of_append (a t set : Str) (h : ∀ c ∈ a, c ∈ set) :
    find_first_not_of (a ++ t) set = (find_first_not_of t set).map (· + a.length) := by
  induction a with
  | nil =>
    simp only [List.nil_append, List.length_nil, Nat.add_zero]
    cases find_first_not_of t set <;> rfl
  | cons d ds ih =>
    have hd : d ∈ set := h d (List.mem_cons_self _ _)
    have hds : ∀ c ∈ ds, c ∈ set := fun c m => h c (List.mem_cons_of_mem _ m)
    have e : find_first_not_of (d :: (ds ++ t)) set
        = (find_first_not_of (ds ++ t) set).map (· + 1) := by
      simp only [find_first_not_of, if_pos hd]
    rw [List.cons_append, e, ih hds]
    cases find_first_not_of t set <;> simp [Nat.add_assoc]

theorem find_first_not_of_head (c : Char) (t set : Str) (h : c ∉ set) :
    find_first_not_of (c :: t) set = some 0 := by
  simp only [find_first_not_of, if_neg h]

/-- The function `trim` removes the whitespace around a core that neither starts nor
ends with whitespace. -/
theorem trim_core (a b : Str) (c d : Char) (mid : Str)
    (ha : ∀ x ∈ a, x ∈ whitespace) (hb : ∀ x ∈ b, x ∈ whitespace)
    (hc : c ∉ whitespace) (hd : d ∉ whitespace) :
    trim (a ++ (c :: mid ++ [d]) ++ b) = c :: mid ++ [d]
    ∧ trim (a ++ [c] ++ b) = [c] := by
  constructor
  · have h1 : find_first_not_of (a ++ (c :: mid ++ [d]) ++ b) whitespace = some a.length := by
      rw [List.append_assoc, find_first_not_of_append _ _ _ ha]
      simp [find_first_not_of_head _ _ _ hc]
    have h2 : find_last_not_of (a ++ (c :: mid ++ [d]) ++ b) whitespace
        = some (a.length + mid.length + 1) := by
      unfold find_last_not_of
      have hr : (a ++ (c :: mid ++ [d]) ++ b).reverse
          = b.reverse ++ (d :: (mid.reverse ++ c :: a.reverse)) := by simp
      rw [hr, find_first_not_of_append _ _ _ (fun x hx => hb x (List.mem_reverse.1 hx)),
        find_first_not_of_head _ _ _ hd]
      simp
      omega
    unfold trim
    rw [h1, h2]
    simp only [substr]
    have : a.length + mid.length + 1 - a.length + 1 = (c :: mid ++ [d]).length := by
      simp; omega
    rw [this, List.append_assoc, List.drop_left, List.take_left]
  · have h1 : find_first_not_of (a ++ [c] ++ b) whitespace = some a.length := by
      rw [List.append_assoc, find_first_not_of_append _ _ _ ha]
      simp [find_first_not_of_head _ _ _ hc]
    have h2 : find_last_not_of (a ++ [c] ++ b) whitespace = some a.length := by
      unfold find_last_not_of
      have hr : (a ++ [c] ++ b).reverse = b.reverse ++ (c :: a.reverse) := by simp
      rw [hr, find_first_not_of_append _ _ _ (fun x hx => hb x (List.mem_reverse.1 hx)),
        find_first_not_of_head _ _ _ hc]
      simp
    unfold trim
    rw [h1, h2]
    simp only [substr]
    have : a.length - a.length + 1 = [c].length := by simp
    rw [this, List.append_assoc, List.drop_left, List.take_left]

theorem getlines_line (l rest : Str) (h : '\n' ∉ l) :
    getlines (l ++ '\n' :: rest) = l :: getlines rest := by
  induction l with
  | nil => simp [getlines]
  | cons c cs ih =>
    have hc : c ≠ '\n' := fun e => h (e ▸ List.mem_cons_self _ _)
    have hcs : '\n' ∉ cs := fun m => h (List.mem_cons_of_mem _ m)
    rw [List.cons_append, getlines, if_neg hc, ih hcs]

theorem getlines_flatMap (lines : List Str) (h : ∀ l ∈ lines, '\n' ∉ l) :
    getlines (lines.flatMap (fun l => l ++ ['\n'])) = lines := by
  induction lines with
  | nil => rfl
  | cons l ls ih =>
    simp only [List.flatMap_cons, List.append_assoc, List.singleton_append]
    rw [getlines_line l _ (h l (List.mem_cons_self _ _)),
      ih (fun x hx => h x (List.mem_cons_of_mem _ hx))]

/-! ## The lines written by to_string, read by load -/

theorem noOuterSpace_cases (s : Str) (h : noOuterSpace s = true) :
    (∃ c, s = [c] ∧ c ∉ whitespace)
    ∨ ∃ c d mid, s = c :: mid ++ [d] ∧ c ∉ whitespace ∧ d ∉ whitespace := by
  cases s with
  | nil => simp [noOuterSpace] at h
  | cons c t =>
    rcases List.eq_nil_or_concat t with ht | ⟨mid, d, ht⟩
    · subst ht
      left
      refine ⟨c, rfl, ?_⟩
      simp only [noOuterSpace, List.head?_cons, List.getLast?_singleton, Bool.and_self,
        decide_eq_true_eq] at h
      exact h
    · rw [List.concat_eq_append] at ht
      subst ht
      right
      refine ⟨c, d, mid, rfl, ?_⟩
      have hl : (c :: (mid ++ [d])).getLast? = some d := by
        rw [← List.cons_append, List.getLast?_concat]
      simp only [noOuterSpace, List.head?_cons, hl, Bool.and_eq_true, decide_eq_true_eq] at h
      exact h

/-- The function `trim` gives back a string without outer whitespace from any
whitespace put around it. -/
theorem trim_noOuterSpace (a b s : Str)
    (ha : ∀ x ∈ a, x ∈ whitespace) (hb : ∀ x ∈ b, x ∈ whitespace)
    (hs : noOuterSpace s = true) :
    trim (a ++ s ++ b) = s := by
  rcases noOuterSpace_cases s hs with ⟨c, e, hc⟩ | ⟨c, d, mid, e, hc, hd⟩
  · subst e; exact (trim_core a b c c [] ha hb hc hc).2
  · subst e; exact (trim_core a b c d mid ha hb hc hd).1

theorem trim_self (s : Str) (hs : noOuterSpace s = true) : trim s = s := by
  have := trim_noOuterSpace [] [] s (fun x hx => absurd hx (List.not_mem_nil _))
    (fun x hx => absurd hx (List.not_mem_nil _)) hs
  simpa using this

theorem lineKind_headerLine (config : IniParserConfig) (name : Str) :
    lineKind config (headerLine name) = LineKind.header name := by
  have hs : noOuterSpace (headerLine name) = true := by
    have hl : (headerLine name).getLast? = some ']' := by
      unfold headerLine; rw [List.getLast?_concat]
    have hh : (headerLine name).head? = some '[' := by
      unfold headerLine; rfl
    simp only [noOuterSpace, hl, hh]
    decide
  have hl : (headerLine name).getLast? = some ']' := by
    unfold headerLine; rw [List.getLast?_concat]
  have hh : (headerLine name).head? = some '[' := rfl
  have hne : (headerLine name).isEmpty = false := rfl
  unfold lineKind
  simp only [trim_self _ hs, hl, hh, hne]
  have hsub : substr (headerLine name) 1 ((headerLine name).length - 2) = name := by
    simp [substr, headerLine]
  rw [hsub]
  rfl

theorem noOuterSpace_head (s : Str) (h : noOuterSpace s = true) :
    ∃ c t, s = c :: t ∧ c ∉ whitespace := by
  rcases noOuterSpace_cases s h with ⟨c, e, hc⟩ | ⟨c, d, mid, e, hc, _⟩
  · exact ⟨c, [], e, hc⟩
  · exact ⟨c, mid ++ [d], e, hc⟩

theorem noOuterSpace_last (s : Str) (h : noOuterSpace s = true) :
    ∃ t d, s = t ++ [d] ∧ d ∉ whitespace := by
  rcases noOuterSpace_cases s h with ⟨c, e, hc⟩ | ⟨c, d, mid, e, _, hd⟩
  · exact ⟨[], c, e, hc⟩
  · exact ⟨c :: mid, d, e, hd⟩

theorem noOuterSpace_append (a m b : Str) (ha : noOuterSpace a = true)
    (hb : noOuterSpace b = true) : noOuterSpace (a ++ m ++ b) = true := by
  obtain ⟨c, t, e1, hc⟩ := noOuterSpace_head a ha
  obtain ⟨u, d, e2, hd⟩ := noOuterSpace_last b hb
  subst e1 e2
  have hl : (c :: t ++ m ++ (u ++ [d])).getLast? = some d := by
    rw [← List.append_assoc, List.getLast?_concat]
  have hh : (c :: t ++ m ++ (u ++ [d])).head? = some c := rfl
  simp only [noOuterSpace, hl, hh, Bool.and_eq_true, decide_eq_true_eq]
  exact ⟨hc, hd⟩

theorem lineKind_entryLine (config : IniParserConfig) (kv : Str × Str)
    (hws : config._whitespacePolicy = WhitespacePolicy.Trim)
    (h : plainEntry kv = true) :
    lineKind config (entryLine kv) = LineKind.pair kv.1 kv.2 := by
  obtain ⟨k, v⟩ := kv
  simp only [plainEntry, plainKey, plainValue, Bool.and_eq_true, Bool.not_eq_true',
    bne_iff_ne, ne_eq, Bool.and_eq_false_imp, beq_iff_eq, List.contains_eq_any_beq,
    List.any_eq_false, beq_eq_false_iff_ne] at h
  obtain ⟨⟨⟨⟨⟨⟨hk, hkn⟩, hke⟩, hk1⟩, hk2⟩, hv, hvn⟩, hbr⟩ := h
  have hline : noOuterSpace (entryLine (k, v)) = true :=
    noOuterSpace_append k " = ".toList v hk hv
  obtain ⟨c, t, e1, hc⟩ := noOuterSpace_head k hk
  have hh : (entryLine (k, v)).head? = k.head? := by
    subst e1; rfl
  have hl : (entryLine (k, v)).getLast? = v.getLast? := by
    obtain ⟨u, d, e2, _⟩ := noOuterSpace_last v hv
    subst e2
    unfold entryLine
    rw [← List.append_assoc, List.getLast?_concat, List.getLast?_concat]
  have hne : (entryLine (k, v)).isEmpty = false := by
    subst e1; rfl
  have hfind : find (entryLine (k, v)) '=' = some (1 + k.length) := by
    have hnm : '=' ∉ k := fun hm => hke '=' hm rfl
    unfold entryLine
    rw [List.append_assoc, find_append_of_not_mem k _ '=' hnm]
    rfl
  have hkey : trim (substr (entryLine (k, v)) 0 (1 + k.length)) = k := by
    have : substr (entryLine (k, v)) 0 (1 + k.length) = [] ++ k ++ [' '] := by
      unfold substr entryLine
      have e : k ++ " = ".toList ++ v = (k ++ [' ']) ++ ('=' :: ' ' :: v) := by
        simp
      have hlen : 1 + k.length = (k ++ [' ']).length := by simp; omega
      rw [List.drop_zero, e, hlen, List.take_left]
      rfl
    rw [this]
    exact trim_noOuterSpace [] [' '] k (fun x hx => absurd hx (List.not_mem_nil _))
      (fun x hx => by rw [List.mem_singleton.1 hx]; decide) hk
  have hval : trim (substrFrom (entryLine (k, v)) (1 + k.length + 1)) = v := by
    have : substrFrom (entryLine (k, v)) (1 + k.length + 1) = [' '] ++ v ++ [] := by
      unfold substrFrom entryLine
      have e : k ++ " = ".toList ++ v = (k ++ [' ', '=']) ++ (' ' :: v) := by
        simp
      have hlen : 1 + k.length + 1 = (k ++ [' ', '=']).length := by simp; omega
      rw [e, hlen, List.drop_left]
      simp
    rw [this]
    exact trim_noOuterSpace [' '] [] v (fun x hx => by rw [List.mem_singleton.1 hx]; decide)
      (fun x hx => absurd hx (List.not_mem_nil _)) hv
  have hkne : k.isEmpty = false := by subst e1; rfl
  have hvne : v.isEmpty = false := by
    obtain ⟨c2, t2, e2, _⟩ := noOuterSpace_head v hv
    subst e2; rfl
  unfold lineKind
  simp only [trim_self _ hline, hne, hh, hl, hfind, hws, if_true, hkey, hval, hkne, hvne,
    Bool.false_and, Bool.false_or]
  have c1 : (k.head? == some ';' || k.head? == some '#') = false := by
    simp only [Bool.or_eq_false_iff, beq_eq_false_iff_ne, ne_eq]
    exact ⟨hk1, hk2⟩
  have c2 : (k.head? == some '[' && v.getLast? == some ']') = false := by
    cases hb : (k.head? == some '[')
    · rfl
    · simp only [Bool.true_and, beq_eq_false_iff_ne, ne_eq]
      exact hbr (by simpa using hb)
  simp only [c1, c2]
  rfl

theorem mapFind_none_of_lt {β : Type} (m : StrMap β) (k : Str)
    (h : ∀ p ∈ m, strLt p.1 k = true) : mapFind m k = none := by
  induction m with
  | nil => rfl
  | cons p rest ih =>
    obtain ⟨k', v'⟩ := p
    have hne : k' ≠ k := strLt_ne k' k (h (k', v') (List.mem_cons_self _ _))
    simp only [mapFind, if_neg hne]
    exact ih (fun q hq => h q (List.mem_cons_of_mem _ hq))

theorem mapInsert_of_lt {β : Type} (m : StrMap β) (k : Str) (v : β)
    (h : ∀ p ∈ m, strLt p.1 k = true) : mapInsert m k v = m ++ [(k, v)] := by
  induction m with
  | nil => rfl
  | cons p rest ih =>
    obtain ⟨k', v'⟩ := p
    have hlt : strLt k' k = true := h (k', v') (List.mem_cons_self _ _)
    have hne : k' ≠ k := strLt_ne k' k hlt
    have hge : ¬ (strLt k k' = true) := by rw [strLt_asymm k' k hlt]; exact Bool.false_ne_true
    simp only [mapInsert, if_neg hne, if_neg hge, List.cons_append]
    rw [ih (fun q hq => h q (List.mem_cons_of_mem _ hq))]

theorem mapFind_append_last {β : Type} (m : StrMap β) (k : Str) (x : β)
    (h : ∀ p ∈ m, p.1 ≠ k) : mapFind (m ++ [(k, x)]) k = some x := by
  induction m with
  | nil => simp [mapFind]
  | cons p rest ih =>
    obtain ⟨k', v'⟩ := p
    have hne : k' ≠ k := h (k', v') (List.mem_cons_self _ _)
    simp only [List.cons_append, mapFind, if_neg hne]
    exact ih (fun q hq => h q (List.mem_cons_of_mem _ hq))

theorem mapInsert_append_last {β : Type} (m : StrMap β) (k : Str) (x y : β)
    (h : ∀ p ∈ m, strLt p.1 k = true) : mapInsert (m ++ [(k, x)]) k y = m ++ [(k, y)] := by
  induction m with
  | nil => simp [mapInsert]
  | cons p rest ih =>
    obtain ⟨k', v'⟩ := p
    have hlt : strLt k' k = true := h (k', v') (List.mem_cons_self _ _)
    have hne : k' ≠ k := strLt_ne k' k hlt
    have hge : ¬ (strLt k k' = true) := by rw [strLt_asymm k' k hlt]; exact Bool.false_ne_true
    rw [List.cons_append, mapInsert, if_neg hne, if_neg hge,
      ih (fun q hq => h q (List.mem_cons_of_mem _ hq)), List.cons_append]

theorem storeAt_append_last (done : Data) (s k v : Str) (kdone : Section)
    (hdone : ∀ p ∈ done, strLt p.1 s = true) (hk : ∀ p ∈ kdone, strLt p.1 k = true) :
    storeAt (done ++ [(s, kdone)]) s k v = done ++ [(s, kdone ++ [(k, v)])]
    ∧ lookup (done ++ [(s, kdone)]) s k = none := by
  have hne : ∀ p ∈ done, p.1 ≠ s := fun p hp => strLt_ne _ _ (hdone p hp)
  have hf : mapFind (done ++ [(s, kdone)]) s = some kdone := mapFind_append_last done s kdone hne
  constructor
  · unfold storeAt
    rw [mapTouch_of_find _ s [] kdone hf]
    simp only [mapAt, hf, Option.getD_some]
    rw [mapInsert_of_lt kdone k v hk, mapInsert_append_last done s _ _ hdone]
  · simp only [lookup, hf, Option.bind]
    exact mapFind_none_of_lt kdone k hk

/-- The entry lines of one section written by `to_string`, read after its header. -/
theorem load_entries (config : IniParserConfig)
    (hws : config._whitespacePolicy = WhitespacePolicy.Trim)
    (done : Data) (s : Str) (hdone : ∀ p ∈ done, strLt p.1 s = true)
    (todo kdone : Section) (n : Int)
    (hs : todo ≠ [] → s ≠ [])
    (hsorted : sortedKeys (kdone ++ todo))
    (hplain : ∀ kv ∈ todo, plainEntry kv = true) :
    ∃ n2, loadLines config { _data := done ++ [(s, kdone)], currentSection := s,
                             currentLineNumber := n } (todo.map entryLine)
      = .ok { _data := done ++ [(s, kdone ++ todo)], currentSection := s,
              currentLineNumber := n2 } := by
  induction todo generalizing kdone n with
  | nil => exact ⟨n, by simp [loadLines]⟩
  | cons kv rest ih =>
    obtain ⟨k, v⟩ := kv
    have hsne : s ≠ [] := hs (List.cons_ne_nil _ _)
    have hk : ∀ p ∈ kdone, strLt p.1 k = true := by
      intro p hp
      have := List.pairwise_append.1 hsorted
      exact this.2.2 p hp (k, v) (List.mem_cons_self _ _)
    obtain ⟨e1, e2⟩ := storeAt_append_last done s k v kdone hdone hk
    have hkind := lineKind_entryLine config (k, v) hws (hplain (k, v) (List.mem_cons_self _ _))
    have hstep : loadLine config (LoadState.mk (done ++ [(s, kdone)]) s n) (entryLine (k, v))
        = .ok (LoadState.mk (done ++ [(s, kdone ++ [(k, v)])]) s (nextLineNumber n)) := by
      rw [loadLine_pair config _ _ k v hkind, storePair_new config _ _ k v (Or.inl hsne) e2]
      simp only [e1]
    simp only [List.map_cons, loadLines, hstep]
    have hsorted' : sortedKeys ((kdone ++ [(k, v)]) ++ rest) := by
      rw [List.append_assoc]; exact hsorted
    obtain ⟨n2, hn2⟩ := ih (kdone ++ [(k, v)]) (nextLineNumber n) (fun _ => hsne) hsorted'
      (fun q hq => hplain q (List.mem_cons_of_mem _ hq))
    refine ⟨n2, ?_⟩
    rw [hn2]
    simp only [List.append_assoc, List.singleton_append]

/-- The lines written by `to_string` for sorted, plain sections, read by `load`
after the sections before them. -/
theorem load_sections (config : IniParserConfig)
    (hws : config._whitespacePolicy = WhitespacePolicy.Trim)
    (todo done : Data) (cur : Str) (n : Int)
    (hsorted : sortedKeys (done ++ todo))
    (hinner : ∀ sk ∈ todo, sortedKeys sk.2)
    (hplain : ∀ sk ∈ todo, plainSection sk = true) :
    ∃ st', loadLines config { _data := done, currentSection := cur, currentLineNumber := n }
        (documentLines todo) = .ok st' ∧ st'._data = done ++ todo := by
  induction todo generalizing done cur n with
  | nil => exact ⟨_, rfl, by simp⟩
  | cons sk rest ih =>
    obtain ⟨s, kvs⟩ := sk
    have hdone : ∀ p ∈ done, strLt p.1 s = true := by
      intro p hp
      exact (List.pairwise_append.1 hsorted).2.2 p hp (s, kvs) (List.mem_cons_self _ _)
    have hp := hplain (s, kvs) (List.mem_cons_self _ _)
    simp only [plainSection, Bool.and_eq_true, Bool.or_eq_true, Bool.not_eq_true',
      List.all_eq_true, List.isEmpty_eq_true] at hp
    obtain ⟨⟨_, hname⟩, hentries⟩ := hp
    have hfind : mapFind done s = none := mapFind_none_of_lt done s hdone
    have hhead : loadLine config (LoadState.mk done cur n) (headerLine s)
        = .ok (LoadState.mk (done ++ [(s, [])]) s (nextLineNumber n)) := by
      rw [loadLine_header config _ _ s (lineKind_headerLine config s)]
      simp only [enterSection, hfind, mapInsert_of_lt done s [] hdone]
    have hs : kvs ≠ [] → s ≠ [] := by
      intro hne
      rcases hname with h | h
      · exact absurd h hne
      · intro e; subst e; simp at h
    obtain ⟨n2, hent⟩ := load_entries config hws done s hdone kvs [] (nextLineNumber n) hs
      (by simpa using hinner (s, kvs) (List.mem_cons_self _ _)) hentries
    have hsorted' : sortedKeys ((done ++ [(s, kvs)]) ++ rest) := by
      rw [List.append_assoc]; exact hsorted
    obtain ⟨st', r1, r2⟩ := ih (done ++ [(s, kvs)]) s n2 hsorted'
      (fun q hq => hinner q (List.mem_cons_of_mem _ hq))
      (fun q hq => hplain q (List.mem_cons_of_mem _ hq))
    refine ⟨st', ?_, by rw [r2]; simp⟩
    have hlines : documentLines ((s, kvs) :: rest)
        = headerLine s :: (kvs.map entryLine ++ documentLines rest) := by
      simp [documentLines]
    rw [hlines]
    simp only [loadLines, hhead]
    rw [loadLines_append, hent]
    simpa using r1

theorem foldl_entries (kvs : Section) (init : Str) :
    kvs.foldl (fun oss kv => oss ++ kv.1 ++ " = ".toList ++ kv.2 ++ ['\n']) init
      = init ++ (kvs.map entryLine).flatMap (fun l => l ++ ['\n']) := by
  induction kvs generalizing init with
  | nil => simp
  | cons kv rest ih =>
    rw [List.foldl_cons, ih]
    simp only [List.map_cons, List.flatMap_cons, entryLine, List.append_assoc]

/-- The text of `to_string` is its lines, each followed by a line break. -/
theorem to_string_eq_lines (_data : Data) :
    to_string _data = (documentLines _data).flatMap (fun l => l ++ ['\n']) := by
  have h : ∀ (doc : Data) (init : Str),
      doc.foldl (fun oss sk =>
        sk.2.foldl (fun oss kv => oss ++ kv.1 ++ " = ".toList ++ kv.2 ++ ['\n'])
          (oss ++ ['['] ++ sk.1 ++ "]\n".toList)) init
        = init ++ (documentLines doc).flatMap (fun l => l ++ ['\n']) := by
    intro doc
    induction doc with
    | nil => intro init; simp [documentLines]
    | cons sk rest ih =>
      intro init
      rw [List.foldl_cons, ih, foldl_entries]
      simp only [documentLines, List.flatMap_cons, headerLine, List.append_assoc,
        List.flatMap_append]
      rfl
  simpa [to_string] using h _data []

theorem documentLines_no_newline (_data : Data) (hplain : _data.all plainSection = true) :
    ∀ l ∈ documentLines _data, '\n' ∉ l := by
  intro l hl
  simp only [documentLines, List.mem_flatMap, List.mem_cons, List.mem_map] at hl
  obtain ⟨sk, hsk, hl⟩ := hl
  have hp := List.all_eq_true.1 hplain sk hsk
  simp only [plainSection, Bool.and_eq_true, Bool.not_eq_true', List.all_eq_true,
    List.contains_eq_any_beq, List.any_eq_false, beq_eq_false_iff_ne] at hp
  obtain ⟨⟨hname, _⟩, hentries⟩ := hp
  rcases hl with hl | ⟨kv, hkv, hl⟩
  · subst hl
    intro hm
    simp only [headerLine, List.mem_append, List.mem_singleton] at hm
    rcases hm with (hm | hm) | hm
    · exact absurd hm (by decide)
    · exact hname _ hm rfl
    · exact absurd hm (by decide)
  · subst hl
    have he := hentries kv hkv
    simp only [plainEntry, plainKey, plainValue, Bool.and_eq_true, Bool.not_eq_true',
      List.contains_eq_any_beq, List.any_eq_false, beq_eq_false_iff_ne] at he
    obtain ⟨⟨⟨⟨⟨⟨_, hkn⟩, _⟩, _⟩, _⟩, _, hvn⟩, _⟩ := he
    intro hm
    simp only [entryLine, List.mem_append] at hm
    rcases hm with (hm | hm) | hm
    · exact hkn _ hm rfl
    · exact absurd hm (by decide)
    · exact hvn _ hm rfl

/-! ## Failing loads and configurations that load does not tell apart -/

/-- A failing run of the loop fails at one line, after the lines before it succeeded. -/
theorem loadLines_error_split (config : IniParserConfig) (lines : List Str) (st : LoadState)
    (f : Failure) (h : loadLines config st lines = .error f) :
    ∃ pre raw rest st1, lines = pre ++ raw :: rest
      ∧ loadLines config st pre = .ok st1 ∧ loadLine config st1 raw = .error f := by
  induction lines generalizing st with
  | nil => simp [loadLines] at h
  | cons raw rest ih =>
    simp only [loadLines] at h
    cases h1 : loadLine config st raw with
    | error g =>
      rw [h1] at h
      simp only [Except.error.injEq] at h
      subst h
      exact ⟨[], raw, rest, st, rfl, rfl, h1⟩
    | ok st1 =>
      rw [h1] at h
      dsimp only at h
      obtain ⟨pre, raw2, rest2, st2, e1, e2, e3⟩ := ih st1 h
      refine ⟨raw :: pre, raw2, rest2, st2, by rw [e1]; rfl, ?_, e3⟩
      simp only [loadLines, h1]
      exact e2

theorem load_error_iff (config : IniParserConfig) (_data : Data) (text : Str) (f : Failure) :
    load config _data text = .error f ↔ loadLines config (initialState _data) (getlines text)
      = .error f := by
  unfold load initialState
  cases loadLines config { _data := _data, currentSection := [], currentLineNumber := 1 }
    (getlines text) <;> simp

/-- The loop body does not tell the section policies Ignore and Merge apart. -/
theorem loadLine_ignore_eq_merge (config : IniParserConfig) (st : LoadState) (raw : Str) :
    loadLine { config with _sectionPolicy := DuplicateSectionPolicy.Ignore } st raw
      = loadLine { config with _sectionPolicy := DuplicateSectionPolicy.Merge } st raw := by
  unfold loadLine
  simp only

theorem loadLines_ignore_eq_merge (config : IniParserConfig) (lines : List Str)
    (st : LoadState) :
    loadLines { config with _sectionPolicy := DuplicateSectionPolicy.Ignore } st lines
      = loadLines { config with _sectionPolicy := DuplicateSectionPolicy.Merge } st lines := by
  induction lines generalizing st with
  | nil => rfl
  | cons raw rest ih =>
    simp only [loadLines, loadLine_ignore_eq_merge]
    cases loadLine { config with _sectionPolicy := DuplicateSectionPolicy.Merge } st raw with
    | error f => rfl
    | ok st1 => exact ih st1

/-- The loop body reads the policies and the bits `AllowNoSection`, `AllowNoKey` and
`AllowNoValue` of the flags, and nothing else of the configuration. -/
theorem loadLine_congr (c1 c2 : IniParserConfig) (st : LoadState) (raw : Str)
    (hs : c1._sectionPolicy = c2._sectionPolicy) (hk : c1._keyPolicy = c2._keyPolicy)
    (hw : c1._whitespacePolicy = c2._whitespacePolicy)
    (h1 : c1._loadFlags &&& LoadFlags.AllowNoSection = c2._loadFlags &&& LoadFlags.AllowNoSection)
    (h2 : c1._loadFlags &&& LoadFlags.AllowNoKey = c2._loadFlags &&& LoadFlags.AllowNoKey)
    (h3 : c1._loadFlags &&& LoadFlags.AllowNoValue = c2._loadFlags &&& LoadFlags.AllowNoValue) :
    loadLine c1 st raw = loadLine c2 st raw := by
  unfold loadLine
  simp only [hs, hk, hw, h1, h2, h3]

theorem loadLines_congr (c1 c2 : IniParserConfig) (lines : List Str) (st : LoadState)
    (hs : c1._sectionPolicy = c2._sectionPolicy) (hk : c1._keyPolicy = c2._keyPolicy)
    (hw : c1._whitespacePolicy = c2._whitespacePolicy)
    (h1 : c1._loadFlags &&& LoadFlags.AllowNoSection = c2._loadFlags &&& LoadFlags.AllowNoSection)
    (h2 : c1._loadFlags &&& LoadFlags.AllowNoKey = c2._loadFlags &&& LoadFlags.AllowNoKey)
    (h3 : c1._loadFlags &&& LoadFlags.AllowNoValue = c2._loadFlags &&& LoadFlags.AllowNoValue) :
    loadLines c1 st lines = loadLines c2 st lines := by
  induction lines generalizing st with
  | nil => rfl
  | cons raw rest ih =>
    simp only [loadLines, loadLine_congr c1 c2 st raw hs hk hw h1 h2 h3]
    cases loadLine c2 st raw with
    | error f => rfl
    | ok st1 => exact ih st1

theorem get_eq (_data : Data) (s k defaultValue : Str) :
    get _data s k defaultValue
      = if s = [] ∨ k = [] then defaultValue else (lookup _data s k).getD defaultValue := by
  unfold get lookup
  by_cases h : s = [] ∨ k = []
  · rw [if_pos h]
    rcases h with h | h <;> simp [h]
  · rw [if_neg h]
    simp only [not_or] at h
    have h1 : s.isEmpty = false := by cases s <;> simp_all
    have h2 : k.isEmpty = false := by cases k <;> simp_all
    simp only [h1, h2, Bool.or_self, Bool.false_eq_true, if_false]
    cases mapFind _data s with
    | none => rfl
    | some sec =>
      simp only [Option.bind]
      cases mapFind sec k <;> rfl

/-! ## Sections and their headers -/

/-- Lines without a header of a section leave the section the keys it had and give
it the keys that occur for it. -/
theorem present_of_no_header (config : IniParserConfig) (lines : List Str)
    (st st' : LoadState) (s k : Str)
    (h : loadLines config st lines = .ok st')
    (hno : Event.header s ∉ events config st.currentSection lines) :
    (lookup st'._data s k ≠ none ↔
      lookup st._data s k ≠ none ∨ ∃ v, Event.pair s k v ∈ events config st.currentSection lines) := by
  induction lines generalizing st with
  | nil =>
    simp only [loadLines, Except.ok.injEq] at h
    subst h
    simp [events]
  | cons raw rest ih =>
    simp only [loadLines] at h
    cases h1 : loadLine config st raw with
    | error f => rw [h1] at h; cases h
    | ok st1 =>
      rw [h1] at h
      dsimp only at h
      rcases loadLine_kind_of_ok config st st1 raw h1 with hk | ⟨n, hk⟩ | ⟨k', v', hk⟩
      · obtain ⟨d1, c1⟩ := loadLine_skip_ok config st st1 raw hk h1
        rw [events_skip config _ raw rest hk] at hno ⊢
        rw [← d1, ← c1]
        exact ih st1 h (c1 ▸ hno)
      · rw [loadLine_header config st raw n hk] at h1
        obtain ⟨e1, e2, _, _⟩ := enterSection_ok config st st1 n h1
        rw [events_header config _ raw n rest hk] at hno ⊢
        have hsn : s ≠ n := fun e => hno (by rw [e]; exact List.mem_cons_self _ _)
        have hno' : Event.header s ∉ events config st1.currentSection rest :=
          fun hm => hno (List.mem_cons_of_mem _ (e1 ▸ hm))
        rw [ih st1 h hno', e2 s k hsn, e1]
        simp
      · rw [loadLine_pair config st raw k' v' hk] at h1
        obtain ⟨e1, e2, e3⟩ := storePair_ok config st st1 _ k' v' h1
        rw [events_pair config _ raw k' v' rest hk] at hno ⊢
        have hno' : Event.header s ∉ events config st1.currentSection rest :=
          fun hm => hno (List.mem_cons_of_mem _ (e1 ▸ hm))
        rw [ih st1 h hno', e1]
        by_cases hsk : s = st.currentSection ∧ k = k'
        · obtain ⟨hs, hkk⟩ := hsk
          subst hkk
          rw [hs, e3]
          simp
        · have hne : s ≠ st.currentSection ∨ k ≠ k' := by
            by_contra hcon
            simp only [not_or, not_not] at hcon
            exact hsk hcon
          rw [e2 s k hne]
          constructor
          · rintro (h0 | ⟨v, hv⟩)
            · exact Or.inl h0
            · exact Or.inr ⟨v, List.mem_cons_of_mem _ hv⟩
          · rintro (h0 | ⟨v, hv⟩)
            · exact Or.inl h0
            · rcases List.mem_cons.1 hv with hv | hv
              · simp only [Event.pair.injEq] at hv
                exact absurd ⟨hv.1, hv.2.1⟩ hsk
              · exact Or.inr ⟨v, hv⟩

/-- Under section policy Overwrite the keys of a section after the lines are the
keys that occur for it after its last header. -/
theorem overwrite_section_after_last_header (config : IniParserConfig) (lines : List Str)
    (st st' : LoadState) (A B : List Event) (s k : Str)
    (hpol : config._sectionPolicy = DuplicateSectionPolicy.Overwrite)
    (h : loadLines config st lines = .ok st')
    (hev : events config st.currentSection lines = A ++ Event.header s :: B)
    (hlast : Event.header s ∉ B) :
    (lookup st'._data s k ≠ none ↔ ∃ v, Event.pair s k v ∈ B) := by
  induction lines generalizing st A with
  | nil => simp [events] at hev
  | cons raw rest ih =>
    simp only [loadLines] at h
    cases h1 : loadLine config st raw with
    | error f => rw [h1] at h; cases h
    | ok st1 =>
      rw [h1] at h
      dsimp only at h
      rcases loadLine_kind_of_ok config st st1 raw h1 with hk | ⟨n, hk⟩ | ⟨k', v', hk⟩
      · obtain ⟨_, c1⟩ := loadLine_skip_ok config st st1 raw hk h1
        rw [events_skip config _ raw rest hk] at hev
        exact ih st1 A h (c1 ▸ hev)
      · rw [loadLine_header config st raw n hk] at h1
        obtain ⟨e1, _, _, e4⟩ := enterSection_ok config st st1 n h1
        rw [events_header config _ raw n rest hk] at hev
        cases A with
        | nil =>
          simp only [List.nil_append, List.cons.injEq, Event.header.injEq] at hev
          obtain ⟨hn, hB⟩ := hev
          subst hn
          have hno : Event.header n ∉ events config st1.currentSection rest := by
            rw [e1, hB]; exact hlast
          rw [present_of_no_header config rest st1 st' n k h hno, e4 hpol k, e1, hB]
          simp
        | cons a A' =>
          simp only [List.cons_append, List.cons.injEq] at hev
          exact ih st1 A' h (e1 ▸ hev.2)
      · rw [loadLine_pair config st raw k' v' hk] at h1
        obtain ⟨e1, _, _⟩ := storePair_ok config st st1 _ k' v' h1
        rw [events_pair config _ raw k' v' rest hk] at hev
        cases A with
        | nil => simp at hev
        | cons a A' =>
          simp only [List.cons_append, List.cons.injEq] at hev
          exact ih st1 A' h (e1 ▸ hev.2)

/-! ## What trim leaves -/

theorem find_first_not_of_none (s set : Str) (h : ∀ c ∈ s, c ∈ set) :
    find_first_not_of s set = none := by
  induction s with
  | nil => rfl
  | cons c cs ih =>
    have hc : c ∈ set := h c (List.mem_cons_self _ _)
    simp only [find_first_not_of, if_pos hc, ih (fun x hx => h x (List.mem_cons_of_mem _ hx))]
    rfl

theorem trim_all_space (s : Str) (h : ∀ c ∈ s, c ∈ whitespace) : trim s = [] := by
  unfold trim
  rw [find_first_not_of_none s whitespace h]

/-- A string is whitespace only, or whitespace around a core without outer space. -/
theorem space_core_decomp (s : Str) :
    (∀ c ∈ s, c ∈ whitespace)
    ∨ ∃ a core b, s = a ++ core ++ b ∧ (∀ x ∈ a, x ∈ whitespace)
        ∧ (∀ x ∈ b, x ∈ whitespace) ∧ noOuterSpace core = true := by
  induction s with
  | nil => exact Or.inl (fun c hc => absurd hc (List.not_mem_nil _))
  | cons c cs ih =>
    by_cases hc : c ∈ whitespace
    · rcases ih with hall | ⟨a, core, b, e, ha, hb, hcore⟩
      · left
        intro x hx
        rcases List.mem_cons.1 hx with hx | hx
        · rw [hx]; exact hc
        · exact hall x hx
      · right
        refine ⟨c :: a, core, b, by rw [e]; rfl, ?_, hb, hcore⟩
        intro x hx
        rcases List.mem_cons.1 hx with hx | hx
        · rw [hx]; exact hc
        · exact ha x hx
    · have h1 : noOuterSpace [c] = true := by
        simp only [noOuterSpace, List.head?_cons, List.getLast?_singleton, Bool.and_self,
          decide_eq_true_eq]
        exact hc
      right
      rcases ih with hall | ⟨a, core, b, e, ha, hb, hcore⟩
      · exact ⟨[], [c], cs, rfl, fun x hx => absurd hx (List.not_mem_nil _), hall, h1⟩
      · refine ⟨[], [c] ++ a ++ core, b, by rw [e]; simp,
          fun x hx => absurd hx (List.not_mem_nil _), hb, noOuterSpace_append [c] a core h1 hcore⟩

/-- The result of `trim` is empty, the string being whitespace only, or it is the
core of the string, without outer space. -/
theorem trim_cases (s : Str) :
    (trim s = [] ∧ ∀ c ∈ s, c ∈ whitespace)
    ∨ (noOuterSpace (trim s) = true ∧ ∃ a b, s = a ++ trim s ++ b
        ∧ (∀ x ∈ a, x ∈ whitespace) ∧ (∀ x ∈ b, x ∈ whitespace)) := by
  rcases space_core_decomp s with hall | ⟨a, core, b, e, ha, hb, hcore⟩
  · exact Or.inl ⟨trim_all_space s hall, hall⟩
  · have ht : trim s = core := by rw [e]; exact trim_noOuterSpace a b core ha hb hcore
    right
    rw [ht]
    exact ⟨hcore, a, b, e, ha, hb⟩

theorem noOuterSpace_ne_nil (s : Str) (h : noOuterSpace s = true) : s ≠ [] := by
  intro e; subst e; simp [noOuterSpace] at h

theorem trim_eq_nil_of_head (c : Char) (t : Str) (hc : c ∉ whitespace) : trim (c :: t) ≠ [] := by
  intro h
  rcases trim_cases (c :: t) with ⟨_, hall⟩ | ⟨hn, _⟩
  · exact hc (hall c (List.mem_cons_self _ _))
  · rw [h] at hn; simp [noOuterSpace] at hn

theorem trim_eq_nil_of_last (t : Str) (d : Char) (hd : d ∉ whitespace) : trim (t ++ [d]) ≠ [] := by
  intro h
  rcases trim_cases (t ++ [d]) with ⟨_, hall⟩ | ⟨hn, _⟩
  · exact hd (hall d (by simp))
  · rw [h] at hn; simp [noOuterSpace] at hn

/-- A piece at the start of a string without outer space is empty when `trim`
leaves nothing of it. -/
theorem take_nil_of_trim_nil (line : Str) (pos : Nat) (hline : noOuterSpace line = true)
    (h : trim (line.take pos) = []) : line.take pos = [] := by
  obtain ⟨c, t, e, hc⟩ := noOuterSpace_head line hline
  subst e
  cases pos with
  | zero => rfl
  | succ n =>
    rw [List.take_succ_cons] at h
    exact absurd h (trim_eq_nil_of_head c _ hc)

/-- A piece at the end of a string without outer space is empty when `trim` leaves
nothing of it. -/
theorem drop_nil_of_trim_nil (line : Str) (pos : Nat) (hline : noOuterSpace line = true)
    (h : trim (line.drop pos) = []) : line.drop pos = [] := by
  obtain ⟨t, d, e, hd⟩ := noOuterSpace_last line hline
  subst e
  by_cases hp : pos ≤ t.length
  · rw [List.drop_append_of_le_length hp] at h
    exact absurd h (trim_eq_nil_of_last _ d hd)
  · apply List.drop_eq_nil_of_le
    simp only [List.length_append, List.length_singleton]
    omega

theorem rawPair_some (raw kt vt : Str) (h : rawPair raw = some (kt, vt)) :
    ¬ ((trim raw).isEmpty || (trim raw).head? == some ';' || (trim raw).head? == some '#') = true
    ∧ ¬ ((trim raw).head? == some '[' && (trim raw).getLast? == some ']') = true
    ∧ ∃ pos, find (trim raw) '=' = some pos
        ∧ kt = substr (trim raw) 0 pos ∧ vt = substrFrom (trim raw) (pos + 1) := by
  unfold rawPair at h
  simp only at h
  by_cases c1 : ((trim raw).isEmpty || (trim raw).head? == some ';'
      || (trim raw).head? == some '#') = true
  · rw [if_pos c1] at h; cases h
  rw [if_neg c1] at h
  by_cases c2 : ((trim raw).head? == some '[' && (trim raw).getLast? == some ']') = true
  · rw [if_pos c2] at h; cases h
  rw [if_neg c2] at h
  refine ⟨c1, c2, ?_⟩
  cases hf : find (trim raw) '=' with
  | none => rw [hf] at h; cases h
  | some pos =>
    rw [hf] at h
    simp only [Option.some.injEq, Prod.mk.injEq] at h
    exact ⟨pos, rfl, h.1.symm, h.2.symm⟩

/-- The kind of a key-value line from its two raw parts. -/
theorem lineKind_of_rawPair (config : IniParserConfig) (raw kt vt : Str)
    (h : rawPair raw = some (kt, vt)) :
    lineKind config raw =
      if ((if config._whitespacePolicy = WhitespacePolicy.Trim then trim kt else kt).isEmpty
          && (config._loadFlags &&& LoadFlags.AllowNoKey) == 0) = true then LineKind.emptyKey
      else if ((if config._whitespacePolicy = WhitespacePolicy.Trim then trim vt else vt).isEmpty
          && (config._loadFlags &&& LoadFlags.AllowNoValue) == 0) = true then
        LineKind.emptyValue (if config._whitespacePolicy = WhitespacePolicy.Trim
          then trim kt else kt)
      else LineKind.pair
        (if config._whitespacePolicy = WhitespacePolicy.Trim then trim kt else kt)
        (if config._whitespacePolicy = WhitespacePolicy.Trim then trim vt else vt) := by
  obtain ⟨c1, c2, pos, hf, e1, e2⟩ := rawPair_some raw kt vt h
  unfold lineKind
  simp only
  rw [if_neg c1, if_neg c2, hf]
  simp only [← e1, ← e2]

theorem trim_nil : trim [] = [] := rfl

/-- The parts of a key-value line are empty when `trim` leaves nothing of them: the
line itself has no outer space. -/
theorem rawPair_parts_nil (raw kt vt : Str) (h : rawPair raw = some (kt, vt)) :
    (trim kt = [] → kt = []) ∧ (trim vt = [] → vt = []) := by
  obtain ⟨c1, _, pos, _, e1, e2⟩ := rawPair_some raw kt vt h
  have hline : noOuterSpace (trim raw) = true := by
    rcases trim_cases raw with ⟨hn, _⟩ | ⟨hn, _⟩
    · rw [hn] at c1; simp at c1
    · exact hn
  constructor
  · intro ht
    rw [e1] at ht ⊢
    simp only [substr, List.drop_zero] at ht ⊢
    exact take_nil_of_trim_nil _ pos hline ht
  · intro ht
    rw [e2] at ht ⊢
    exact drop_nil_of_trim_nil _ (pos + 1) hline ht

/-- The key and the value of a key-value line under the whitespace policy are empty
exactly when `trim` leaves nothing of the raw part. -/
theorem rawPair_policy_nil (config : IniParserConfig) (raw kt vt : Str)
    (h : rawPair raw = some (kt, vt)) :
    ((if config._whitespacePolicy = WhitespacePolicy.Trim then trim kt else kt) = []
        ↔ trim kt = [])
    ∧ ((if config._whitespacePolicy = WhitespacePolicy.Trim then trim vt else vt) = []
        ↔ trim vt = []) := by
  obtain ⟨hk, hv⟩ := rawPair_parts_nil raw kt vt h
  by_cases hw : config._whitespacePolicy = WhitespacePolicy.Trim
  · simp only [if_pos hw, and_self]
  · simp only [if_neg hw]
    exact ⟨⟨fun e => by rw [e]; rfl, hk⟩, ⟨fun e => by rw [e]; rfl, hv⟩⟩

theorem lineKind_emptyKey (config : IniParserConfig) (raw kt vt : Str)
    (h : rawPair raw = some (kt, vt)) (hk : trim kt = [])
    (hflag : config._loadFlags &&& LoadFlags.AllowNoKey = 0) :
    lineKind config raw = LineKind.emptyKey := by
  rw [lineKind_of_rawPair config raw kt vt h]
  have e := (rawPair_policy_nil config raw kt vt h).1.2 hk
  rw [if_pos (by simp [e, hflag])]

theorem lineKind_emptyValue (config : IniParserConfig) (raw kt vt : Str)
    (h : rawPair raw = some (kt, vt))
    (hk : trim kt ≠ [] ∨ config._loadFlags &&& LoadFlags.AllowNoKey ≠ 0)
    (hv : trim vt = [])
    (hflag : config._loadFlags &&& LoadFlags.AllowNoValue = 0) :
    lineKind config raw = LineKind.emptyValue
      (if config._whitespacePolicy = WhitespacePolicy.Trim then trim kt else kt) := by
  rw [lineKind_of_rawPair config raw kt vt h]
  have e := (rawPair_policy_nil config raw kt vt h).2.2 hv
  have hkn : ¬ (((if config._whitespacePolicy = WhitespacePolicy.Trim then trim kt else kt).isEmpty
      && (config._loadFlags &&& LoadFlags.AllowNoKey) == 0) = true) := by
    rcases hk with hk | hk
    · have := mt (rawPair_policy_nil config raw kt vt h).1.1 hk
      simp [this]
    · simp [hk]
  rw [if_neg hkn, if_pos (by simp [e, hflag])]

theorem lineKind_accepted (config : IniParserConfig) (raw kt vt : Str)
    (h : rawPair raw = some (kt, vt))
    (hk : trim kt ≠ [] ∨ config._loadFlags &&& LoadFlags.AllowNoKey ≠ 0)
    (hv : trim vt ≠ [] ∨ config._loadFlags &&& LoadFlags.AllowNoValue ≠ 0) :
    lineKind config raw = LineKind.pair
      (if config._whitespacePolicy = WhitespacePolicy.Trim then trim kt else kt)
      (if config._whitespacePolicy = WhitespacePolicy.Trim then trim vt else vt) := by
  rw [lineKind_of_rawPair config raw kt vt h]
  have hkn : ¬ (((if config._whitespacePolicy = WhitespacePolicy.Trim then trim kt else kt).isEmpty
      && (config._loadFlags &&& LoadFlags.AllowNoKey) == 0) = true) := by
    rcases hk with hk | hk
    · have := mt (rawPair_policy_nil config raw kt vt h).1.1 hk
      simp [this]
    · simp [hk]
  have hvn : ¬ (((if config._whitespacePolicy = WhitespacePolicy.Trim then trim vt else vt).isEmpty
      && (config._loadFlags &&& LoadFlags.AllowNoValue) == 0) = true) := by
    rcases hv with hv | hv
    · have := mt (rawPair_policy_nil config raw kt vt h).2.1 hv
      simp [this]
    · simp [hv]
  rw [if_neg hkn, if_neg hvn]

/-! ## The order of the keys -/

theorem strLt_trans (a b c : Str) (h1 : strLt a b = true) (h2 : strLt b c = true) :
    strLt a c = true := by
  induction a generalizing b c with
  | nil =>
    cases b with
    | nil => simp [strLt] at h1
    | cons y ys =>
      cases c with
      | nil => simp [strLt] at h2
      | cons z zs => rfl
  | cons x xs ih =>
    cases b with
    | nil => simp [strLt] at h1
    | cons y ys =>
      cases c with
      | nil => simp [strLt] at h2
      | cons z zs =>
        simp only [strLt] at h1 h2 ⊢
        by_cases hxy : x.toNat < y.toNat
        · by_cases hyz : y.toNat < z.toNat
          · have : x.toNat < z.toNat := by omega
            simp [this]
          · by_cases hzy : z.toNat < y.toNat
            · simp [hyz, hzy] at h2
            · have : x.toNat < z.toNat := by omega
              simp [this]
        · by_cases hyx : y.toNat < x.toNat
          · simp [hxy, hyx] at h1
          · simp only [hxy, hyx, if_false] at h1
            by_cases hyz : y.toNat < z.toNat
            · have : x.toNat < z.toNat := by omega
              simp [this]
            · by_cases hzy : z.toNat < y.toNat
              · simp [hyz, hzy] at h2
              · simp only [hyz, hzy, if_false] at h2
                have e1 : ¬ x.toNat < z.toNat := by omega
                have e2 : ¬ z.toNat < x.toNat := by omega
                simp only [e1, e2, if_false]
                exact ih ys zs h1 h2

theorem char_eq_of_toNat (x y : Char) (h : x.toNat = y.toNat) : x = y := by
  apply Char.ext
  apply UInt32.ext
  exact h

theorem strLt_total (a b : Str) (hne : a ≠ b) (h : strLt a b = false) : strLt b a = true := by
  induction a generalizing b with
  | nil =>
    cases b with
    | nil => exact absurd rfl hne
    | cons y ys => simp [strLt] at h
  | cons x xs ih =>
    cases b with
    | nil => rfl
    | cons y ys =>
      simp only [strLt] at h ⊢
      by_cases hxy : x.toNat < y.toNat
      · simp [hxy] at h
      · by_cases hyx : y.toNat < x.toNat
        · simp [hyx]
        · simp only [hxy, hyx, if_false] at h ⊢
          have hc : x = y := char_eq_of_toNat x y (by omega)
          subst hc
          exact ih ys (fun e => hne (by rw [e])) h

theorem mem_mapInsert {β : Type} (m : StrMap β) (k : Str) (v : β) (p : Str × β)
    (h : p ∈ mapInsert m k v) : p = (k, v) ∨ p ∈ m := by
  induction m with
  | nil =>
    simp only [mapInsert, List.mem_singleton] at h
    exact Or.inl h
  | cons q rest ih =>
    obtain ⟨k', v'⟩ := q
    unfold mapInsert at h
    split_ifs at h with h1 h2
    · rcases List.mem_cons.1 h with h | h
      · exact Or.inl h
      · exact Or.inr (List.mem_cons_of_mem _ h)
    · rcases List.mem_cons.1 h with h | h
      · exact Or.inl h
      · exact Or.inr h
    · rcases List.mem_cons.1 h with h | h
      · exact Or.inr (by rw [h]; exact List.mem_cons_self _ _)
      · rcases ih h with h | h
        · exact Or.inl h
        · exact Or.inr (List.mem_cons_of_mem _ h)

/-- The assignment `m[k] = v` keeps the keys of a map strictly ascending. -/
theorem sortedKeys_mapInsert {β : Type} (m : StrMap β) (k : Str) (v : β)
    (h : sortedKeys m) : sortedKeys (mapInsert m k v) := by
  induction m with
  | nil => simp [mapInsert, sortedKeys]
  | cons q rest ih =>
    obtain ⟨k', v'⟩ := q
    unfold sortedKeys at h ih ⊢
    obtain ⟨hhead, htail⟩ := List.pairwise_cons.1 h
    unfold mapInsert
    split_ifs with h1 h2
    · subst h1
      exact List.pairwise_cons.2 ⟨hhead, htail⟩
    · refine List.pairwise_cons.2 ⟨?_, h⟩
      intro p hp
      rcases List.mem_cons.1 hp with hp | hp
      · rw [hp]; exact h2
      · exact strLt_trans _ _ _ h2 (hhead p hp)
    · refine List.pairwise_cons.2 ⟨?_, ih htail⟩
      intro p hp
      rcases mem_mapInsert rest k v p hp with hp | hp
      · rw [hp]
        exact strLt_total k k' (fun e => h1 e.symm) (by simpa using h2)
      · exact hhead p hp

theorem sortedKeys_mapTouch {β : Type} (m : StrMap β) (k : Str) (d : β)
    (h : sortedKeys m) : sortedKeys (mapTouch m k d) := by
  unfold mapTouch
  split
  · exact h
  · exact sortedKeys_mapInsert m k d h

theorem mem_of_mapFind {β : Type} (m : StrMap β) (k : Str) (v : β)
    (h : mapFind m k = some v) : (k, v) ∈ m := by
  induction m with
  | nil => simp [mapFind] at h
  | cons q rest ih =>
    obtain ⟨k', v'⟩ := q
    unfold mapFind at h
    split_ifs at h with h1
    · simp only [Option.some.injEq] at h
      rw [h1, h]; exact List.mem_cons_self _ _
    · exact List.mem_cons_of_mem _ (ih h)

theorem mapFind_none_of_gt {β : Type} (m : StrMap β) (k : Str)
    (h : ∀ p ∈ m, strLt k p.1 = true) : mapFind m k = none := by
  induction m with
  | nil => rfl
  | cons p rest ih =>
    obtain ⟨k', v'⟩ := p
    have hne : k' ≠ k := fun e => strLt_ne k k' (h (k', v') (List.mem_cons_self _ _)) e.symm
    simp only [mapFind, if_neg hne]
    exact ih (fun q hq => h q (List.mem_cons_of_mem _ hq))

/-- Two maps with ascending keys that answer every `find` alike are the same map. -/
theorem sortedKeys_ext {β : Type} (m1 m2 : StrMap β) (h1 : sortedKeys m1) (h2 : sortedKeys m2)
    (h : ∀ k, mapFind m1 k = mapFind m2 k) : m1 = m2 := by
  induction m1 generalizing m2 with
  | nil =>
    cases m2 with
    | nil => rfl
    | cons q rest =>
      have := h q.1
      simp [mapFind] at this
  | cons p r1 ih =>
    cases m2 with
    | nil =>
      have := h p.1
      simp [mapFind] at this
    | cons q r2 =>
      obtain ⟨k1, v1⟩ := p
      obtain ⟨k2, v2⟩ := q
      unfold sortedKeys at h1 h2
      obtain ⟨a1, a2⟩ := List.pairwise_cons.1 h1
      obtain ⟨b1, b2⟩ := List.pairwise_cons.1 h2
      have hk : k1 = k2 := by
        by_contra hne
        have e1 : mapFind r2 k1 = some v1 := by
          have := h k1
          simp only [mapFind, if_true, if_neg (fun e : k2 = k1 => hne e.symm)] at this
          exact this.symm
        have e2 : mapFind r1 k2 = some v2 := by
          have := h k2
          simp only [mapFind, if_true, if_neg hne] at this
          exact this
        have l1 : strLt k2 k1 = true := b1 _ (mem_of_mapFind r2 k1 v1 e1)
        have l2 : strLt k1 k2 = true := a1 _ (mem_of_mapFind r1 k2 v2 e2)
        rw [strLt_asymm _ _ l1] at l2
        cases l2
      subst hk
      have hv : v1 = v2 := by
        have := h k1
        simp only [mapFind, if_true, Option.some.injEq] at this
        exact this
      subst hv
      have hrest : r1 = r2 := by
        apply ih r2 a2 b2
        intro k
        by_cases hkk : k1 = k
        · subst hkk
          rw [mapFind_none_of_gt r1 k1 a1, mapFind_none_of_gt r2 k1 b1]
        · have := h k
          simp only [mapFind, if_neg hkk] at this
          exact this
      rw [hrest]

/-! ## What a line can do to the document -/

/-- The document after a line that succeeds: unchanged, or with one section emptied
or created, or with one value stored in the current section. -/
theorem loadLine_ok_cases (config : IniParserConfig) (st st' : LoadState) (raw : Str)
    (h : loadLine config st raw = .ok st') :
    (lineKind config raw = LineKind.skip ∧ st'._data = st._data
      ∧ st'.currentSection = st.currentSection)
    ∨ (∃ name, lineKind config raw = LineKind.header name ∧ st'.currentSection = name
        ∧ (st'._data = st._data ∨ st'._data = mapInsert st._data name []))
    ∨ (∃ k v, lineKind config raw = LineKind.pair k v
        ∧ st'.currentSection = st.currentSection
        ∧ (st.currentSection ≠ [] ∨ config._loadFlags &&& LoadFlags.AllowNoSection ≠ 0)
        ∧ (st'._data = st._data
          ∨ st'._data = storeAt st._data st.currentSection k v
          ∨ ∃ old, config._keyPolicy = DuplicateKeyPolicy.Merge
              ∧ lookup st._data st.currentSection k = some old
              ∧ st'._data = storeAt st._data st.currentSection k (old ++ v))) := by
  rcases loadLine_kind_of_ok config st st' raw h with hk | ⟨n, hk⟩ | ⟨k, v, hk⟩
  · obtain ⟨d1, c1⟩ := loadLine_skip_ok config st st' raw hk h
    exact Or.inl ⟨hk, d1, c1⟩
  · right; left
    rw [loadLine_header config st raw n hk] at h
    refine ⟨n, hk, (enterSection_ok config st st' n h).1, ?_⟩
    unfold enterSection at h
    split at h
    · cases hp : config._sectionPolicy <;> rw [hp] at h
      · cases h
      · simp only [Except.ok.injEq] at h
        subst h; exact Or.inr rfl
      · simp only [Except.ok.injEq] at h
        subst h; exact Or.inl rfl
      · simp only [Except.ok.injEq] at h
        subst h; exact Or.inl rfl
    · simp only [Except.ok.injEq] at h
      subst h; exact Or.inr rfl
  · right; right
    rw [loadLine_pair config st raw k v hk] at h
    refine ⟨k, v, hk, (storePair_ok config st st' _ k v h).1, ?_⟩
    by_cases hg : st.currentSection ≠ [] ∨ config._loadFlags &&& LoadFlags.AllowNoSection ≠ 0
    · refine ⟨hg, ?_⟩
      cases hl : lookup st._data st.currentSection k with
      | none =>
        rw [storePair_new config st _ k v hg hl] at h
        simp only [Except.ok.injEq] at h
        subst h; exact Or.inr (Or.inl rfl)
      | some old =>
        rw [storePair_dup config st _ k v old hg hl] at h
        cases hp : config._keyPolicy <;> rw [hp] at h <;> simp only [Except.ok.injEq] at h
        · cases h
        · subst h; exact Or.inr (Or.inl rfl)
        · subst h; exact Or.inr (Or.inr ⟨old, rfl, rfl, rfl⟩)
        · subst h; exact Or.inl rfl
    · simp only [not_or, not_not] at hg
      rw [storePair_outside config st _ k v hg.1 hg.2] at h
      cases h

theorem wellFormed_clear (_data : Data) (name : Str) (h : wellFormed _data) :
    wellFormed (mapInsert _data name []) := by
  refine ⟨sortedKeys_mapInsert _ _ _ h.1, fun sk hsk => ?_⟩
  rcases mem_mapInsert _ _ _ _ hsk with e | hm
  · rw [e]; exact List.Pairwise.nil
  · exact h.2 sk hm

theorem sortedKeys_mapAt (_data : Data) (s : Str) (h : wellFormed _data) :
    sortedKeys (mapAt _data s []) := by
  unfold mapAt
  cases hf : mapFind _data s with
  | none => exact List.Pairwise.nil
  | some sec => exact h.2 _ (mem_of_mapFind _ _ _ hf)

theorem wellFormed_storeAt (_data : Data) (s k v : Str) (h : wellFormed _data) :
    wellFormed (storeAt _data s k v) := by
  unfold storeAt
  rw [mapAt_mapTouch]
  refine ⟨sortedKeys_mapInsert _ _ _ (sortedKeys_mapTouch _ _ _ h.1), fun sk hsk => ?_⟩
  rcases mem_mapInsert _ _ _ _ hsk with e | hm
  · rw [e]; exact sortedKeys_mapInsert _ _ _ (sortedKeys_mapAt _data s h)
  · unfold mapTouch at hm
    split at hm
    · exact h.2 sk hm
    · rcases mem_mapInsert _ _ _ _ hm with e | hm
      · rw [e]; exact List.Pairwise.nil
      · exact h.2 sk hm

/-- The loop keeps the document a map of maps with ascending keys. -/
theorem wellFormed_loadLines (config : IniParserConfig) (lines : List Str) (st st' : LoadState)
    (hwf : wellFormed st._data) (h : loadLines config st lines = .ok st') :
    wellFormed st'._data := by
  induction lines generalizing st with
  | nil =>
    simp only [loadLines, Except.ok.injEq] at h
    subst h; exact hwf
  | cons raw rest ih =>
    simp only [loadLines] at h
    cases h1 : loadLine config st raw with
    | error f => rw [h1] at h; cases h
    | ok st1 =>
      rw [h1] at h
      dsimp only at h
      apply ih st1 _ h
      rcases loadLine_ok_cases config st st1 raw h1 with ⟨_, e, _⟩ | ⟨n, _, _, e | e⟩ |
        ⟨k, v, _, _, _, e | e | ⟨old, _, _, e⟩⟩ <;> rw [e]
      · exact hwf
      · exact hwf
      · exact wellFormed_clear _ _ hwf
      · exact hwf
      · exact wellFormed_storeAt _ _ _ _ hwf
      · exact wellFormed_storeAt _ _ _ _ hwf

theorem wellFormed_load (config : IniParserConfig) (_data d : Data) (text : Str)
    (hwf : wellFormed _data) (h : load config _data text = .ok d) : wellFormed d := by
  unfold load at h
  cases hl : loadLines config
      { _data := _data, currentSection := [], currentLineNumber := 1 } (getlines text) with
  | error f => rw [hl] at h; cases h
  | ok st' =>
    rw [hl] at h
    simp only [Except.ok.injEq] at h
    subst h
    exact wellFormed_loadLines config _ _ st' hwf hl

/-- A well-formed document is determined by its sections and the values of their
keys. -/
theorem wellFormed_ext (d1 d2 : Data) (h1 : wellFormed d1) (h2 : wellFormed d2)
    (hsec : ∀ s, (mapFind d1 s).isSome = (mapFind d2 s).isSome)
    (hval : ∀ s k, lookup d1 s k = lookup d2 s k) : d1 = d2 := by
  apply sortedKeys_ext d1 d2 h1.1 h2.1
  intro s
  have a := hsec s
  cases e1 : mapFind d1 s with
  | none =>
    cases e2 : mapFind d2 s with
    | none => rfl
    | some sec2 => rw [e1, e2] at a; cases a
  | some sec1 =>
    cases e2 : mapFind d2 s with
    | none => rw [e1, e2] at a; cases a
    | some sec2 =>
      have : sec1 = sec2 := by
        apply sortedKeys_ext sec1 sec2 (h1.2 _ (mem_of_mapFind _ _ _ e1))
          (h2.2 _ (mem_of_mapFind _ _ _ e2))
        intro k
        have := hval s k
        simpa [lookup, e1, e2] using this
      rw [this]

/-- The text of `to_string`, section by section and entry by entry. -/
theorem to_string_eq_flatMap (_data : Data) :
    to_string _data = _data.flatMap (fun sk =>
      ['['] ++ sk.1 ++ "]\n".toList
        ++ sk.2.flatMap (fun kv => kv.1 ++ " = ".toList ++ kv.2 ++ ['\n'])) := by
  rw [to_string_eq_lines]
  induction _data with
  | nil => rfl
  | cons sk rest ih =>
    simp only [documentLines, List.flatMap_cons, List.flatMap_append] at ih ⊢
    rw [ih]
    have : (List.map entryLine sk.2).flatMap (fun l => l ++ ['\n'])
        = sk.2.flatMap (fun kv => kv.1 ++ " = ".toList ++ kv.2 ++ ['\n']) := by
      induction sk.2 with
      | nil => rfl
      | cons kv r ih2 => simp only [List.map_cons, List.flatMap_cons, ih2, entryLine]
    rw [this]
    simp [headerLine]

/-! ## What load stores under the strict flags -/

theorem getlines_no_newline (text : Str) : ∀ l ∈ getlines text, '\n' ∉ l := by
  induction text with
  | nil => intro l hl; simp [getlines] at hl
  | cons c cs ih =>
    intro l hl
    unfold getlines at hl
    split_ifs at hl with hc
    · rcases List.mem_cons.1 hl with e | hm
      · rw [e]; exact List.not_mem_nil _
      · exact ih l hm
    · cases hg : getlines cs with
      | nil =>
        rw [hg] at hl
        simp only [List.mem_singleton] at hl
        rw [hl]
        intro hm
        simp only [List.mem_singleton] at hm
        exact hc hm.symm
      | cons l0 ls =>
        rw [hg] at hl ih
        rcases List.mem_cons.1 hl with e | hm
        · rw [e]
          intro hm
          rcases List.mem_cons.1 hm with e2 | hm2
          · exact hc e2.symm
          · exact ih l0 (List.mem_cons_self _ _) hm2
        · exact ih l (List.mem_cons_of_mem _ hm)

theorem mem_of_mem_trim (s : Str) (c : Char) (h : c ∈ trim s) : c ∈ s := by
  rcases trim_cases s with ⟨hn, _⟩ | ⟨_, a, b, e, _, _⟩
  · rw [hn] at h; exact absurd h (List.not_mem_nil _)
  · rw [e]
    simp only [List.mem_append]
    exact Or.inl (Or.inr h)

theorem not_mem_take_of_find (s : Str) (c : Char) (pos : Nat) (h : find s c = some pos) :
    c ∉ s.take pos := by
  induction s generalizing pos with
  | nil => simp
  | cons d ds ih =>
    unfold find at h
    split_ifs at h with hd
    · simp only [Option.some.injEq] at h
      subst h
      simp
    · cases hf : find ds c with
      | none => rw [hf] at h; cases h
      | some p =>
        rw [hf] at h
        simp only [Option.map, Option.some.injEq] at h
        subst h
        rw [List.take_succ_cons]
        intro hm
        rcases List.mem_cons.1 hm with e | hm
        · exact hd e.symm
        · exact ih p hf hm

/-- The function `trim` keeps the first character of a string that starts without
whitespace. -/
theorem head_trim (c : Char) (t : Str) (hc : c ∉ whitespace) :
    (trim (c :: t)).head? = some c := by
  rcases trim_cases (c :: t) with ⟨_, hall⟩ | ⟨hn, a, b, e, ha, _⟩
  · exact absurd (hall c (List.mem_cons_self _ _)) hc
  · cases a with
    | nil =>
      obtain ⟨c2, t2, e2, _⟩ := noOuterSpace_head _ hn
      rw [e2] at e ⊢
      simp only [List.nil_append, List.cons_append, List.cons.injEq] at e
      rw [e.1]; rfl
    | cons x a' =>
      simp only [List.cons_append, List.cons.injEq] at e
      exact absurd (ha x (List.mem_cons_self _ _)) (e.1 ▸ hc)

/-- The function `trim` keeps the last character of a string that ends without
whitespace. -/
theorem getLast_trim (t : Str) (d : Char) (hd : d ∉ whitespace) :
    (trim (t ++ [d])).getLast? = some d := by
  rcases trim_cases (t ++ [d]) with ⟨_, hall⟩ | ⟨hn, a, b, e, _, hb⟩
  · exact absurd (hall d (by simp)) hd
  · rcases List.eq_nil_or_concat b with hb0 | ⟨b', x, hbx⟩
    · subst hb0
      obtain ⟨t2, d2, e2, _⟩ := noOuterSpace_last _ hn
      rw [e2] at e ⊢
      rw [List.append_nil, ← List.append_assoc] at e
      have := List.append_inj_right' e rfl
      simp only [List.cons.injEq, and_true] at this
      rw [List.getLast?_concat, this]
    · rw [List.concat_eq_append] at hbx
      subst hbx
      rw [← List.append_assoc] at e
      have := List.append_inj_right' e rfl
      simp only [List.cons.injEq, and_true] at this
      exact absurd (hb x (by simp)) (this ▸ hd)

theorem noOuterSpace_of_trim_ne_nil (s : Str) (h : trim s ≠ []) :
    noOuterSpace (trim s) = true := by
  rcases trim_cases s with ⟨hn, _⟩ | ⟨hn, _⟩
  · exact absurd hn h
  · exact hn

/-- Under the whitespace policy Trim and without `AllowNoKey` and `AllowNoValue`, the
key and value accepted from a line without line break make a plain entry. -/
theorem lineKind_pair_plain (config : IniParserConfig) (raw k v : Str)
    (hws : config._whitespacePolicy = WhitespacePolicy.Trim)
    (hnk : config._loadFlags &&& LoadFlags.AllowNoKey = 0)
    (hnv : config._loadFlags &&& LoadFlags.AllowNoValue = 0)
    (hraw : '\n' ∉ raw)
    (hk : lineKind config raw = LineKind.pair k v) :
    plainEntry (k, v) = true := by
  obtain ⟨c1, c2, pos, hf, ek, ev, kne, vne⟩ := lineKind_pair_parts config raw k v hk
  rw [if_pos hws] at ek ev
  simp only [substr, substrFrom, List.drop_zero] at ek ev
  have hkne : k ≠ [] := by
    intro e; apply kne; simp [e, hnk]
  have hvne : v ≠ [] := by
    intro e; apply vne; simp [e, hnv]
  have hline : noOuterSpace (trim raw) = true := by
    apply noOuterSpace_of_trim_ne_nil
    intro e; rw [e] at c1; simp at c1
  have hk1 : noOuterSpace k = true := by
    rw [ek]; exact noOuterSpace_of_trim_ne_nil _ (ek ▸ hkne)
  have hv1 : noOuterSpace v = true := by
    rw [ev]; exact noOuterSpace_of_trim_ne_nil _ (ev ▸ hvne)
  have hkn : '\n' ∉ k := by
    intro hm
    rw [ek] at hm
    exact hraw (mem_of_mem_trim _ _ (List.mem_of_mem_take (mem_of_mem_trim _ _ hm)))
  have hvn : '\n' ∉ v := by
    intro hm
    rw [ev] at hm
    exact hraw (mem_of_mem_trim _ _ (List.mem_of_mem_drop (mem_of_mem_trim _ _ hm)))
  have hke : '=' ∉ k := by
    intro hm
    rw [ek] at hm
    exact not_mem_take_of_find _ _ _ hf (mem_of_mem_trim _ _ hm)
  have hhead : k.head? = (trim raw).head? := by
    obtain ⟨c0, t, e, hc0⟩ := noOuterSpace_head _ hline
    rw [ek, e]
    cases pos with
    | zero => rw [ek] at hkne; exact absurd rfl hkne
    | succ n => rw [List.take_succ_cons, head_trim c0 _ hc0]; rfl
  have hlast : v.getLast? = (trim raw).getLast? := by
    obtain ⟨t, d0, e, hd0⟩ := noOuterSpace_last _ hline
    rw [ev, e]
    by_cases hp : pos + 1 ≤ t.length
    · rw [List.drop_append_of_le_length hp, getLast_trim _ d0 hd0, List.getLast?_concat]
    · have : (t ++ [d0]).drop (pos + 1) = [] := by
        apply List.drop_eq_nil_of_le
        simp only [List.length_append, List.length_singleton]
        omega
      rw [ev, e, this] at hvne
      exact absurd rfl hvne
  have h1 : k.head? ≠ some ';' := by
    rw [hhead]; intro e; apply c1; simp [e]
  have h2 : k.head? ≠ some '#' := by
    rw [hhead]; intro e; apply c1; simp [e]
  have h3 : ¬ (k.head? = some '[' ∧ v.getLast? = some ']') := by
    rw [hhead, hlast]; intro e; apply c2; simp [e.1, e.2]
  simp only [plainEntry, plainKey, plainValue, hk1, hv1, Bool.true_and, Bool.and_eq_true,
    Bool.not_eq_true', bne_iff_ne, ne_eq, List.contains_eq_any_beq, List.any_eq_false,
    beq_eq_false_iff_ne, Bool.and_eq_false_imp, beq_iff_eq]
  refine ⟨⟨⟨⟨⟨?_, ?_⟩, h1⟩, h2⟩, ?_⟩, fun a b => h3 ⟨a, b⟩⟩
  · intro x hx e; exact hkn (e ▸ hx)
  · intro x hx e; exact hke (e ▸ hx)
  · intro x hx e; exact hvn (e ▸ hx)

theorem headerName_no_newline (config : IniParserConfig) (raw name : Str)
    (hraw : '\n' ∉ raw) (hk : lineKind config raw = LineKind.header name) : '\n' ∉ name := by
  unfold lineKind at hk
  simp only at hk
  by_cases c1 : ((trim raw).isEmpty || (trim raw).head? == some ';'
      || (trim raw).head? == some '#') = true
  · rw [if_pos c1] at hk; cases hk
  rw [if_neg c1] at hk
  by_cases c2 : ((trim raw).head? == some '[' && (trim raw).getLast? == some ']') = true
  · rw [if_pos c2] at hk
    simp only [LineKind.header.injEq] at hk
    rw [← hk]
    intro hm
    unfold substr at hm
    exact hraw (mem_of_mem_trim _ _ (List.mem_of_mem_drop (List.mem_of_mem_take hm)))
  · rw [if_neg c2] at hk
    cases hf : find (trim raw) '=' with
    | none => rw [hf] at hk; cases hk
    | some pos =>
      rw [hf] at hk
      simp only at hk
      split_ifs at hk

theorem plainSection_iff (name : Str) (entries : Section) :
    plainSection (name, entries) = true ↔
      '\n' ∉ name ∧ (entries = [] ∨ name ≠ []) ∧ ∀ kv ∈ entries, plainEntry kv = true := by
  simp only [plainSection, Bool.and_eq_true, Bool.not_eq_true', Bool.or_eq_true,
    List.isEmpty_eq_true, List.all_eq_true, and_assoc]
  have e1 : List.contains name '\n' = false ↔ '\n' ∉ name := by
    rw [← Bool.not_eq_true]
    simp
  have e2 : List.isEmpty name = false ↔ name ≠ [] := by
    cases name <;> simp
  rw [e1, e2]

theorem plain_clear (_data : Data) (name : Str) (hd : _data.all plainSection = true)
    (hn : '\n' ∉ name) : (mapInsert _data name []).all plainSection = true := by
  rw [List.all_eq_true] at hd ⊢
  intro sk hsk
  rcases mem_mapInsert _ _ _ _ hsk with e | hm
  · rw [e, plainSection_iff]
    exact ⟨hn, Or.inl rfl, fun kv hkv => absurd hkv (List.not_mem_nil _)⟩
  · exact hd sk hm

theorem plain_storeAt (_data : Data) (s k v : Str) (hd : _data.all plainSection = true)
    (hs : '\n' ∉ s) (hsne : s ≠ []) (he : plainEntry (k, v) = true) :
    (storeAt _data s k v).all plainSection = true := by
  rw [List.all_eq_true] at hd ⊢
  intro sk hsk
  unfold storeAt at hsk
  rw [mapAt_mapTouch] at hsk
  rcases mem_mapInsert _ _ _ _ hsk with e | hm
  · rw [e, plainSection_iff]
    refine ⟨hs, Or.inr hsne, fun kv hkv => ?_⟩
    rcases mem_mapInsert _ _ _ _ hkv with e2 | hm2
    · rw [e2]; exact he
    · unfold mapAt at hm2
      cases hf : mapFind _data s with
      | none => rw [hf] at hm2; exact absurd hm2 (List.not_mem_nil _)
      | some sec =>
        rw [hf] at hm2
        have := hd _ (mem_of_mapFind _ _ _ hf)
        rw [plainSection_iff] at this
        exact this.2.2 kv hm2
  · unfold mapTouch at hm
    split at hm
    · exact hd sk hm
    · rcases mem_mapInsert _ _ _ _ hm with e | hm
      · rw [e, plainSection_iff]
        exact ⟨hs, Or.inl rfl, fun kv hkv => absurd hkv (List.not_mem_nil _)⟩
      · exact hd sk hm

/-- Under the whitespace policy Trim, without `AllowNoSection`, `AllowNoKey` and
`AllowNoValue` and with a key policy other than Merge, the loop stores only plain
sections. -/
theorem plain_loadLines (config : IniParserConfig)
    (hws : config._whitespacePolicy = WhitespacePolicy.Trim)
    (hns : config._loadFlags &&& LoadFlags.AllowNoSection = 0)
    (hnk : config._loadFlags &&& LoadFlags.AllowNoKey = 0)
    (hnv : config._loadFlags &&& LoadFlags.AllowNoValue = 0)
    (hpol : config._keyPolicy ≠ DuplicateKeyPolicy.Merge)
    (lines : List Str) (hlines : ∀ l ∈ lines, '\n' ∉ l) (st st' : LoadState)
    (hd : st._data.all plainSection = true) (hcur : '\n' ∉ st.currentSection)
    (h : loadLines config st lines = .ok st') :
    st'._data.all plainSection = true := by
  induction lines generalizing st with
  | nil =>
    simp only [loadLines, Except.ok.injEq] at h
    subst h; exact hd
  | cons raw rest ih =>
    simp only [loadLines] at h
    cases h1 : loadLine config st raw with
    | error f => rw [h1] at h; cases h
    | ok st1 =>
      rw [h1] at h
      dsimp only at h
      have hraw := hlines raw (List.mem_cons_self _ _)
      have hrest : ∀ l ∈ rest, '\n' ∉ l := fun l hl => hlines l (List.mem_cons_of_mem _ hl)
      rcases loadLine_ok_cases config st st1 raw h1 with ⟨_, e, c⟩ | ⟨n, hk, c, e⟩ |
        ⟨k, v, hk, c, hg, e⟩
      · exact ih hrest st1 (e ▸ hd) (c ▸ hcur) h
      · have hn := headerName_no_newline config raw n hraw hk
        rcases e with e | e
        · exact ih hrest st1 (e ▸ hd) (c ▸ hn) h
        · exact ih hrest st1 (e ▸ plain_clear _ _ hd hn) (c ▸ hn) h
      · have hsne : st.currentSection ≠ [] := by
          rcases hg with hg | hg
          · exact hg
          · exact absurd hns hg
        have he := lineKind_pair_plain config raw k v hws hnk hnv hraw hk
        rcases e with e | e | ⟨old, hm, _, _⟩
        · exact ih hrest st1 (e ▸ hd) (c ▸ hcur) h
        · exact ih hrest st1 (e ▸ plain_storeAt _ _ _ _ hd hcur hsne he) (c ▸ hcur) h
        · exact absurd hm hpol

/-- The round trip of a well-formed document with plain sections. -/
theorem load_to_string_plain (doc : Data) (hwf : wellFormed doc)
    (hplain : doc.all plainSection = true) :
    load {} [] (to_string doc) = .ok doc := by
  have hlines : getlines (to_string doc) = documentLines doc := by
    rw [to_string_eq_lines]
    exact getlines_flatMap _ (documentLines_no_newline doc hplain)
  obtain ⟨st', r1, r2⟩ := load_sections {} rfl doc [] [] 1 (by simpa using hwf.1) hwf.2
    (List.all_eq_true.1 hplain)
  unfold load
  rw [hlines, r1]
  simpa using r2

/-- A document loaded into an empty one under the default configuration is well
formed and has plain sections. -/
theorem plain_of_default_load (text : Str) (d : Data) (h : load {} [] text = .ok d) :
    wellFormed d ∧ d.all plainSection = true := by
  refine ⟨wellFormed_load {} [] d text ⟨List.Pairwise.nil, fun sk hsk =>
    absurd hsk (List.not_mem_nil _)⟩ h, ?_⟩
  unfold load at h
  cases hl : loadLines {}
      { _data := [], currentSection := [], currentLineNumber := 1 } (getlines text) with
  | error f => rw [hl] at h; cases h
  | ok st' =>
    rw [hl] at h
    simp only [Except.ok.injEq] at h
    subst h
    exact plain_loadLines {} rfl (by decide) (by decide) (by decide) (by decide)
      (getlines text) (getlines_no_newline text)
      (LoadState.mk [] [] 1) st' (by decide) (List.not_mem_nil _) hl

/-- The counter wraps at the end of the range of `int`. -/
theorem nextLineNumber_wrap : nextLineNumber 2147483647 = -2147483648 := by decide

/-- Lines without an occurrence of a key and without a clearing header of its
section leave the key as it is. -/
theorem lookup_unchanged (config : IniParserConfig) (lines : List Str)
    (st st' : LoadState) (s k : Str)
    (h : loadLines config st lines = .ok st')
    (hno : ∀ v, Event.pair s k v ∉ events config st.currentSection lines)
    (hclear : config._sectionPolicy = DuplicateSectionPolicy.Overwrite →
      Event.header s ∉ events config st.currentSection lines) :
    lookup st'._data s k = lookup st._data s k := by
  induction lines generalizing st with
  | nil =>
    simp only [loadLines, Except.ok.injEq] at h
    subst h; rfl
  | cons raw rest ih =>
    simp only [loadLines] at h
    cases h1 : loadLine config st raw with
    | error f => rw [h1] at h; cases h
    | ok st1 =>
      rw [h1] at h
      dsimp only at h
      rcases loadLine_kind_of_ok config st st1 raw h1 with hk | ⟨n, hk⟩ | ⟨k', v', hk⟩
      · obtain ⟨d1, c1⟩ := loadLine_skip_ok config st st1 raw hk h1
        rw [events_skip config _ raw rest hk] at hno hclear
        rw [← d1]
        exact ih st1 h (c1 ▸ hno) (c1 ▸ hclear)
      · rw [loadLine_header config st raw n hk] at h1
        obtain ⟨e1, e2, e3, _⟩ := enterSection_ok config st st1 n h1
        rw [events_header config _ raw n rest hk] at hno hclear
        rw [ih st1 h (fun v hv => hno v (List.mem_cons_of_mem _ (e1 ▸ hv)))
          (fun hc hm => hclear hc (List.mem_cons_of_mem _ (e1 ▸ hm)))]
        by_cases hs : s = n
        · subst hs
          exact e3 (fun hc => hclear hc (List.mem_cons_self _ _)) k
        · exact e2 s k hs
      · rw [loadLine_pair config st raw k' v' hk] at h1
        obtain ⟨e1, e2, _⟩ := storePair_ok config st st1 _ k' v' h1
        rw [events_pair config _ raw k' v' rest hk] at hno hclear
        rw [ih st1 h (fun v hv => hno v (List.mem_cons_of_mem _ (e1 ▸ hv)))
          (fun hc hm => hclear hc (List.mem_cons_of_mem _ (e1 ▸ hm)))]
        have hne : s ≠ st.currentSection ∨ k ≠ k' := by
          by_contra hcon
          simp only [not_or, not_not] at hcon
          exact hno v' (by rw [hcon.1, hcon.2]; exact List.mem_cons_self _ _)
        exact e2 s k hne

/-- Under key policy Overwrite the value of the last occurrence of a key is stored,
unless a later header clears its section. -/
theorem overwrite_last_value_stored (config : IniParserConfig) (lines : List Str)
    (st st' : LoadState) (A B : List Event) (s k v : Str)
    (hpol : config._keyPolicy = DuplicateKeyPolicy.Overwrite)
    (h : loadLines config st lines = .ok st')
    (hev : events config st.currentSection lines = A ++ Event.pair s k v :: B)
    (hlast : ∀ v2, Event.pair s k v2 ∉ B)
    (hclear : config._sectionPolicy = DuplicateSectionPolicy.Overwrite → Event.header s ∉ B) :
    lookup st'._data s k = some v := by
  induction lines generalizing st A with
  | nil => simp [events] at hev
  | cons raw rest ih =>
    simp only [loadLines] at h
    cases h1 : loadLine config st raw with
    | error f => rw [h1] at h; cases h
    | ok st1 =>
      rw [h1] at h
      dsimp only at h
      rcases loadLine_kind_of_ok config st st1 raw h1 with hk | ⟨n, hk⟩ | ⟨k', v', hk⟩
      · obtain ⟨_, c1⟩ := loadLine_skip_ok config st st1 raw hk h1
        rw [events_skip config _ raw rest hk] at hev
        exact ih st1 A h (c1 ▸ hev)
      · rw [loadLine_header config st raw n hk] at h1
        obtain ⟨e1, _, _, _⟩ := enterSection_ok config st st1 n h1
        rw [events_header config _ raw n rest hk] at hev
        cases A with
        | nil => simp at hev
        | cons a A' =>
          simp only [List.cons_append, List.cons.injEq] at hev
          exact ih st1 A' h (e1 ▸ hev.2)
      · rw [loadLine_pair config st raw k' v' hk] at h1
        obtain ⟨e1, _, e3⟩ := storePair_ok config st st1 _ k' v' h1
        rw [events_pair config _ raw k' v' rest hk] at hev
        cases A with
        | nil =>
          simp only [List.nil_append, List.cons.injEq, Event.pair.injEq] at hev
          obtain ⟨⟨hs, hk2, hv⟩, hB⟩ := hev
          subst hk2 hv
          rw [lookup_unchanged config rest st1 st' s k' h (by rw [e1, hB]; exact hlast)
            (by rw [e1, hB]; exact hclear), ← hs, e3, hpol]
          cases lookup st._data st.currentSection k' <;> rfl
        | cons a A' =>
          simp only [List.cons_append, List.cons.injEq] at hev
          exact ih st1 A' h (e1 ▸ hev.2)

/-- The counter after the lines, for every number of lines: the count of the lines
added to the counter before them, wrapped into the range of `int`. -/
theorem loadLines_lineNumber_wrapped (config : IniParserConfig) (st st' : LoadState)
    (pre : List Str)
    (hrange : -2147483648 ≤ st.currentLineNumber ∧ st.currentLineNumber < 2147483648)
    (h : loadLines config st pre = .ok st') :
    st'.currentLineNumber
      = (st.currentLineNumber + (pre.length : Int) + 2147483648) % 4294967296 - 2147483648 := by
  induction pre generalizing st with
  | nil =>
    simp only [loadLines, Except.ok.injEq] at h
    subst h
    simp only [List.length_nil]
    omega
  | cons raw pre ih =>
    simp only [loadLines] at h
    cases h1 : loadLine config st raw with
    | error f => rw [h1] at h; cases h
    | ok st1 =>
      rw [h1] at h
      dsimp only at h
      have h2 := loadLine_lineNumber config st st1 raw h1
      unfold nextLineNumber at h2
      rw [ih st1 (by omega) h, h2]
      simp only [List.length_cons]
      omega

theorem getlines_blank_lines (n : Nat) (tail : Str) :
    getlines (List.replicate n '\n' ++ tail) = List.replicate n [] ++ getlines tail := by
  induction n with
  | zero => rfl
  | succ n ih =>
    rw [List.replicate_succ, List.cons_append, getlines, if_pos rfl, ih]
    rfl

theorem loadLines_blank_lines (config : IniParserConfig) (n : Nat) (st : LoadState) :
    ∃ st', loadLines config st (List.replicate n []) = .ok st' ∧ st'._data = st._data
      ∧ st'.currentSection = st.currentSection := by
  induction n generalizing st with
  | zero => exact ⟨st, rfl, rfl, rfl⟩
  | succ n ih =>
    obtain ⟨st', r1, r2, r3⟩ := ih { st with currentLineNumber := nextLineNumber st.currentLineNumber }
    refine ⟨st', ?_, r2, r3⟩
    rw [List.replicate_succ]
    have hk : lineKind config [] = LineKind.skip := by
      unfold lineKind; rfl
    simp only [loadLines, loadLine_skip config st [] hk]
    exact r1

/-- The text of `n` empty lines followed by `oops` fails at the last line with the
counter value after `n` increments: `n + 1` below `2^31`, and `-2147483648` for
`n = 2147483647`. -/
theorem load_blank_lines_then_bad (n : Nat) :
    load {} [] (List.replicate n '\n' ++ "oops".toList)
      = .error { error := { message := "Invalid line (no '=' found): oops".toList,
                            _lineNumber := ((n : Int) + 1 + 2147483648) % 4294967296
                              - 2147483648 },
                 _data := [] } := by
  obtain ⟨st, r1, r2, r3⟩ := loadLines_blank_lines {} n (initialState [])
  have hn := loadLines_lineNumber_wrapped {} (initialState []) st (List.replicate n [])
    (by decide) r1
  have hsplit : getlines (List.replicate n '\n' ++ "oops".toList)
      = List.replicate n [] ++ "oops".toList :: [] := by
    rw [getlines_blank_lines]; rfl
  rw [(load_at_line {} [] _ (List.replicate n []) [] "oops".toList st hsplit r1).2,
    loadLine_eq, (by decide : lineKind {} "oops".toList = LineKind.noDelimiter)]
  simp only [dispatch, hn, r2, List.length_replicate, initialState]
  have : (1 + (n : Int) + 2147483648) % 4294967296 = ((n : Int) + 1 + 2147483648) % 4294967296 := by
    congr 1; omega
  rw [this]
  rfl

theorem load_blank_lines_overflow :
    load {} [] (List.replicate 2147483647 '\n' ++ "oops".toList)
      = .error { error := { message := "Invalid line (no '=' found): oops".toList,
                            _lineNumber := -2147483648 },
                 _data := [] } := by
  rw [load_blank_lines_then_bad 2147483647]
  rfl

/-! ## The claims -/

/-- C1, the code at the claim's example: with `CaseSensitive` unset, loading
`"[A]\nK=Val\n"` stores the section name `A` and the value `Val` as written, since
the lowered copies made by `to_lower` are discarded; `get("a","K")` returns the
default and `get("A","K")` returns `"Val"`. -/
theorem C1_case_folding_discarded :
    load { _loadFlags := LoadFlags.None } [] "[A]\nK=Val\n".toList
        = .ok [("A".toList, [("K".toList, "Val".toList)])]
    ∧ get [("A".toList, [("K".toList, "Val".toList)])] "a".toList "K".toList [] = []
    ∧ get [("A".toList, [("K".toList, "Val".toList)])] "A".toList "K".toList [] = "Val".toList
    ∧ to_lower "Val".toList = "val".toList := by
  decide

/-- C2, the code at the claim's example: under section policy Ignore, the header
`[a]` met while `b` is current and `a` exists leaves the document as it is but makes
`a` the current section, since `currentSection` is assigned at line 44 before the
duplicate is noticed; so loading `"[a]\nx=1\n[b]\ny=2\n[a]\nz=3\n"` stores `z` in
section `a`: `get("b","z")` returns the default and `get("a","z")` returns `"3"`. -/
theorem C2_ignored_header_still_switches :
    loadLine { _sectionPolicy := DuplicateSectionPolicy.Ignore }
        { _data := [("a".toList, [("x".toList, "1".toList)]), ("b".toList, [("y".toList, "2".toList)])],
          currentSection := "b".toList, currentLineNumber := 5 } "[a]".toList
      = .ok { _data := [("a".toList, [("x".toList, "1".toList)]),
                        ("b".toList, [("y".toList, "2".toList)])],
              currentSection := "a".toList, currentLineNumber := 6 }
    ∧ load { _sectionPolicy := DuplicateSectionPolicy.Ignore } []
        "[a]\nx=1\n[b]\ny=2\n[a]\nz=3\n".toList
      = .ok [("a".toList, [("x".toList, "1".toList), ("z".toList, "3".toList)]),
             ("b".toList, [("y".toList, "2".toList)])]
    ∧ get [("a".toList, [("x".toList, "1".toList), ("z".toList, "3".toList)]),
           ("b".toList, [("y".toList, "2".toList)])] "b".toList "z".toList [] = []
    ∧ get [("a".toList, [("x".toList, "1".toList), ("z".toList, "3".toList)]),
           ("b".toList, [("y".toList, "2".toList)])] "a".toList "z".toList [] = "3".toList :=
  ⟨by decide, by decide, by decide, by decide⟩

/-- C3, the claim refuted: the document with the single entry `k` of section `a`
holding `" x"` (what loading `"[a]\nk= x\n"` under Preserve leaves) has non-empty
names, keys and values, but loading its `to_string` under the default config gives
`k` the value `"x"`. -/
theorem C3_counterexample :
    load { _whitespacePolicy := WhitespacePolicy.Preserve } [] "[a]\nk= x\n".toList
      = .ok [("a".toList, [("k".toList, " x".toList)])]
    ∧ to_string [("a".toList, [("k".toList, " x".toList)])] = "[a]\nk =  x\n".toList
    ∧ load {} [] (to_string [("a".toList, [("k".toList, " x".toList)])])
      = .ok [("a".toList, [("k".toList, "x".toList)])]
    ∧ lookup [("a".toList, [("k".toList, "x".toList)])] "a".toList "k".toList
      ≠ lookup [("a".toList, [("k".toList, " x".toList)])] "a".toList "k".toList :=
  ⟨by decide, by decide, by decide, by decide⟩

/-- C3 as amended: for every document (a map of maps, keys ascending) whose section
names have no line break and are non-empty when the section has entries, whose keys
are non-empty, without whitespace at their ends, without line break or `'='` and not
starting with `';'` or `'#'`, whose values are non-empty, without whitespace at their
ends and without line break, and where no key starting with `'['` has a value ending
with `']'`, loading `to_string` of the document into an empty document under the
default config succeeds and yields exactly the document. -/
theorem C3_round_trip_plain (doc : Data) (hwf : wellFormed doc)
    (hplain : doc.all plainSection = true) :
    load {} [] (to_string doc) = .ok doc := by
  have hlines : getlines (to_string doc) = documentLines doc := by
    rw [to_string_eq_lines]
    exact getlines_flatMap _ (documentLines_no_newline doc hplain)
  obtain ⟨st', r1, r2⟩ := load_sections {} rfl doc [] [] 1 (by simpa using hwf.1) hwf.2
    (List.all_eq_true.1 hplain)
  unfold load
  rw [hlines, r1]
  simpa using r2

/-- C3, an instance of the theorem at a concrete input. -/
theorem C3_round_trip_plain_witness :
    load {} [] (to_string [("a".toList, [("k".toList, "1".toList), ("z".toList, "x y".toList)]),
                           ("b".toList, [])])
      = .ok [("a".toList, [("k".toList, "1".toList), ("z".toList, "x y".toList)]),
             ("b".toList, [])] :=
  C3_round_trip_plain _ (by decide) (by decide)

/-- C4, the claim's example refuted: with `AllowNoSection` set, loading `"k=1\n"`
succeeds and stores the pair under the empty section name, but `get("", "k")`
returns the default and not `"1"`. -/
theorem C4_counterexample :
    load { _loadFlags := LoadFlags.CaseSensitive ||| LoadFlags.AllowNoSection } []
        "k=1\n".toList = .ok [([], [("k".toList, "1".toList)])]
    ∧ lookup [([], [("k".toList, "1".toList)])] [] "k".toList = some "1".toList
    ∧ get [([], [("k".toList, "1".toList)])] [] "k".toList [] ≠ "1".toList := by
  decide

/-- C4 as amended: with `AllowNoSection` set, a text made of blank, comment and
accepted key-value lines only, with pairwise distinct keys, loads successfully into an
empty document and every pair is stored under the empty section name; `get("", k)`
nevertheless returns the default, since `get` answers an empty section name with
the default. -/
theorem C4_no_section_pairs_stored (config : IniParserConfig) (text : Str)
    (hflag : config._loadFlags &&& LoadFlags.AllowNoSection ≠ 0)
    (hkinds : ∀ l ∈ getlines text, (lineKind config l).isSkipOrPair = true)
    (hdistinct : (getlines text).Pairwise (fun a b => ∀ k, (lineKind config a).key? = some k →
        (lineKind config b).key? ≠ some k)) :
    ∃ d, load config [] text = .ok d
      ∧ (∀ l ∈ getlines text, ∀ k v, lineKind config l = LineKind.pair k v →
          lookup d [] k = some v ∧ ∀ defaultValue, get d [] k defaultValue = defaultValue) := by
  obtain ⟨st', r1, _, r3, _⟩ := noSection_block config (getlines text)
    { _data := [], currentSection := [], currentLineNumber := 1 } hflag rfl hkinds hdistinct
    (fun l _ k _ => rfl)
  refine ⟨st'._data, by simp only [load, r1], fun l hl k v hkv => ⟨r3 l hl k v hkv, ?_⟩⟩
  exact fun d => get_empty_section _ _ _

/-- C4, an instance of the theorem at a concrete input. -/
theorem C4_no_section_pairs_stored_witness :
    ∃ d, load { _loadFlags := LoadFlags.CaseSensitive ||| LoadFlags.AllowNoSection } []
        "k=1\n; c\nj=2\n".toList = .ok d
      ∧ lookup d [] "j".toList = some "2".toList
      ∧ get d [] "j".toList "x".toList = "x".toList :=
  have h := C4_no_section_pairs_stored
    { _loadFlags := LoadFlags.CaseSensitive ||| LoadFlags.AllowNoSection }
    "k=1\n; c\nj=2\n".toList (by decide) (by decide) (by decide)
  h.imp (fun _ hd => ⟨hd.1,
    (hd.2 "j=2".toList (by decide) "j".toList "2".toList (by decide)).1,
    (hd.2 "j=2".toList (by decide) "j".toList "2".toList (by decide)).2 "x".toList⟩)

/-- C5, the code at the claim's example: under Preserve, loading
`"[a]\n  k  =  v  \n"` leaves the document with the single entry `"k  "` of section
`a`, whose value is `"  v"`: `trim(key)` and `trim(value)` are skipped, but the spaces
at both ends of the line were already removed by `line = trim(line)` at line 34, so
the value `"  v  "` is not stored and the key has lost its leading spaces. -/
theorem C5_preserve_loses_outer_whitespace :
    trim "  k  =  v  ".toList = "k  =  v".toList
    ∧ lineKind { _whitespacePolicy := WhitespacePolicy.Preserve } "  k  =  v  ".toList
        = LineKind.pair "k  ".toList "  v".toList
    ∧ load { _whitespacePolicy := WhitespacePolicy.Preserve } [] "[a]\n  k  =  v  \n".toList
        = .ok [("a".toList, [("k  ".toList, "  v".toList)])]
    ∧ lookup [("a".toList, [("k  ".toList, "  v".toList)])] "a".toList "k  ".toList
        ≠ some "  v  ".toList :=
  ⟨by decide, by decide, by decide, by decide⟩

/-- C6: under key policy Throw_Error, an accepted key-value line whose key already
exists in the current section, at a 1-based index below `2^31` (the range of the `int`
counter), makes `load` fail with a `ParseError` whose line number is that index, the
document staying as the preceding lines left it; when the pair is not rejected for
standing outside a section, the error is the duplicated-key error. -/
theorem C6_duplicate_key_error_line (config : IniParserConfig) (_data : Data) (text : Str)
    (pre rest : List Str) (raw k v old : Str) (st : LoadState)
    (hpol : config._keyPolicy = DuplicateKeyPolicy.Throw_Error)
    (hsplit : getlines text = pre ++ raw :: rest)
    (hbound : pre.length + 1 < 2 ^ 31)
    (hpre : loadLines config (initialState _data) pre = .ok st)
    (hk : lineKind config raw = LineKind.pair k v)
    (hdup : lookup st._data st.currentSection k = some old) :
    (∃ message, load config _data text
        = .error { error := { message := message,
                              _lineNumber := ((pre.length + 1 : Nat) : Int) },
                   _data := st._data })
    ∧ (st.currentSection ≠ [] ∨ config._loadFlags &&& LoadFlags.AllowNoSection ≠ 0 →
        load config _data text
          = .error { error := { message := "Duplicated key: ".toList ++ k,
                                _lineNumber := ((pre.length + 1 : Nat) : Int) },
                     _data := st._data }) := by
  obtain ⟨hn, hload⟩ := load_at_line config _data text pre rest raw st hsplit hpre
  have hn := hn hbound
  rw [hload, loadLine_pair config st raw k v hk]
  constructor
  · by_cases hg : st.currentSection ≠ [] ∨ config._loadFlags &&& LoadFlags.AllowNoSection ≠ 0
    · rw [storePair_dup config st _ k v old hg hdup, hpol, hn]
      exact ⟨_, rfl⟩
    · simp only [not_or, not_not] at hg
      rw [storePair_outside config st _ k v hg.1 hg.2, hn]
      exact ⟨_, rfl⟩
  · intro hg
    rw [storePair_dup config st _ k v old hg hdup, hpol, hn]

/-- C6, an instance of the theorem at a concrete input. -/
theorem C6_duplicate_key_error_line_witness :
    load {} [] "[a]\nk=1\nk=2\n".toList
      = .error { error := { message := "Duplicated key: k".toList, _lineNumber := 3 },
                 _data := [("a".toList, [("k".toList, "1".toList)])] } :=
  (C6_duplicate_key_error_line {} [] "[a]\nk=1\nk=2\n".toList
    ["[a]".toList, "k=1".toList] [] "k=2".toList "k".toList "2".toList "1".toList
    { _data := [("a".toList, [("k".toList, "1".toList)])], currentSection := "a".toList,
      currentLineNumber := 3 }
    rfl (by decide) (by decide) (by decide) (by decide) (by decide)).2 (Or.inl (by decide))

/-- C7: under key policy Merge, an accepted key-value line with value `v` whose key
holds `old` in the current section succeeds and leaves the key with `old ++ v`, no
separator in between; no other entry of the document changes. -/
theorem C7_merge_concatenates (config : IniParserConfig) (st : LoadState)
    (raw k v old : Str)
    (hpol : config._keyPolicy = DuplicateKeyPolicy.Merge)
    (hk : lineKind config raw = LineKind.pair k v)
    (hguard : st.currentSection ≠ [] ∨ config._loadFlags &&& LoadFlags.AllowNoSection ≠ 0)
    (hdup : lookup st._data st.currentSection k = some old) :
    loadLine config st raw
        = .ok { _data := storeAt st._data st.currentSection k (old ++ v),
                currentSection := st.currentSection,
                currentLineNumber := nextLineNumber st.currentLineNumber }
    ∧ lookup (storeAt st._data st.currentSection k (old ++ v)) st.currentSection k
        = some (old ++ v)
    ∧ (∀ s k2, s ≠ st.currentSection ∨ k2 ≠ k →
        lookup (storeAt st._data st.currentSection k (old ++ v)) s k2 = lookup st._data s k2) := by
  refine ⟨?_, lookup_storeAt_self _ _ _ _, fun s k2 hne => lookup_storeAt_ne _ _ _ _ _ _ hne⟩
  rw [loadLine_pair config st raw k v hk, storePair_dup config st _ k v old hguard hdup, hpol]

/-- C7, an instance of the theorem at a concrete input. -/
theorem C7_merge_concatenates_witness :
    loadLine { _keyPolicy := DuplicateKeyPolicy.Merge }
        { _data := [("a".toList, [("k".toList, "1".toList)])], currentSection := "a".toList,
          currentLineNumber := 3 } "k=2".toList
      = .ok { _data := [("a".toList, [("k".toList, "12".toList)])], currentSection := "a".toList,
              currentLineNumber := 4 }
    ∧ load { _keyPolicy := DuplicateKeyPolicy.Merge } [] "[a]\nk=1\nk=2\n".toList
      = .ok [("a".toList, [("k".toList, "12".toList)])]
    ∧ get [("a".toList, [("k".toList, "12".toList)])] "a".toList "k".toList [] = "12".toList :=
  ⟨(C7_merge_concatenates { _keyPolicy := DuplicateKeyPolicy.Merge }
      { _data := [("a".toList, [("k".toList, "1".toList)])], currentSection := "a".toList,
        currentLineNumber := 3 } "k=2".toList "k".toList "2".toList "1".toList
      rfl (by decide) (Or.inl (by decide)) (by decide)).1,
    by decide, by decide⟩

/-- C8: under key policy Overwrite, an accepted key-value line whose key already
exists in the current section succeeds and replaces the stored value with the new
value, no other entry changing, and one whose key is new to the current section
stores its value; so after a successful load every key holds the value of its last
occurrence in its section: that value is stored unless a header of the section
follows under section policy Overwrite (which clears the section), and a key still
present never holds another value. -/
theorem C8_overwrite_last_value (config : IniParserConfig)
    (hpol : config._keyPolicy = DuplicateKeyPolicy.Overwrite) :
    (∀ (st : LoadState) (raw k v old : Str),
        lineKind config raw = LineKind.pair k v →
        (st.currentSection ≠ [] ∨ config._loadFlags &&& LoadFlags.AllowNoSection ≠ 0) →
        lookup st._data st.currentSection k = some old →
        loadLine config st raw
            = .ok { _data := storeAt st._data st.currentSection k v,
                    currentSection := st.currentSection,
                    currentLineNumber := nextLineNumber st.currentLineNumber }
        ∧ lookup (storeAt st._data st.currentSection k v) st.currentSection k = some v
        ∧ (∀ s k2, s ≠ st.currentSection ∨ k2 ≠ k →
            lookup (storeAt st._data st.currentSection k v) s k2 = lookup st._data s k2))
    ∧ (∀ (_data : Data) (text : Str) (d : Data), load config _data text = .ok d →
        ∀ (A B : List Event) (s k v : Str),
          events config [] (getlines text) = A ++ Event.pair s k v :: B →
          (∀ v2, Event.pair s k v2 ∉ B) →
          ∀ w, lookup d s k = some w → w = v)
    ∧ (∀ (st : LoadState) (raw k v : Str),
        lineKind config raw = LineKind.pair k v →
        (st.currentSection ≠ [] ∨ config._loadFlags &&& LoadFlags.AllowNoSection ≠ 0) →
        lookup st._data st.currentSection k = none →
        loadLine config st raw
            = .ok { _data := storeAt st._data st.currentSection k v,
                    currentSection := st.currentSection,
                    currentLineNumber := nextLineNumber st.currentLineNumber }
        ∧ lookup (storeAt st._data st.currentSection k v) st.currentSection k = some v)
    ∧ (∀ (_data : Data) (text : Str) (d : Data), load config _data text = .ok d →
        ∀ (A B : List Event) (s k v : Str),
          events config [] (getlines text) = A ++ Event.pair s k v :: B →
          (∀ v2, Event.pair s k v2 ∉ B) →
          (config._sectionPolicy = DuplicateSectionPolicy.Overwrite → Event.header s ∉ B) →
          lookup d s k = some v) := by
  refine ⟨?_, ?_, ?_, ?_⟩
  · intro st raw k v old hk hguard hdup
    refine ⟨?_, lookup_storeAt_self _ _ _ _, fun s k2 hne => lookup_storeAt_ne _ _ _ _ _ _ hne⟩
    rw [loadLine_pair config st raw k v hk, storePair_dup config st _ k v old hguard hdup, hpol]
  · intro _data text d hload A B s k v hev hlast w hw
    unfold load at hload
    cases hl : loadLines config
        { _data := _data, currentSection := [], currentLineNumber := 1 } (getlines text) with
    | error f => rw [hl] at hload; cases hload
    | ok st' =>
      rw [hl] at hload
      simp only [Except.ok.injEq] at hload
      subst hload
      exact overwrite_last_occurrence config (getlines text) _ st' A B s k v w hpol hl hev hlast hw
  · intro st raw k v hk hguard hnew
    refine ⟨?_, lookup_storeAt_self _ _ _ _⟩
    rw [loadLine_pair config st raw k v hk, storePair_new config st _ k v hguard hnew]
  · intro _data text d hload A B s k v hev hlast hclear
    unfold load at hload
    cases hl : loadLines config
        { _data := _data, currentSection := [], currentLineNumber := 1 } (getlines text) with
    | error f => rw [hl] at hload; cases hload
    | ok st' =>
      rw [hl] at hload
      simp only [Except.ok.injEq] at hload
      subst hload
      exact overwrite_last_value_stored config (getlines text) _ st' A B s k v hpol hl hev
        hlast hclear

/-- C8, an instance of the theorem at the claim's example: the document `d` loaded
from `"[a]\nk=1\nk=2\n"` has `get(d, "a", "k") = "2"`. -/
theorem C8_overwrite_last_value_witness :
    loadLine { _keyPolicy := DuplicateKeyPolicy.Overwrite }
        { _data := [("a".toList, [("k".toList, "1".toList)])], currentSection := "a".toList,
          currentLineNumber := 3 } "k=2".toList
      = .ok { _data := [("a".toList, [("k".toList, "2".toList)])], currentSection := "a".toList,
              currentLineNumber := 4 }
    ∧ loadLine { _keyPolicy := DuplicateKeyPolicy.Overwrite }
        { _data := [("a".toList, [])], currentSection := "a".toList,
          currentLineNumber := 2 } "k=1".toList
      = .ok { _data := [("a".toList, [("k".toList, "1".toList)])], currentSection := "a".toList,
              currentLineNumber := 3 }
    ∧ (∀ d, load { _keyPolicy := DuplicateKeyPolicy.Overwrite } [] "[a]\nk=1\nk=2\n".toList
            = .ok d →
        lookup d "a".toList "k".toList = some "2".toList
        ∧ get d "a".toList "k".toList [] = "2".toList)
    ∧ load { _keyPolicy := DuplicateKeyPolicy.Overwrite } [] "[a]\nk=1\nk=2\n".toList
      = .ok [("a".toList, [("k".toList, "2".toList)])] :=
  have h := C8_overwrite_last_value { _keyPolicy := DuplicateKeyPolicy.Overwrite } rfl
  have hlast : ∀ d, load { _keyPolicy := DuplicateKeyPolicy.Overwrite } []
      "[a]\nk=1\nk=2\n".toList = .ok d → lookup d "a".toList "k".toList = some "2".toList :=
    fun d hd => h.2.2.2 [] "[a]\nk=1\nk=2\n".toList d hd
      [Event.header "a".toList, Event.pair "a".toList "k".toList "1".toList] []
      "a".toList "k".toList "2".toList (by decide)
      (fun v2 hm => absurd hm (List.not_mem_nil _))
      (fun _ hm => absurd hm (List.not_mem_nil _))
  ⟨(h.1 { _data := [("a".toList, [("k".toList, "1".toList)])], currentSection := "a".toList,
          currentLineNumber := 3 } "k=2".toList "k".toList "2".toList "1".toList
      (by decide) (Or.inl (by decide)) (by decide)).1,
   (h.2.2.1 { _data := [("a".toList, [])], currentSection := "a".toList,
               currentLineNumber := 2 } "k=1".toList "k".toList "1".toList
      (by decide) (Or.inl (by decide)) (by decide)).1,
   fun d hd => ⟨hlast d hd, by
     have e := hlast d hd
     rw [get_eq, if_neg (by decide), e]
     rfl⟩,
   by decide⟩

/-- C9, the last sentence of the claim refuted: under key policy Ignore and section
policy Overwrite, loading `"[a]\nk=1\n[a]\nk=2\n"` leaves `k` of section `a` with
`"2"`, while the first occurrence of `k` in section `a` has the value `"1"`. -/
theorem C9_counterexample :
    load { _sectionPolicy := DuplicateSectionPolicy.Overwrite,
           _keyPolicy := DuplicateKeyPolicy.Ignore } [] "[a]\nk=1\n[a]\nk=2\n".toList
      = .ok [("a".toList, [("k".toList, "2".toList)])]
    ∧ events { _sectionPolicy := DuplicateSectionPolicy.Overwrite,
               _keyPolicy := DuplicateKeyPolicy.Ignore } [] (getlines "[a]\nk=1\n[a]\nk=2\n".toList)
      = [Event.header "a".toList, Event.pair "a".toList "k".toList "1".toList,
         Event.header "a".toList, Event.pair "a".toList "k".toList "2".toList]
    ∧ lookup [("a".toList, [("k".toList, "2".toList)])] "a".toList "k".toList
      ≠ some "1".toList := by
  decide

/-- C9 as amended: under key policy Ignore, an accepted key-value line whose key
already exists in the current section leaves the whole document (and the current
section) unchanged; under every key policy a key with no prior entry is inserted with
the value of the line; and after a successful load into an empty document every key
holds the value of the first of its occurrences in its section, where under section
policy Overwrite only the occurrences after the last header of that section count. -/
theorem C9_ignore_keeps_first_value (config : IniParserConfig)
    (hpol : config._keyPolicy = DuplicateKeyPolicy.Ignore) :
    (∀ (st : LoadState) (raw k v old : Str),
        lineKind config raw = LineKind.pair k v →
        (st.currentSection ≠ [] ∨ config._loadFlags &&& LoadFlags.AllowNoSection ≠ 0) →
        lookup st._data st.currentSection k = some old →
        loadLine config st raw
            = .ok { _data := st._data, currentSection := st.currentSection,
                    currentLineNumber := nextLineNumber st.currentLineNumber })
    ∧ (∀ (anyConfig : IniParserConfig) (st : LoadState) (raw k v : Str),
        lineKind anyConfig raw = LineKind.pair k v →
        (st.currentSection ≠ [] ∨ anyConfig._loadFlags &&& LoadFlags.AllowNoSection ≠ 0) →
        lookup st._data st.currentSection k = none →
        loadLine anyConfig st raw
            = .ok { _data := storeAt st._data st.currentSection k v,
                    currentSection := st.currentSection,
                    currentLineNumber := nextLineNumber st.currentLineNumber }
        ∧ lookup (storeAt st._data st.currentSection k v) st.currentSection k = some v)
    ∧ (∀ (text : Str) (d : Data), load config [] text = .ok d →
        ∀ (s k w : Str), lookup d s k = some w →
          ∃ A B, events config [] (getlines text) = A ++ Event.pair s k w :: B
            ∧ (config._sectionPolicy = DuplicateSectionPolicy.Overwrite → Event.header s ∉ B)
            ∧ (∀ A1 A2 v2, A = A1 ++ Event.pair s k v2 :: A2 →
                config._sectionPolicy = DuplicateSectionPolicy.Overwrite
                  ∧ Event.header s ∈ A2)) := by
  refine ⟨?_, ?_, ?_⟩
  · intro st raw k v old hk hguard hdup
    rw [loadLine_pair config st raw k v hk, storePair_dup config st _ k v old hguard hdup, hpol]
  · intro anyConfig st raw k v hk hguard hnew
    refine ⟨?_, lookup_storeAt_self _ _ _ _⟩
    rw [loadLine_pair anyConfig st raw k v hk, storePair_new anyConfig st _ k v hguard hnew]
  · intro text d hload s k w hw
    unfold load at hload
    cases hl : loadLines config
        { _data := [], currentSection := [], currentLineNumber := 1 } (getlines text) with
    | error f => rw [hl] at hload; cases hload
    | ok st' =>
      rw [hl] at hload
      simp only [Except.ok.injEq] at hload
      subst hload
      rcases ignore_first_occurrence config (getlines text) _ st' s k w hpol hl hw with
        ⟨a1, _⟩ | ⟨A, B, b1, b2, b3, _⟩
      · cases a1
      · exact ⟨A, B, b1, b2, b3⟩

/-- C9, an instance of the theorem at a concrete input. -/
theorem C9_ignore_keeps_first_value_witness :
    loadLine { _keyPolicy := DuplicateKeyPolicy.Ignore }
        { _data := [("a".toList, [("k".toList, "1".toList)])], currentSection := "a".toList,
          currentLineNumber := 3 } "k=2".toList
      = .ok { _data := [("a".toList, [("k".toList, "1".toList)])], currentSection := "a".toList,
              currentLineNumber := 4 }
    ∧ load { _keyPolicy := DuplicateKeyPolicy.Ignore } [] "[a]\nk=1\nk=2\n".toList
      = .ok [("a".toList, [("k".toList, "1".toList)])]
    ∧ ∃ A B, events { _keyPolicy := DuplicateKeyPolicy.Ignore } []
          (getlines "[a]\nk=1\nk=2\n".toList)
        = A ++ Event.pair "a".toList "k".toList "1".toList :: B
      ∧ ∀ A1 A2 v2, A = A1 ++ Event.pair "a".toList "k".toList v2 :: A2 →
          ({ _keyPolicy := DuplicateKeyPolicy.Ignore } : IniParserConfig)._sectionPolicy
            = DuplicateSectionPolicy.Overwrite ∧ Event.header "a".toList ∈ A2 :=
  have h := C9_ignore_keeps_first_value { _keyPolicy := DuplicateKeyPolicy.Ignore } rfl
  ⟨h.1 { _data := [("a".toList, [("k".toList, "1".toList)])], currentSection := "a".toList,
         currentLineNumber := 3 } "k=2".toList "k".toList "2".toList "1".toList
      (by decide) (Or.inl (by decide)) (by decide),
    by decide,
    (h.2.2 "[a]\nk=1\nk=2\n".toList [("a".toList, [("k".toList, "1".toList)])] (by decide)
      "a".toList "k".toList "1".toList (by decide)).imp
      (fun _ hA => hA.imp (fun _ hB => ⟨hB.1, hB.2.2⟩))⟩

/-- C10: with `AllowNoSection` unset, an accepted key-value line met while the
current section is the empty name, at a 1-based index below `2^31` (the range of the
`int` counter), makes `load` fail with the outside-of-a-section `ParseError` whose
line number is that index, and the document stays as the preceding lines left it. -/
theorem C10_pair_outside_section_error (config : IniParserConfig) (_data : Data) (text : Str)
    (pre rest : List Str) (raw k v : Str) (st : LoadState)
    (hflag : config._loadFlags &&& LoadFlags.AllowNoSection = 0)
    (hsplit : getlines text = pre ++ raw :: rest)
    (hbound : pre.length + 1 < 2 ^ 31)
    (hpre : loadLines config (initialState _data) pre = .ok st)
    (hk : lineKind config raw = LineKind.pair k v)
    (hcur : st.currentSection = []) :
    load config _data text
      = .error { error := { message :=
                              "Key-value pair found outside of a section: ".toList ++ trim raw,
                            _lineNumber := ((pre.length + 1 : Nat) : Int) },
                 _data := st._data } := by
  obtain ⟨hn, hload⟩ := load_at_line config _data text pre rest raw st hsplit hpre
  rw [hload, loadLine_pair config st raw k v hk, storePair_outside config st _ k v hcur hflag,
    hn hbound]

/-- C10, an instance of the theorem at a concrete input. -/
theorem C10_pair_outside_section_error_witness :
    load {} [] "k=1\n".toList
      = .error { error := { message :=
                              "Key-value pair found outside of a section: k=1".toList,
                            _lineNumber := 1 },
                 _data := [] } :=
  C10_pair_outside_section_error {} [] "k=1\n".toList [] [] "k=1".toList "k".toList "1".toList
    (initialState []) (by decide) (by decide) (by decide) (by decide) (by decide) (by decide)

/-- C11: `get` is total; it returns the default when the section string or the key
string is empty, and otherwise the value stored for exactly that section and key, or
the default when the section or the key in it is absent. The strings are compared as
they are: a section or key differing in case or in surrounding whitespace is absent. -/
theorem C11_get_exact_or_default :
    (∀ (_data : Data) (s k defaultValue : Str),
      get _data s k defaultValue
        = if s = [] ∨ k = [] then defaultValue else (lookup _data s k).getD defaultValue)
    ∧ get [("a".toList, [("K".toList, "v".toList)])] "a".toList "K".toList "d".toList
        = "v".toList
    ∧ get [("a".toList, [("K".toList, "v".toList)])] "a".toList "k".toList "d".toList
        = "d".toList
    ∧ get [("a".toList, [("K".toList, "v".toList)])] "A".toList "K".toList "d".toList
        = "d".toList
    ∧ get [("a".toList, [("K".toList, "v".toList)])] "a".toList " K".toList "d".toList
        = "d".toList
    ∧ get [("a".toList, [("K".toList, "v".toList)])] "missing".toList "k".toList
        "fallback".toList = "fallback".toList
    ∧ get [([], [([], "v".toList)])] [] [] "fallback".toList = "fallback".toList :=
  ⟨get_eq, by decide, by decide, by decide, by decide, by decide, by decide⟩

/-- C12: under section policy Overwrite, a header naming a section that already
exists succeeds, leaves that section without any key and every other section as it
was; and after a successful load the keys of a section that has a header are exactly
the keys of the key-value lines that follow the last header of that section. -/
theorem C12_overwrite_clears_section (config : IniParserConfig)
    (hpol : config._sectionPolicy = DuplicateSectionPolicy.Overwrite) :
    (∀ (st : LoadState) (raw name : Str) (sec : Section),
        lineKind config raw = LineKind.header name →
        mapFind st._data name = some sec →
        loadLine config st raw
            = .ok { _data := mapInsert st._data name [], currentSection := name,
                    currentLineNumber := nextLineNumber st.currentLineNumber }
        ∧ mapFind (mapInsert st._data name []) name = some []
        ∧ (∀ s, s ≠ name → mapFind (mapInsert st._data name []) s = mapFind st._data s))
    ∧ (∀ (_data : Data) (text : Str) (d : Data), load config _data text = .ok d →
        ∀ (A B : List Event) (s k : Str),
          events config [] (getlines text) = A ++ Event.header s :: B →
          Event.header s ∉ B →
          (lookup d s k ≠ none ↔ ∃ v, Event.pair s k v ∈ B)) := by
  constructor
  · intro st raw name sec hk hex
    refine ⟨?_, mapFind_mapInsert_self _ _ _, fun s hs => mapFind_mapInsert_ne _ _ _ _ hs⟩
    rw [loadLine_header config st raw name hk]
    simp only [enterSection, hex, hpol]
  · intro _data text d hload A B s k hev hlast
    unfold load at hload
    cases hl : loadLines config
        { _data := _data, currentSection := [], currentLineNumber := 1 } (getlines text) with
    | error f => rw [hl] at hload; cases hload
    | ok st' =>
      rw [hl] at hload
      simp only [Except.ok.injEq] at hload
      subst hload
      exact overwrite_section_after_last_header config (getlines text) _ st' A B s k hpol hl
        hev hlast

/-- C12, an instance of the theorem at a concrete input. -/
theorem C12_overwrite_clears_section_witness :
    loadLine { _sectionPolicy := DuplicateSectionPolicy.Overwrite }
        { _data := [("a".toList, [("x".toList, "1".toList)]), ("b".toList, [("y".toList, "2".toList)])],
          currentSection := "b".toList, currentLineNumber := 5 } "[a]".toList
      = .ok { _data := [("a".toList, []), ("b".toList, [("y".toList, "2".toList)])],
              currentSection := "a".toList, currentLineNumber := 6 }
    ∧ load { _sectionPolicy := DuplicateSectionPolicy.Overwrite } []
        "[a]\nx=1\n[b]\ny=2\n[a]\nz=3\n".toList
      = .ok [("a".toList, [("z".toList, "3".toList)]), ("b".toList, [("y".toList, "2".toList)])]
    ∧ (lookup [("a".toList, [("z".toList, "3".toList)]), ("b".toList, [("y".toList, "2".toList)])]
          "a".toList "x".toList ≠ none ↔
        ∃ v, Event.pair "a".toList "x".toList v ∈ [Event.pair "a".toList "z".toList "3".toList]) :=
  have h := C12_overwrite_clears_section { _sectionPolicy := DuplicateSectionPolicy.Overwrite } rfl
  ⟨(h.1 { _data := [("a".toList, [("x".toList, "1".toList)]),
                    ("b".toList, [("y".toList, "2".toList)])],
          currentSection := "b".toList, currentLineNumber := 5 } "[a]".toList "a".toList
      [("x".toList, "1".toList)] (by decide) (by decide)).1,
    by decide,
    h.2 [] "[a]\nx=1\n[b]\ny=2\n[a]\nz=3\n".toList
      [("a".toList, [("z".toList, "3".toList)]), ("b".toList, [("y".toList, "2".toList)])]
      (by decide)
      [Event.header "a".toList, Event.pair "a".toList "x".toList "1".toList,
       Event.header "b".toList, Event.pair "b".toList "y".toList "2".toList]
      [Event.pair "a".toList "z".toList "3".toList] "a".toList "x".toList (by decide)
      (by decide)⟩

/-- C13: under section policy Throw_Error, a header naming a section that already
exists, at a 1-based index below `2^31` (the range of the `int` counter), makes `load`
fail with the duplicate-section `ParseError` whose line number is that index; the
document the failure leaves is the one the preceding lines produced. -/
theorem C13_duplicate_section_error (config : IniParserConfig) (_data : Data) (text : Str)
    (pre rest : List Str) (raw name : Str) (sec : Section) (st : LoadState)
    (hpol : config._sectionPolicy = DuplicateSectionPolicy.Throw_Error)
    (hsplit : getlines text = pre ++ raw :: rest)
    (hbound : pre.length + 1 < 2 ^ 31)
    (hpre : loadLines config (initialState _data) pre = .ok st)
    (hk : lineKind config raw = LineKind.header name)
    (hex : mapFind st._data name = some sec) :
    load config _data text
      = .error { error := { message := "Duplicate section: ".toList ++ name,
                            _lineNumber := ((pre.length + 1 : Nat) : Int) },
                 _data := st._data } := by
  obtain ⟨hn, hload⟩ := load_at_line config _data text pre rest raw st hsplit hpre
  rw [hload, loadLine_header config st raw name hk]
  simp only [enterSection, hex, hpol, hn hbound]

/-- C13, an instance of the theorem at a concrete input. -/
theorem C13_duplicate_section_error_witness :
    load {} [] "[a]\nk=1\n\n[a]\nj=2\n".toList
      = .error { error := { message := "Duplicate section: a".toList, _lineNumber := 4 },
                 _data := [("a".toList, [("k".toList, "1".toList)])] } :=
  C13_duplicate_section_error {} [] "[a]\nk=1\n\n[a]\nj=2\n".toList
    ["[a]".toList, "k=1".toList, []] ["j=2".toList] "[a]".toList "a".toList
    [("k".toList, "1".toList)]
    { _data := [("a".toList, [("k".toList, "1".toList)])], currentSection := "a".toList,
      currentLineNumber := 4 }
    rfl (by decide) (by decide) (by decide) (by decide) (by decide)

/-- C14: for a text of fewer than `2^31` lines (the range of the `int` counter),
when `load` fails, it fails at one line of the text, all lines before it having been
processed; the `ParseError` carries the 1-based index of that line among all the lines
of the text, and the document is as the preceding lines left it. In particular a line
that is neither skipped nor a header and has no `'='` fails with the no-delimiter error
carrying its own index. -/
theorem C14_error_line_number (config : IniParserConfig) (_data : Data) (text : Str)
    (hshort : (getlines text).length < 2 ^ 31) :
    (∀ f, load config _data text = .error f →
      ∃ pre raw rest st, getlines text = pre ++ raw :: rest
        ∧ loadLines config (initialState _data) pre = .ok st
        ∧ loadLine config st raw = .error f
        ∧ f.error._lineNumber = ((pre.length + 1 : Nat) : Int)
        ∧ f._data = st._data)
    ∧ (∀ pre raw rest st, getlines text = pre ++ raw :: rest →
        loadLines config (initialState _data) pre = .ok st →
        lineKind config raw = LineKind.noDelimiter →
        load config _data text
          = .error { error := { message := "Invalid line (no '=' found): ".toList ++ trim raw,
                                _lineNumber := ((pre.length + 1 : Nat) : Int) },
                     _data := st._data }) := by
  have hb : ∀ (pre rest : List Str) (raw : Str), getlines text = pre ++ raw :: rest →
      pre.length + 1 < 2 ^ 31 := by
    intro pre rest raw e
    rw [e] at hshort
    simp only [List.length_append, List.length_cons] at hshort
    omega
  constructor
  · intro f hf
    rw [load_error_iff] at hf
    obtain ⟨pre, raw, rest, st, e1, e2, e3⟩ := loadLines_error_split config _ _ f hf
    obtain ⟨a1, a2⟩ := loadLine_error config st raw f e3
    refine ⟨pre, raw, rest, st, e1, e2, e3, ?_, a2⟩
    rw [a1]
    exact (load_at_line config _data text pre rest raw st e1 e2).1 (hb pre rest raw e1)
  · intro pre raw rest st hsplit hpre hk
    obtain ⟨hn, hload⟩ := load_at_line config _data text pre rest raw st hsplit hpre
    rw [hload, loadLine_eq, hk]
    simp only [dispatch, hn (hb pre rest raw hsplit)]

/-- C14, an instance of the theorem at a concrete input. -/
theorem C14_error_line_number_witness :
    (∃ pre raw rest st, getlines "; c\n\n[a]\nk=1\noops\nj=2\n".toList = pre ++ raw :: rest
      ∧ loadLines {} (initialState []) pre = .ok st
      ∧ loadLine {} st raw
          = .error { error := { message := "Invalid line (no '=' found): oops".toList,
                                _lineNumber := 5 },
                     _data := [("a".toList, [("k".toList, "1".toList)])] }
      ∧ (5 : Int) = ((pre.length + 1 : Nat) : Int)
      ∧ [("a".toList, [("k".toList, "1".toList)])] = st._data)
    ∧ load {} [] "; c\n\n[a]\nk=1\noops\nj=2\n".toList
        = .error { error := { message := "Invalid line (no '=' found): oops".toList,
                              _lineNumber := 5 },
                   _data := [("a".toList, [("k".toList, "1".toList)])] } :=
  have h := C14_error_line_number {} [] "; c\n\n[a]\nk=1\noops\nj=2\n".toList (by decide)
  ⟨h.1 _ (by decide),
   h.2 ["; c".toList, [], "[a]".toList, "k=1".toList] "oops".toList ["j=2".toList]
     { _data := [("a".toList, [("k".toList, "1".toList)])], currentSection := "a".toList,
       currentLineNumber := 5 } (by decide) (by decide) (by decide)⟩

/-- C15: for a key-value line at a 1-based index below `2^31` (the range of the `int`
counter), with `kt` and `vt` the text before and after its first `'='`, and under
either whitespace policy: when `trim` leaves nothing of `kt` and
`AllowNoKey` is unset, `load` fails with the empty-key error at the index of the line,
whatever the value and the current section; otherwise, when `trim` leaves nothing of
`vt` and `AllowNoValue` is unset, `load` fails with the empty-value error at the index
of the line, whatever the current section; otherwise the pair is accepted, with an
empty key or value where `trim` leaves nothing, and a pair that passes the section
check with a key new to the current section is stored. -/
theorem C15_empty_key_and_value_checks (config : IniParserConfig) (raw kt vt : Str)
    (hraw : rawPair raw = some (kt, vt)) :
    (trim kt = [] → config._loadFlags &&& LoadFlags.AllowNoKey = 0 →
      ∀ (_data : Data) (text : Str) (pre rest : List Str) (st : LoadState),
        getlines text = pre ++ raw :: rest →
        pre.length + 1 < 2 ^ 31 →
        loadLines config (initialState _data) pre = .ok st →
        load config _data text
          = .error { error := { message := "Empty key in line: ".toList ++ trim raw,
                                _lineNumber := ((pre.length + 1 : Nat) : Int) },
                     _data := st._data })
    ∧ ((trim kt ≠ [] ∨ config._loadFlags &&& LoadFlags.AllowNoKey ≠ 0) → trim vt = [] →
        config._loadFlags &&& LoadFlags.AllowNoValue = 0 →
      ∀ (_data : Data) (text : Str) (pre rest : List Str) (st : LoadState),
        getlines text = pre ++ raw :: rest →
        pre.length + 1 < 2 ^ 31 →
        loadLines config (initialState _data) pre = .ok st →
        load config _data text
          = .error { error := { message := "Empty value for key: ".toList
                                  ++ (if config._whitespacePolicy = WhitespacePolicy.Trim
                                        then trim kt else kt)
                                  ++ " in line: ".toList ++ trim raw,
                                _lineNumber := ((pre.length + 1 : Nat) : Int) },
                     _data := st._data })
    ∧ ((trim kt ≠ [] ∨ config._loadFlags &&& LoadFlags.AllowNoKey ≠ 0) →
        (trim vt ≠ [] ∨ config._loadFlags &&& LoadFlags.AllowNoValue ≠ 0) →
      ∃ k v, lineKind config raw = LineKind.pair k v
        ∧ (trim kt = [] → k = []) ∧ (trim vt = [] → v = [])
        ∧ ∀ (st : LoadState),
            (st.currentSection ≠ [] ∨ config._loadFlags &&& LoadFlags.AllowNoSection ≠ 0) →
            lookup st._data st.currentSection k = none →
            loadLine config st raw
                = .ok { _data := storeAt st._data st.currentSection k v,
                        currentSection := st.currentSection,
                        currentLineNumber := nextLineNumber st.currentLineNumber }
            ∧ lookup (storeAt st._data st.currentSection k v) st.currentSection k = some v) := by
  refine ⟨?_, ?_, ?_⟩
  · intro hk hflag _data text pre rest st hsplit hbound hpre
    obtain ⟨hn, hload⟩ := load_at_line config _data text pre rest raw st hsplit hpre
    have hn := hn hbound
    rw [hload, loadLine_eq, lineKind_emptyKey config raw kt vt hraw hk hflag]
    simp only [dispatch, hn]
  · intro hk hv hflag _data text pre rest st hsplit hbound hpre
    obtain ⟨hn, hload⟩ := load_at_line config _data text pre rest raw st hsplit hpre
    have hn := hn hbound
    rw [hload, loadLine_eq, lineKind_emptyValue config raw kt vt hraw hk hv hflag]
    simp only [dispatch, hn]
  · intro hk hv
    have hkind := lineKind_accepted config raw kt vt hraw hk hv
    obtain ⟨p1, p2⟩ := rawPair_policy_nil config raw kt vt hraw
    refine ⟨_, _, hkind, p1.2, p2.2, ?_⟩
    intro st hguard hnew
    refine ⟨?_, lookup_storeAt_self _ _ _ _⟩
    rw [loadLine_pair config st raw _ _ hkind, storePair_new config st _ _ _ hguard hnew]

/-- C15, instances of the theorem at concrete inputs. -/
theorem C15_empty_key_and_value_checks_witness :
    load {} [] "=\n".toList
      = .error { error := { message := "Empty key in line: =".toList, _lineNumber := 1 },
                 _data := [] }
    ∧ load { _whitespacePolicy := WhitespacePolicy.Preserve } [] "k=\n".toList
      = .error { error := { message := "Empty value for key: k in line: k=".toList,
                            _lineNumber := 1 },
                 _data := [] }
    ∧ ∃ k v, lineKind { _loadFlags := LoadFlags.AllowNoKey ||| LoadFlags.AllowNoValue }
          " = ".toList = LineKind.pair k v
        ∧ (trim [] = [] → k = []) ∧ (trim [] = [] → v = []) :=
  ⟨(C15_empty_key_and_value_checks {} "=".toList [] [] (by decide)).1 (by decide) (by decide)
      [] "=\n".toList [] [] (initialState []) (by decide) (by decide) (by decide),
   (C15_empty_key_and_value_checks { _whitespacePolicy := WhitespacePolicy.Preserve }
      "k=".toList "k".toList [] (by decide)).2.1 (Or.inl (by decide)) (by decide) (by decide)
      [] "k=\n".toList [] [] (initialState []) (by decide) (by decide) (by decide),
   ((C15_empty_key_and_value_checks
      { _loadFlags := LoadFlags.AllowNoKey ||| LoadFlags.AllowNoValue }
      " = ".toList [] [] (by decide)).2.2 (Or.inr (by decide)) (Or.inr (by decide))).imp
      (fun _ hk => hk.imp (fun _ hv => ⟨hv.1, hv.2.1, hv.2.2.1⟩))⟩

/-- C16: `to_string` is the concatenation, over the sections in the order of the map,
of `"[" ++ name ++ "]\n"` followed, over the entries of the section in the order of
the map, by `key ++ " = " ++ value ++ "\n"`, with nothing else in between, and the
empty document gives the empty text; the order of a map is strictly ascending in
`strLt` (the lexicographic order) for the sections and for the keys of each section,
which `load` maintains; and two documents with the same sections and the same
values have the same text, however they were built. -/
theorem C16_to_string_canonical :
    (∀ (_data : Data), to_string _data = _data.flatMap (fun sk =>
        ['['] ++ sk.1 ++ "]\n".toList
          ++ sk.2.flatMap (fun kv => kv.1 ++ " = ".toList ++ kv.2 ++ ['\n'])))
    ∧ to_string [] = []
    ∧ (∀ (config : IniParserConfig) (_data d : Data) (text : Str),
        wellFormed _data → load config _data text = .ok d →
        d.Pairwise (fun a b => strLt a.1 b.1 = true)
        ∧ ∀ sk ∈ d, sk.2.Pairwise (fun a b => strLt a.1 b.1 = true))
    ∧ (∀ (d1 d2 : Data), wellFormed d1 → wellFormed d2 →
        (∀ s, (mapFind d1 s).isSome = (mapFind d2 s).isSome) →
        (∀ s k, lookup d1 s k = lookup d2 s k) →
        to_string d1 = to_string d2) := by
  refine ⟨to_string_eq_flatMap, rfl, ?_, ?_⟩
  · intro config _data d text hwf hload
    exact wellFormed_load config _data d text hwf hload
  · intro d1 d2 h1 h2 hsec hval
    rw [wellFormed_ext d1 d2 h1 h2 hsec hval]

/-- C16, instances of the theorem at concrete inputs. -/
theorem C16_to_string_canonical_witness :
    to_string [("a".toList, [("y".toList, "3".toList), ("z".toList, "2".toList)]),
               ("b".toList, [("k".toList, "1".toList)])]
      = "[a]\ny = 3\nz = 2\n[b]\nk = 1\n".toList
    ∧ load {} [] "[b]\nk=1\n[a]\nz=2\ny=3\n".toList
      = .ok [("a".toList, [("y".toList, "3".toList), ("z".toList, "2".toList)]),
             ("b".toList, [("k".toList, "1".toList)])]
    ∧ load {} [] "[a]\ny=3\nz=2\n[b]\nk=1\n".toList
      = .ok [("a".toList, [("y".toList, "3".toList), ("z".toList, "2".toList)]),
             ("b".toList, [("k".toList, "1".toList)])]
    ∧ List.Pairwise (fun a b => strLt a.1 b.1 = true)
        [("a".toList, [("y".toList, "3".toList), ("z".toList, "2".toList)]),
         ("b".toList, [("k".toList, "1".toList)])]
    ∧ to_string [("a".toList, [("y".toList, "3".toList), ("z".toList, "2".toList)]),
                 ("b".toList, [("k".toList, "1".toList)])]
      = to_string [("a".toList, [("y".toList, "3".toList), ("z".toList, "2".toList)]),
                   ("b".toList, [("k".toList, "1".toList)])] :=
  have h := C16_to_string_canonical
  ⟨by decide, by decide, by decide,
   (h.2.2.1 {} [] _ "[b]\nk=1\n[a]\nz=2\ny=3\n".toList (by decide) (by decide)).1,
   h.2.2.2 _ _ (by decide) (by decide) (fun _ => rfl) (fun _ _ => rfl)⟩

/-- C17, the claim refuted: for the document with the single entry `k` of section
`a` holding `" x"`, the text of `to_string` is `"[a]\nk =  x\n"`, while the document
loaded from that text has the text `"[a]\nk = x\n"`. -/
theorem C17_counterexample :
    to_string [("a".toList, [("k".toList, " x".toList)])] = "[a]\nk =  x\n".toList
    ∧ load {} [] (to_string [("a".toList, [("k".toList, " x".toList)])])
      = .ok [("a".toList, [("k".toList, "x".toList)])]
    ∧ to_string [("a".toList, [("k".toList, "x".toList)])] = "[a]\nk = x\n".toList
    ∧ to_string [("a".toList, [("k".toList, "x".toList)])]
      ≠ to_string [("a".toList, [("k".toList, " x".toList)])] :=
  ⟨by decide, by decide, by decide, by decide⟩

/-- C17 as amended: for every document (a map of maps, keys ascending) with plain
sections (names without line break and non-empty when the section has entries; keys
non-empty, without whitespace at their ends, without line break or `'='`, not starting
with `';'` or `'#'`; values non-empty, without whitespace at their ends, without line
break; no key starting with `'['` whose value ends with `']'`), loading the text of
`to_string` into an empty document under the default config succeeds, and the text
of `to_string` of the loaded document is the same text. -/
theorem C17_resave_plain (doc : Data) (hwf : wellFormed doc)
    (hplain : doc.all plainSection = true) :
    ∃ d, load {} [] (to_string doc) = .ok d ∧ to_string d = to_string doc :=
  ⟨doc, load_to_string_plain doc hwf hplain, rfl⟩

/-- C17, an instance of the theorem at a concrete input. -/
theorem C17_resave_plain_witness :
    ∃ d, load {} [] (to_string [("a".toList, [("k".toList, "1".toList)]), ("b".toList, [])])
        = .ok d
      ∧ to_string d = to_string [("a".toList, [("k".toList, "1".toList)]), ("b".toList, [])] :=
  C17_resave_plain _ (by decide) (by decide)

/-- C18: two configurations that differ only in the section policy being Ignore or
Merge give the same result of `load` for every text and initial document: the same
document, or the same error with the same line number and the same document left
behind. -/
theorem C18_ignore_same_as_merge (config : IniParserConfig) (_data : Data) (text : Str) :
    load { config with _sectionPolicy := DuplicateSectionPolicy.Ignore } _data text
      = load { config with _sectionPolicy := DuplicateSectionPolicy.Merge } _data text := by
  unfold load
  rw [loadLines_ignore_eq_merge]

/-- C19: two configurations with the same policies that agree on the flags
`AllowNoSection`, `AllowNoKey` and `AllowNoValue` (so differ at most in
`CaseSensitive`) give the same result of `load` for every text and initial document. -/
theorem C19_case_flag_not_read (c1 c2 : IniParserConfig) (_data : Data) (text : Str)
    (hs : c1._sectionPolicy = c2._sectionPolicy) (hk : c1._keyPolicy = c2._keyPolicy)
    (hw : c1._whitespacePolicy = c2._whitespacePolicy)
    (h1 : c1._loadFlags &&& LoadFlags.AllowNoSection = c2._loadFlags &&& LoadFlags.AllowNoSection)
    (h2 : c1._loadFlags &&& LoadFlags.AllowNoKey = c2._loadFlags &&& LoadFlags.AllowNoKey)
    (h3 : c1._loadFlags &&& LoadFlags.AllowNoValue = c2._loadFlags &&& LoadFlags.AllowNoValue) :
    load c1 _data text = load c2 _data text := by
  unfold load
  rw [loadLines_congr c1 c2 _ _ hs hk hw h1 h2 h3]

/-- C19, an instance of the theorem at a concrete input. -/
theorem C19_case_flag_not_read_witness :
    load { _loadFlags := LoadFlags.CaseSensitive ||| LoadFlags.AllowNoValue } []
        "[A]\nK=Val\nE=\n".toList
      = load { _loadFlags := LoadFlags.AllowNoValue } [] "[A]\nK=Val\nE=\n".toList :=
  C19_case_flag_not_read { _loadFlags := LoadFlags.CaseSensitive ||| LoadFlags.AllowNoValue }
    { _loadFlags := LoadFlags.AllowNoValue } [] "[A]\nK=Val\nE=\n".toList
    rfl rfl rfl (by decide) (by decide) (by decide)

/-- C20: when a text loads successfully into an empty document under the default
config, giving the document `d`, loading the text of `to_string d` into an empty
document under the default config succeeds and gives exactly `d` (so the text of
`to_string` of the reloaded document is that of `d`). -/
theorem C20_parsed_document_fixed_point (text : Str) (d : Data)
    (h : load {} [] text = .ok d) :
    load {} [] (to_string d) = .ok d
    ∧ ∃ d2, load {} [] (to_string d) = .ok d2 ∧ to_string d2 = to_string d := by
  obtain ⟨hwf, hplain⟩ := plain_of_default_load text d h
  exact ⟨load_to_string_plain d hwf hplain, d, load_to_string_plain d hwf hplain, rfl⟩

/-- C20, an instance of the theorem at a concrete input. -/
theorem C20_parsed_document_fixed_point_witness :
    load {} [] "; c\n[b]\n  k  =  v w  \n[]\n[a]\nz = [1]\ny==\n".toList
      = .ok [([], []), ("a".toList, [("y".toList, "=".toList), ("z".toList, "[1]".toList)]),
             ("b".toList, [("k".toList, "v w".toList)])]
    ∧ load {} [] (to_string [([], []),
          ("a".toList, [("y".toList, "=".toList), ("z".toList, "[1]".toList)]),
          ("b".toList, [("k".toList, "v w".toList)])])
      = .ok [([], []), ("a".toList, [("y".toList, "=".toList), ("z".toList, "[1]".toList)]),
             ("b".toList, [("k".toList, "v w".toList)])] :=
  ⟨by decide,
   (C20_parsed_document_fixed_point
      "; c\n[b]\n  k  =  v w  \n[]\n[a]\nz = [1]\ny==\n".toList _ (by decide)).1⟩

end ini
